import Mathlib

/-!
# hc: a static site generator in C (`src/main.c`)

Shallow embedding of the content resolution and rendering core of `main.c`
and proofs of its specified properties.

Modelling conventions.

* A value of type `List Char` used as a *string* stands for the contents of a
  NUL-terminated C string, terminator excluded.  C strings cannot hold the
  NUL byte, so theorems about texts assume `'\x00' ∉ text` where the code
  inspects the bytes of a mutable buffer.
* A `char *` that may be `NULL` is an `Option`; `none` is `NULL`.
* `size_t` is 64 bits wide; arithmetic that can wrap is reduced modulo `2^64`.
* Loops and recursions whose termination depends on the input take a `fuel`
  argument and return `none` when it runs out; results are then stated for
  every sufficiently large amount of fuel.
-/

namespace HC

/-! ## Memory -/

/-- The number of values of `size_t` (`2^64`). -/
def SIZE_MOD : Nat := 18446744073709551616

/-- Addition of `size_t`. -/
def size_add (a b : Nat) : Nat := (a + b) % SIZE_MOD

/-- Subtraction of `size_t`: wraps around when `b` exceeds `a`. -/
def size_sub (a b : Nat) : Nat := (a + (SIZE_MOD - b % SIZE_MOD)) % SIZE_MOD

/-- The bookkeeping fields of `struct buf`; the characters themselves are
carried separately by the functions that use the buffer. -/
structure buf where
  len : Nat
  cap : Nat
  deriving Repr, DecidableEq

/-- Embeds `buf_realloc`: set the length, and grow the capacity to `2 * len + 1`
unless the length is already strictly below the capacity.  The product and the
sum are taken modulo `2^64`, as `size_t` arithmetic does.  The source asserts
`len > 0` on entry; the embedding leaves this to the caller, the value
computed does not depend on it. -/
def buf_realloc (b : buf) (len : Nat) : buf :=
  if len < b.cap then { b with len := len }
  else { len := len, cap := size_add (len * 2 % SIZE_MOD) 1 }

/-! ## Strings -/

/-- Embeds `strlen`. -/
def strlen (s : List Char) : Nat := s.length

/-- Embeds `strstr(haystack, needle)`: offset of the first occurrence of `needle`
in `haystack`, `none` for `NULL`.  An empty needle is found at offset 0. -/
def strstr : List Char → List Char → Option Nat
  | [], find => if find.isEmpty then some 0 else none
  | c :: cs, find =>
    if find.isPrefixOf (c :: cs) then some 0
    else (strstr cs find).map (· + 1)

/-- Embeds `strsub(dst, src, find, rep)`.  `dst` holds the characters already
written to the destination; the result is everything written by the call,
the final `strcpy` included.  One unit of fuel is spent per loop test. -/
def strsub : Nat → List Char → List Char → List Char → List Char → Option (List Char)
  | 0, _, _, _, _ => none
  | fuel + 1, dst, src, find, rep =>
    match strstr src find with
    | some offset =>
      -- memcpy(dst, src, offset); memcpy(dst + offset, rep, rep_len);
      -- dst += offset + rep_len; src += offset + find_len;
      strsub fuel (dst ++ src.take offset ++ rep) (src.drop (offset + strlen find)) find rep
    | none =>
      -- strcpy(dst, src)
      some (dst ++ src)

/-- A `struct strsub_pair`: the pattern and the replacement, which may be
`NULL`. -/
structure strsub_pair where
  find : List Char
  rep : Option (List Char)
  deriving Repr, DecidableEq

/-- The counting loop of `strsub_alloc`:
`while ((match = strstr(match, find)) != NULL) { new_len += rep_len - find_len; match += find_len; }`
with `m` the string at `match`.  Returns the final `new_len`. -/
def strsub_count : Nat → Nat → List Char → List Char → Nat → Nat → Option Nat
  | 0, _, _, _, _, _ => none
  | fuel + 1, new_len, m, find, find_len, rep_len =>
    match strstr m find with
    | some offset =>
      strsub_count fuel (size_add new_len (size_sub rep_len find_len))
        (m.drop (offset + find_len)) find find_len rep_len
    | none => some new_len

/-- The state carried through the pair loop of `strsub_alloc`: the buffer
bookkeeping, the string held in the first half of the buffer, and
`src_len`. -/
structure strsub_state where
  b : buf
  str : List Char
  src_len : Nat
  deriving Repr, DecidableEq

/-- One iteration of the pair loop of `strsub_alloc`.  After `strsub` has
written its output to the second half of the buffer, `memcpy` moves
`new_len` characters of it to the front and a terminator is stored at
index `new_len`, so the string left in the buffer is the output cut to
`new_len` characters. -/
def strsub_alloc_step (fuel : Nat) (st : strsub_state) (pair : strsub_pair) :
    Option strsub_state :=
  -- treat NULL as empty string
  let rep := pair.rep.getD []
  let find_len := strlen pair.find
  let rep_len := strlen rep
  match strsub_count fuel st.src_len st.str pair.find find_len rep_len with
  | none => none
  | some new_len =>
    let b := buf_realloc st.b (size_add (size_add st.src_len new_len) 1)
    match strsub fuel [] st.str pair.find rep with
    | none => none
    | some out => some { b := b, str := out.take new_len, src_len := new_len }

/-- The pair loop of `strsub_alloc`. -/
def strsub_alloc_loop (fuel : Nat) : strsub_state → List strsub_pair → Option strsub_state
  | st, [] => some st
  | st, pair :: pairs =>
    match strsub_alloc_step fuel st pair with
    | none => none
    | some st1 => strsub_alloc_loop fuel st1 pairs

/-- Embeds `strsub_alloc(src, pairs, pair_count)`: the returned string. -/
def strsub_alloc (fuel : Nat) (src : List Char) (pairs : List strsub_pair) :
    Option (List Char) :=
  let src_len := strlen src
  let b := buf_realloc { len := 0, cap := 0 } (size_add src_len 1)
  (strsub_alloc_loop fuel { b := b, str := src, src_len := src_len } pairs).map (·.str)

/-! ### Specification of one substitution pass -/

/-- One left-to-right scan over the string: `skip` counts the characters of
a match still to be passed over.  At a position outside a match where
`find` occurs, `rep` is emitted and the occurrence is skipped; any other
character is copied. -/
def replace_scan (find rep : List Char) : Nat → List Char → List Char
  | _, [] => []
  | skip + 1, _ :: cs => replace_scan find rep skip cs
  | 0, c :: cs =>
    if find.isPrefixOf (c :: cs) then rep ++ replace_scan find rep (find.length - 1) cs
    else c :: replace_scan find rep 0 cs

/-- Replace every leftmost, non-overlapping occurrence of `find` by `rep`. -/
def replace_all (find rep s : List Char) : List Char := replace_scan find rep 0 s

/-- The pairs applied one after the other, in list order, an absent
replacement counting as the empty string. -/
def substitute_spec (s : List Char) (pairs : List strsub_pair) : List Char :=
  pairs.foldl (fun cur p => replace_all p.find (p.rep.getD []) cur) s

/-- The largest length among the strings that the serial substitution
passes through, the template included. -/
def substitute_peak (s : List Char) : List strsub_pair → Nat
  | [] => s.length
  | p :: ps => max s.length (substitute_peak (replace_all p.find (p.rep.getD []) s) ps)

/-! ## Configuration -/

def CONF_MAX : Nat := 256
def CONF_FM_DELIM : List Char := "---\n".toList
def CONF_FM_DELIM_LEN : Nat := 4
def CONF_KV_DELIM : List Char := " = ".toList
def CONF_KV_DELIM_LEN : Nat := 3
/-- DEL control character (ASCII 127). -/
def CONF_NULL_PH : Char := '\x7f'
/-- The string terminator. -/
def NUL : Char := '\x00'

/-- The C string that starts at offset `p` of a buffer: the characters from
`p` up to the first terminator.  The end of the list is the terminator that
closes the buffer. -/
def cstr (b : List Char) (p : Nat) : List Char := (b.drop p).takeWhile (· ≠ NUL)

/-- Embeds `strchr(b + p, c)` as an offset into the buffer, `none` for `NULL`. -/
def strchr (b : List Char) (p : Nat) (c : Char) : Option Nat :=
  if c ∈ cstr b p then some (p + (cstr b p).indexOf c) else none

/-- Embeds `strstr(b + p, find)` as an offset into the buffer, `none` for `NULL`. -/
def strstr_at (b : List Char) (p : Nat) (find : List Char) : Option Nat :=
  (strstr (cstr b p) find).map (p + ·)

/-- Embeds `strncmp(s, t, n) == 0` on string contents: the first `n` characters
agree, a string that ends earlier agreeing only with one that ends at the
same place. -/
def strncmp_eq (s t : List Char) (n : Nat) : Bool := s.take n == t.take n

/-- Embeds `strcmp(s, t) == 0`. -/
def strcmp_eq (s t : List Char) : Bool := s == t

/-- A `struct conf_pair`: key and value are pointers into the buffer of the
document, kept as offsets. -/
structure conf_pair where
  key : Nat
  val : Nat
  deriving Repr, DecidableEq

/-- A `struct conf`.  `pairs` holds the `pair_count` entries in use;
`content` is an offset into `buf`; `buf` is `none` while the document has
not been read (`struct conf conf = {0}`). -/
structure conf where
  pairs : List conf_pair
  content : Option Nat
  buf : Option (List Char)
  deriving Repr, DecidableEq

/-- The zero-initialised `struct conf`. -/
def conf_zero : conf := { pairs := [], content := none, buf := none }

/-- What the line loop of `conf_read` leaves behind. -/
structure conf_lines where
  buf : List Char
  pairs : List conf_pair
  content : Option Nat
  deriving Repr, DecidableEq

/-- The line loop of `conf_read`, entered at the loop test with the buffer
`b`, `match` at offset `m` and the entries read so far.  In the test
`val > strchr(match, '\n')` a `NULL` on the right compares below every
pointer into the buffer. -/
def conf_read_lines : Nat → List Char → Nat → List conf_pair → Option conf_lines
  | 0, _, _, _ => none
  | fuel + 1, b, m, pairs =>
    match strchr b m '\n' with
    | none => some { buf := b, pairs := pairs, content := none }
    | some nl =>
      -- replace NL with null-terminator
      let b1 := b.set nl CONF_NULL_PH
      let m1 := nl + 1
      -- end of key-value pairs, everything else is a content
      if strncmp_eq (cstr b1 m1) CONF_FM_DELIM CONF_FM_DELIM_LEN then
        some { buf := b1, pairs := pairs, content := some (m1 + CONF_FM_DELIM_LEN) }
      else
        -- find key-value delimiter
        match strstr_at b1 m1 CONF_KV_DELIM with
        | none => some { buf := b1, pairs := pairs, content := none }
        | some val =>
          -- skip lines without delimiter
          if (match strchr b1 m1 '\n' with
              | none => true
              | some e => decide (val > e)) then
            conf_read_lines fuel b1 m1 pairs
          else
            -- replace KV delimiter with null-terminator
            let b2 := b1.set val CONF_NULL_PH
            let pair : conf_pair := { key := m1, val := val + CONF_KV_DELIM_LEN }
            if pairs.length < CONF_MAX then
              conf_read_lines fuel b2 m1 (pairs ++ [pair])
            else
              conf_read_lines fuel b2 m1 pairs

/-- The closing loop of `conf_read`: every placeholder from offset `m` on
becomes a terminator. -/
def conf_read_nul : Nat → List Char → Nat → Option (List Char)
  | 0, _, _ => none
  | fuel + 1, b, m =>
    match strchr b m CONF_NULL_PH with
    | none => some b
    | some p => conf_read_nul fuel (b.set p NUL) (p + 1)

/-- Embeds `conf_read(conf, str)`: the document read from the text `str`. -/
def conf_read (fuel : Nat) (str : List Char) : Option conf :=
  -- no front matter, assume everything is a content
  if !strncmp_eq (cstr str 0) CONF_FM_DELIM CONF_FM_DELIM_LEN then
    some { pairs := [], content := some 0, buf := some str }
  else
    match conf_read_lines fuel str 0 [] with
    | none => none
    | some r =>
      match conf_read_nul fuel r.buf 0 with
      | none => none
      | some b => some { pairs := r.pairs, content := r.content, buf := some b }

/-- The entries of a document as strings, in order. -/
def conf_entries (c : conf) : List (List Char × List Char) :=
  match c.buf with
  | none => []
  | some b => c.pairs.map (fun p => (cstr b p.key, cstr b p.val))

/-- The content of a document as a string, `none` when `content` is
`NULL`. -/
def conf_content (c : conf) : Option (List Char) :=
  match c.buf, c.content with
  | some b, some p => some (cstr b p)
  | _, _ => none

/-- The loop of `conf_find` over the entries from `offset` on. -/
def conf_find_loop (b : List Char) (key : List Char) : List conf_pair → Option (List Char)
  | [] => none
  | pair :: pairs =>
    if strcmp_eq (cstr b pair.key) key then some (cstr b pair.val)
    else conf_find_loop b key pairs

/-- Embeds `conf_find(conf, offset, key, val)`.  The outer `none` is the failed
assertion `conf.buf != NULL`. -/
def conf_find (c : conf) (offset : Nat) (key : List Char) (val : Option (List Char)) :
    Option (Option (List Char)) :=
  match c.buf with
  | none => none
  | some b =>
    match conf_find_loop b key (c.pairs.drop offset) with
    | some v => some (some v)
    | none => some val

/-- A string cut before its first placeholder character. -/
def cut_ph (s : List Char) : List Char := s.takeWhile (· ≠ CONF_NULL_PH)

/-- The source line of an entry: `key = value` and a newline. -/
def conf_line (kv : List Char × List Char) : List Char :=
  kv.1 ++ CONF_KV_DELIM ++ kv.2 ++ ['\n']

/-- A front-matter document: opening delimiter, one line per entry, closing
delimiter, content. -/
def conf_doc (kvs : List (List Char × List Char)) (content : List Char) : List Char :=
  CONF_FM_DELIM ++ (kvs.map conf_line).flatten ++ CONF_FM_DELIM ++ content

/-- The bytes the line loop leaves where the line of an entry stood: the
first character of the key/value delimiter and the newline are
placeholders. -/
def ph_line (kv : List Char × List Char) : List Char :=
  kv.1 ++ CONF_NULL_PH :: "= ".toList ++ kv.2 ++ [CONF_NULL_PH]

/-- The pointers stored for consecutive entry lines that begin at offset
`start`. -/
def line_pairs : Nat → List (List Char × List Char) → List conf_pair
  | _, [] => []
  | start, kv :: kvs =>
    { key := start, val := start + kv.1.length + CONF_KV_DELIM_LEN } ::
      line_pairs (start + kv.1.length + CONF_KV_DELIM_LEN + kv.2.length + 1) kvs

/-- The effect of the closing loop on one byte. -/
def nul_ph (c : Char) : Char := if c = CONF_NULL_PH then NUL else c

/-- An entry that can stand on one line of the front matter and is split
where it was joined: neither part holds a newline or a terminator, and the
first key/value delimiter of the line is the one behind the key. -/
def entry_ok (kv : List Char × List Char) : Prop :=
  '\n' ∉ kv.1 ∧ '\n' ∉ kv.2 ∧ NUL ∉ kv.1 ∧ NUL ∉ kv.2 ∧
    ¬ CONF_KV_DELIM <:+: kv.1 ++ " =".toList

instance (kv : List Char × List Char) : Decidable (entry_ok kv) := by
  unfold entry_ok; infer_instance

/-! ## Pages -/

/-- The constant `NAME_MAX` of `<sys/syslimits.h>`, the header `main.c` includes. -/
def NAME_MAX : Nat := 255
/-- The constant `PATH_MAX` of `<sys/syslimits.h>`, the header `main.c` includes. -/
def PATH_MAX : Nat := 1024
def PAGE_CHILDREN_MAX : Nat := 4096
def PAGE_SPECIAL_MAX : Nat := 64
def PAGE_SPECIAL_PREFIX : Char := '.'
def PAGE_INDEX : List Char := "index.html".toList

/-- A `struct page`.  Pointers to pages are indices into the heap; `children`
and `special` hold the `child_count` and `special_count` pointers in use. -/
structure page where
  name : List Char
  is_parent : Bool
  conf : conf
  parent : Option Nat
  children : List Nat
  special : List Nat
  deriving Repr, DecidableEq

/-- The allocated pages; a `struct page *` is an index into this list. -/
abbrev heap := List page

/-- Embeds `strcat_safe(dst, src, size)`: the string left in `dst`. -/
def strcat_safe (dst src : List Char) (size : Nat) : List Char :=
  let dst_len := min dst.length (size - 1)
  let room := size - dst_len
  let src_len := if src.length ≥ room then room - 1 else src.length
  dst.take dst_len ++ src.take src_len

/-- Embeds `strcpy_safe(dst, src, size)`, that is `snprintf(dst, size, "%s", src)`:
the string left in `dst`. -/
def strcpy_safe (src : List Char) (size : Nat) : List Char := src.take (size - 1)

/-- Embeds `page_alloc(name)`: a zeroed page with the name copied into the
`NAME_MAX` bytes of the field; returns the new heap and the pointer. -/
def page_alloc (h : heap) (name : List Char) : heap × Nat :=
  (h ++ [{ name := strcpy_safe name NAME_MAX, is_parent := false, conf := conf_zero,
           parent := none, children := [], special := [] }], h.length)

/-- Embeds `page_add_special(page, special)`; `none` when a pointer is dangling. -/
def page_add_special (h : heap) (pg : Nat) (special : Nat) : Option (heap × Bool) :=
  match h[pg]? with
  | none => none
  | some p =>
    if p.special.length ≥ PAGE_SPECIAL_MAX then some (h, false)
    else
      match h[special]? with
      | none => none
      | some s =>
        let h1 := h.set special { s with parent := some pg }
        match h1[pg]? with
        | none => none
        | some p1 =>
          some (h1.set pg { p1 with is_parent := true, special := p1.special ++ [special] },
                true)

/-- Embeds `page_add(page, child)`; `none` when a pointer is dangling. -/
def page_add (h : heap) (pg : Nat) (child : Option Nat) : Option (heap × Bool) :=
  match child with
  | none => some (h, false)
  | some child =>
    match h[child]?, h[pg]? with
    | some c, some p =>
      if c.name.head? = some PAGE_SPECIAL_PREFIX then page_add_special h pg child
      else if p.children.length ≥ PAGE_CHILDREN_MAX then some (h, false)
      else
        let h1 := h.set child { c with parent := some pg }
        match h1[pg]? with
        | none => none
        | some p1 =>
          some (h1.set pg { p1 with is_parent := true, children := p1.children ++ [child] },
                true)
    | _, _ => none

/-- Embeds `page_root(page)`; `none` when the fuel runs out or a pointer is
dangling. -/
def page_root : Nat → heap → Nat → Option Nat
  | 0, _, _ => none
  | fuel + 1, h, pg =>
    match h[pg]? with
    | none => none
    | some p =>
      match p.parent with
      | none => some pg
      | some par => page_root fuel h par

/-- Embeds `isspace` in the C locale. -/
def isspace (c : Char) : Bool :=
  c = ' ' || c = '\t' || c = '\n' || c = '\x0b' || c = '\x0c' || c = '\r'

/-- Embeds `sscanf(path, "%255[^/]/%1024s", name, child_path)` with both outputs
initialised to the empty string: `name` takes up to `NAME_MAX` leading
characters other than `'/'`, at least one; then a `'/'` must follow; then
`child_path` takes, after any white space, up to `PATH_MAX` characters that
are not white space. -/
def sscanf_path (path : List Char) : List Char × List Char :=
  let name := (path.takeWhile (· ≠ '/')).take NAME_MAX
  if name.isEmpty then ([], [])
  else
    match path.drop name.length with
    | c :: rest =>
      if c = '/' then
        (name, ((rest.dropWhile isspace).takeWhile (fun x => !isspace x)).take PATH_MAX)
      else (name, [])
    | [] => (name, [])

/-- One of the two search loops of `page_find` over an array of page
pointers: the first page with the given name.  The outer `none` is a
dangling pointer. -/
def page_search (h : heap) (name : List Char) : List Nat → Option (Option Nat)
  | [] => some none
  | c :: cs =>
    match h[c]? with
    | none => none
    | some p => if strcmp_eq p.name name then some (some c) else page_search h name cs

/-- Embeds `page_find(tree, path)`.  The result `some none` is `NULL`; `none`
means that the fuel ran out or a pointer was dangling. -/
def page_find : Nat → heap → Nat → List Char → Option (Option Nat)
  | 0, _, _, _ => none
  | fuel + 1, h, tree, path =>
    match h[tree]? with
    | none => none
    | some t =>
      -- traverse from root if needed
      if path.head? = some '/' then
        match page_root fuel h tree with
        | none => none
        | some root => page_find fuel h root (path.drop 1)
      else
        -- split path
        let name := (sscanf_path path).1
        let child_path := (sscanf_path path).2
        if name.isEmpty then
          -- empty name, found it
          some (some tree)
        else if name = ['.'] ∧ !t.is_parent ∧ t.parent.isSome then
          -- start from parent if current page is not parent
          match t.parent with
          | some par => page_find fuel h par child_path
          | none => none
        else if name = ['.'] then
          -- else just skip it
          page_find fuel h tree child_path
        else
          -- find child page
          match page_search h name t.children with
          | none => none
          | some (some child) => page_find fuel h child child_path
          | some none =>
            -- find special page
            match page_search h name t.special with
            | none => none
            | some (some special) => page_find fuel h special child_path
            | some none =>
              -- nothing found here, search in parent and so on
              match t.parent with
              | some par => page_find fuel h par path
              | none => some none

/-- Embeds `page_path_append(page, path, size)`: the string left in `path`. -/
def page_path_append : Nat → heap → Nat → List Char → Nat → Option (List Char)
  | 0, _, _, _, _ => none
  | fuel + 1, h, pg, path, size =>
    match h[pg]? with
    | none => none
    | some p =>
      -- don't include root name
      let r := match p.parent with
        | some par =>
          match page_path_append fuel h par path size with
          | none => none
          | some path1 => some (strcat_safe path1 p.name size)
        | none => some path
      match r with
      | none => none
      | some path2 => some (if p.is_parent then strcat_safe path2 ['/'] size else path2)

/-- Embeds `page_url_append(page, url, size)`: the string left in `url`. -/
def page_url_append (fuel : Nat) (h : heap) (pg : Nat) (url : List Char) (size : Nat) :
    Option (List Char) :=
  match h[pg]? with
  | none => none
  | some p =>
    match page_path_append fuel h pg url size with
    | none => none
    | some url1 => some (if p.is_parent then strcat_safe url1 PAGE_INDEX size else url1)

/-- Embeds `page_conf(page, key, val)`.  The outer `none` means that the fuel ran
out, a pointer was dangling, or the assertion in `conf_find` failed. -/
def page_conf : Nat → heap → Nat → List Char → Option (List Char) →
    Option (Option (List Char))
  | 0, _, _, _, _ => none
  | fuel + 1, h, pg, key, val =>
    match h[pg]? with
    | none => none
    | some p =>
      match conf_find p.conf 0 key none with
      | none => none
      | some (some found) => some (some found)
      | some none =>
        match p.parent with
        | some par => page_conf fuel h par key val
        | none => some val

/-- Embeds `page_content(page, val)`; `none` when the pointer is dangling. -/
def page_content (h : heap) (pg : Nat) (val : Option (List Char)) :
    Option (Option (List Char)) :=
  match h[pg]? with
  | none => none
  | some p =>
    match conf_content p.conf with
    | some content => some (some content)
    | none => some val

/-! ### Trees of pages -/

/-- The invariant of a heap whose pages were linked by `page_add`, each page
attached at most once and never below itself.  `rank` is any measure that
decreases along `parent`, which is what the absence of a cycle amounts to.
For every page: the name fits the `name` field; the parent lists the page
among its children or special pages; every listed child points back to the
page; and a page that lists a child has `is_parent` set. -/
def heap_wf (h : heap) (rank : Nat → Nat) : Prop :=
  ∀ n, n < h.length → ∀ p ∈ h[n]?,
    p.name.length < NAME_MAX ∧
    (∀ par ∈ p.parent, rank par < rank n ∧
      ∃ pp ∈ h[par]?, n ∈ pp.children ++ pp.special) ∧
    (∀ c ∈ p.children ++ p.special, (h[c]?).bind (·.parent) = some n) ∧
    (p.children ++ p.special ≠ [] → p.is_parent = true)

instance (h : heap) (rank : Nat → Nat) : Decidable (heap_wf h rank) := by
  unfold heap_wf; infer_instance

/-- The page reached from `n` by following `parent` exactly `k` times. -/
def page_ancestor (h : heap) : Nat → Nat → Option Nat
  | 0, n => if n < h.length then some n else none
  | k + 1, n => ((h[n]?).bind (·.parent)).bind (page_ancestor h k)

/-- The name of the page behind a pointer. -/
def page_name (h : heap) (c : Nat) : Option (List Char) := (h[c]?).map (·.name)

/-- The child that a path segment `s` selects below a page: the first
ordinary child named `s` or, only if no ordinary child matches, the first
special child named `s`. -/
def page_child_named (h : heap) (p : page) (s : List Char) : Option Nat :=
  match p.children.find? (fun c => page_name h c == some s) with
  | some c => some c
  | none => p.special.find? (fun c => page_name h c == some s)

/-- The path of a page written without a bound on its length: the path of
the parent, then the name, then a separator if the page is a container; the
root contributes no name. -/
def page_path : Nat → heap → Nat → Option (List Char)
  | 0, _, _ => none
  | fuel + 1, h, pg =>
    match h[pg]? with
    | none => none
    | some p =>
      match p.parent with
      | some par =>
        match page_path fuel h par with
        | none => none
        | some s => some (s ++ p.name ++ (if p.is_parent then ['/'] else []))
      | none => some (if p.is_parent then ['/'] else [])

/-- The segments of a path: the pieces between separators. -/
def path_segments : List Char → List (List Char)
  | [] => [[]]
  | c :: cs =>
    if c = '/' then [] :: path_segments cs
    else
      match path_segments cs with
      | [] => [[c]]
      | s :: ss => (c :: s) :: ss

/-- States that `page_find(tree, path)` returns `r`: every run with enough
fuel does. -/
def page_find_returns (h : heap) (tree : Nat) (path : List Char) (r : Option Nat) : Prop :=
  ∃ N, ∀ fuel, N ≤ fuel → page_find fuel h tree path = some r

/-- A name that a path can address: not empty, not the dot segment, free of
separators and white space. -/
def segment_ok (s : List Char) : Prop :=
  s ≠ [] ∧ s ≠ ['.'] ∧ '/' ∉ s ∧ ∀ x ∈ s, isspace x = false

instance (s : List Char) : Decidable (segment_ok s) := by
  unfold segment_ok; infer_instance

/-- The pages listed below one page have addressable names, all different. -/
def siblings_ok (h : heap) : Prop :=
  ∀ n, n < h.length → ∀ p ∈ h[n]?,
    ((p.children ++ p.special).map (page_name h)).Nodup ∧
    ∀ c ∈ p.children ++ p.special, ∃ s ∈ page_name h c, segment_ok s

instance (h : heap) : Decidable (siblings_ok h) := by
  unfold siblings_ok; infer_instance

/-- The zero-initialised `struct page` that `calloc` returns. -/
def page_zero : page :=
  { name := [], is_parent := false, conf := conf_zero, parent := none, children := [],
    special := [] }

/-- The tree of `test_page_find`: `root` (0) with the children `child1` (1)
and `child2` (2), and the special page `.child3` (3) below `child2`. -/
def test_heap : heap :=
  [ { page_zero with name := "root".toList, is_parent := true, children := [1, 2] },
    { page_zero with name := "child1".toList, parent := some 0 },
    { page_zero with
      name := "child2".toList, is_parent := true, parent := some 0, special := [3] },
    { page_zero with name := ".child3".toList, parent := some 2 } ]

/-- The calls of `test_page_find` that build its tree. -/
def test_heap_build : Option heap :=
  let a0 := page_alloc [] "root".toList
  let a1 := page_alloc a0.1 "child1".toList
  let a2 := page_alloc a1.1 "child2".toList
  let a3 := page_alloc a2.1 ".child3".toList
  match page_add a3.1 a0.2 (some a1.2) with
  | none => none
  | some r1 =>
    match page_add r1.1 a0.2 (some a2.2) with
    | none => none
    | some r2 =>
      match page_add r2.1 a2.2 (some a3.2) with
      | none => none
      | some r3 => some r3.1

/-- A tree `root` (0) `>` `a` (1) `>` `b` (2) with a second child `c` (3) of
the root. -/
def chain_heap : heap :=
  [ { page_zero with name := "root".toList, is_parent := true, children := [1, 3] },
    { page_zero with
      name := "a".toList, is_parent := true, parent := some 0, children := [2] },
    { page_zero with name := "b".toList, parent := some 1 },
    { page_zero with name := "c".toList, parent := some 0 } ]

/-- The value of the first entry of a document with the given key, `none`
when the document does not contain the key. -/
def conf_lookup (c : conf) (key : List Char) : Option (List Char) :=
  ((conf_entries c).find? (fun kv => kv.1 == key)).map (·.2)

/-- States that `page_conf(page, key, val)` returns `r`: every run with
enough fuel does. -/
def page_conf_returns (h : heap) (pg : Nat) (key : List Char) (val : Option (List Char))
    (r : Option (List Char)) : Prop :=
  ∃ N, ∀ fuel, N ≤ fuel → page_conf fuel h pg key val = some r

/-- The tree of `test_page_conf`: `root` (0) with the children `child1` (1)
and `child2` (2), each with the document the test reads into it. -/
def conf_heap : heap :=
  match conf_read 64 "---\nkey 1 = value 1\nkey 2 = value 2\n---".toList,
        conf_read 64 "---\nkey 1 = value 1 child 1\n---".toList,
        conf_read 64 "---\nkey 2 = value 2 child 2\n---".toList with
  | some c0, some c1, some c2 =>
    [ { page_zero with
        name := "root".toList, is_parent := true, children := [1, 2], conf := c0 },
      { page_zero with name := "child1".toList, parent := some 0, conf := c1 },
      { page_zero with name := "child2".toList, parent := some 0, conf := c2 } ]
  | _, _, _ => []

/-! ### Documents of pages and further test data -/

/-- Embeds `conf_alloc(path)`; `file` is what `file_alloc` returns for the
path, `none` when the file cannot be read.  The document of an unreadable
file stays zero-initialised. -/
def conf_alloc (fuel : Nat) (file : Option (List Char)) : Option conf :=
  match file with
  | none => some conf_zero
  | some str => conf_read fuel str

/-- The root page that `page_tree_alloc` builds for a directory without an
index file: `is_parent` is set and the document is the one `conf_alloc`
returns for an unreadable file. -/
def unloaded_heap : heap :=
  match conf_alloc 0 none with
  | some c => [ { page_zero with is_parent := true, conf := c } ]
  | none => []

/-- The tree of `test_page_content`: `root` (0) with the text
`"root content"`, `child1` (1) with the empty text and `child2` (2) with the
text `"---\n"`. -/
def content_heap : heap :=
  match conf_read 8 "root content".toList, conf_read 8 [], conf_read 8 "---\n".toList with
  | some c0, some c1, some c2 =>
    [ { page_zero with
        name := "root".toList, is_parent := true, children := [1, 2], conf := c0 },
      { page_zero with name := "child1".toList, parent := some 0, conf := c1 },
      { page_zero with name := "child2".toList, parent := some 0, conf := c2 } ]
  | _, _, _ => []

/-- The document of `test_conf_find`. -/
def find_doc : conf :=
  match conf_read 128
    ("---\nkey 1 = value 1\ninvalid line should be skipped\nkey 2 = value 2\n\n" ++
      "key 1 = value 3\n---").toList with
  | some c => c
  | none => conf_zero

/-- A page (0) whose special list is full, and a page (1) named `.x`. -/
def full_heap : heap :=
  [ { page_zero with
      name := "dir".toList, is_parent := true, special := List.replicate 64 1 },
    { page_zero with name := ".x".toList } ]

/-- The four pages that `test_page_add` allocates, before any of them is
attached: `root` (0), `child1` (1), `child2` (2) and `.child3` (3). -/
def add_heap : heap :=
  (page_alloc (page_alloc (page_alloc (page_alloc [] "root".toList).1
    "child1".toList).1 "child2".toList).1 ".child3".toList).1

/-! ### Front matter, line by line -/

/-- The text made of the complete lines `ls`, each closed by a newline, and
the rest `E` behind them. -/
def fm_join : List (List Char) → List Char → List Char
  | [], E => E
  | l :: ls, E => l ++ '\n' :: fm_join ls E

/-- A text that begins with the delimiter line: the opening delimiter, the
lines `ls` of the front-matter block, and the rest `E` of the text, which
either begins with the closing delimiter line or is a last line that no
newline closes. -/
def fm_text (ls : List (List Char)) (E : List Char) : List Char :=
  CONF_FM_DELIM ++ fm_join ls E

/-- The entry a line stands for: the key before the first `" = "` of the line
and the value behind it; `none` for a line without `" = "`. -/
def line_entry (l : List Char) : Option (List Char × List Char) :=
  (strstr l CONF_KV_DELIM).map (fun i => (l.take i, l.drop (i + CONF_KV_DELIM_LEN)))

/-- A line of the front-matter block: it holds no newline and is not the
delimiter line. -/
def block_line (l : List Char) : Prop := '\n' ∉ l ∧ l ≠ "---".toList

instance (l : List Char) : Decidable (block_line l) := by
  unfold block_line; infer_instance

/-- The rest of a text behind the block: it begins with the closing
delimiter line, or no newline closes it. -/
def block_end (E : List Char) : Prop := CONF_FM_DELIM <+: E ∨ '\n' ∉ E

instance (E : List Char) : Decidable (block_end E) := by
  unfold block_end; infer_instance

/-- The bytes the line loop of `conf_read` leaves where the lines `ls` and
the rest `E` stood.  The loop stops at the first line from which on the text
holds no `" = "`. -/
def scan_buf : List (List Char) → List Char → List Char
  | [], E => E
  | l :: ls, E =>
    match strstr l CONF_KV_DELIM with
    | some i =>
      l.take i ++ CONF_NULL_PH :: "= ".toList ++ l.drop (i + CONF_KV_DELIM_LEN) ++
        CONF_NULL_PH :: scan_buf ls E
    | none =>
      match strstr (fm_join ls E) CONF_KV_DELIM with
      | none => l ++ '\n' :: fm_join ls E
      | some _ => l ++ CONF_NULL_PH :: scan_buf ls E

/-- The pointers the line loop stores for the lines `ls` when the first of
them begins at offset `start`, the ceiling left aside. -/
def scan_pairs : Nat → List (List Char) → List Char → List conf_pair
  | _, [], _ => []
  | start, l :: ls, E =>
    match strstr l CONF_KV_DELIM with
    | some i =>
      { key := start, val := start + i + CONF_KV_DELIM_LEN } ::
        scan_pairs (start + l.length + 1) ls E
    | none =>
      match strstr (fm_join ls E) CONF_KV_DELIM with
      | none => []
      | some _ => scan_pairs (start + l.length + 1) ls E

/-- The content pointer the line loop stores. -/
def scan_content : Nat → List (List Char) → List Char → Option Nat
  | start, [], E =>
    if CONF_FM_DELIM.isPrefixOf E then some (start + CONF_FM_DELIM_LEN) else none
  | start, l :: ls, E =>
    match strstr l CONF_KV_DELIM with
    | some _ => scan_content (start + l.length + 1) ls E
    | none =>
      match strstr (fm_join ls E) CONF_KV_DELIM with
      | none => none
      | some _ => scan_content (start + l.length + 1) ls E

/-- The content the line loop reaches: the text behind the closing
delimiter line, unless the loop stops before it at a line from which on the
text holds no `" = "`. -/
def fm_content : List (List Char) → List Char → Option (List Char)
  | [], E => if CONF_FM_DELIM.isPrefixOf E then some (E.drop CONF_FM_DELIM_LEN) else none
  | l :: ls, E =>
    match strstr l CONF_KV_DELIM with
    | some _ => fm_content ls E
    | none =>
      match strstr (fm_join ls E) CONF_KV_DELIM with
      | none => none
      | some _ => fm_content ls E

/-! ## Templates -/

def TPL_MAX : Nat := 128

/-- A `struct tpl`: the path under which a template is cached, held in a
field of `PATH_MAX` bytes, and its text, `none` for `NULL`. -/
structure tpl where
  path : List Char
  str : Option (List Char)
  deriving Repr, DecidableEq

/-- The directory of the templates. -/
def s_tpl_path : List Char := "theme".toList

/-- Embeds `snprintf(full_path, sizeof(full_path), "%s/%s", s_tpl_path, path)`:
the string left in the `PATH_MAX` bytes of `full_path`. -/
def tpl_full_path (path : List Char) : List Char :=
  (s_tpl_path ++ '/' :: path).take (PATH_MAX - 1)

/-- The search loop of `tpl_cached` over the `s_tpl_count` cached
templates: the first one whose path compares equal. -/
def tpl_find : List tpl → List Char → Option tpl
  | [], _ => none
  | t :: ts, path => if strcmp_eq t.path path then some t else tpl_find ts path

/-- Embeds `tpl_cached(path)`.  The global array `s_tpls` with its count is
passed in and returned as a list; `file_alloc` gives, for the path it is
called with, the text of the file or `none` for `NULL`.  Returns the
template text and the array after the call. -/
def tpl_cached (file_alloc : List Char → Option (List Char)) (s_tpls : List tpl)
    (path : List Char) : Option (List Char) × List tpl :=
  -- find cached template
  match tpl_find s_tpls path with
  | some t => (t.str, s_tpls)
  | none =>
    if s_tpls.length ≥ TPL_MAX then (none, s_tpls)
    else
      -- load new template and cache it (even if NULL)
      let str := file_alloc (tpl_full_path path)
      (str, s_tpls ++ [{ path := strcpy_safe path PATH_MAX, str := str }])

/-- The array of cached templates after a run of calls of `tpl_cached`, each
with the state of the file system at its time. -/
def tpl_run : List ((List Char → Option (List Char)) × List Char) → List tpl → List tpl
  | [], s_tpls => s_tpls
  | (file_alloc, path) :: calls, s_tpls =>
    tpl_run calls (tpl_cached file_alloc s_tpls path).2

/-- The byte `y` stands in the buffer where the text had `x`: it is `x` or
the placeholder. -/
def ph_sub (x y : Char) : Prop := y = x ∨ y = CONF_NULL_PH

/-! # Theorems -/

/-! ## Substitution engine: `strstr`, `strsub`, `strsub_alloc` -/

theorem isPrefixOf_true_iff (a b : List Char) : a.isPrefixOf b = true ↔ a <+: b := by
  simp

/-- A match reported by `strstr` lies inside the haystack and the needle
starts there. -/
theorem strstr_some_split (find : List Char) :
    ∀ (m : List Char) (off : Nat), strstr m find = some off →
      m = m.take off ++ find ++ m.drop (off + find.length) := by
  intro m
  induction m with
  | nil =>
    intro off h
    simp only [strstr] at h
    split at h
    · rename_i hf
      have : find = [] := by simpa using hf
      subst this; simp
    · cases h
  | cons c cs ih =>
    intro off h
    simp only [strstr] at h
    split at h
    · rename_i hp
      have hoff : off = 0 := by cases h; rfl
      subst hoff
      obtain ⟨t, ht⟩ := (isPrefixOf_true_iff _ _).1 hp
      have hd : (c :: cs).drop (0 + find.length) = t := by
        rw [← ht]; simp
      rw [hd]; simpa using ht.symm
    · cases hs : strstr cs find with
      | none => rw [hs] at h; cases h
      | some o =>
        rw [hs] at h
        have hoff : off = o + 1 := by cases h; rfl
        subst hoff
        have := ih o hs
        have e : o + 1 + find.length = (o + find.length) + 1 := by omega
        rw [e]
        simp only [List.take_succ_cons, List.drop_succ_cons, List.cons_append]
        exact congrArg (c :: ·) this

theorem strstr_some_le (find : List Char) :
    ∀ (m : List Char) (off : Nat), strstr m find = some off → off ≤ m.length := by
  intro m
  induction m with
  | nil =>
    intro off h
    simp only [strstr] at h
    split at h
    · cases h; simp
    · cases h
  | cons c cs ih =>
    intro off h
    simp only [strstr] at h
    split at h
    · cases h; simp
    · cases hs : strstr cs find with
      | none => rw [hs] at h; cases h
      | some o =>
        rw [hs] at h
        have hoff : off = o + 1 := by cases h; rfl
        subst hoff
        have := ih o hs
        simp only [List.length_cons]; omega

theorem strstr_some_length (find m : List Char) (off : Nat) (h : strstr m find = some off) :
    m.length = off + find.length + (m.drop (off + find.length)).length := by
  have hs := strstr_some_split find m off h
  have hle := strstr_some_le find m off h
  have hl := congrArg List.length hs
  simp only [List.length_append, List.length_take, List.length_drop] at hl ⊢
  omega

theorem replace_scan_skip (find rep : List Char) :
    ∀ (k : Nat) (cs : List Char),
      replace_scan find rep k cs = replace_scan find rep 0 (cs.drop k) := by
  intro k
  induction k with
  | zero => intro cs; simp
  | succ k ih =>
    intro cs
    cases cs with
    | nil => simp [replace_scan]
    | cons c cs => simp [replace_scan, ih]

/-- Where `strstr` finds nothing the scan copies the string unchanged. -/
theorem replace_all_of_strstr_none (find rep : List Char) :
    ∀ m : List Char, strstr m find = none → replace_all find rep m = m := by
  intro m
  induction m with
  | nil => intro _; simp [replace_all, replace_scan]
  | cons c cs ih =>
    intro h
    simp only [strstr] at h
    split at h
    · cases h
    · rename_i hp
      have hn : strstr cs find = none := by
        cases hs : strstr cs find with
        | none => rfl
        | some o => rw [hs] at h; cases h
      simp only [replace_all, replace_scan, hp]
      simpa [replace_all] using ih hn

/-- Where `strstr` finds the first match at `off`, the scan copies the
`off` characters before it, emits the replacement and goes on behind the
match. -/
theorem replace_all_of_strstr_some (find rep : List Char) (hf : find ≠ []) :
    ∀ (m : List Char) (off : Nat), strstr m find = some off →
      replace_all find rep m =
        m.take off ++ rep ++ replace_all find rep (m.drop (off + find.length)) := by
  intro m
  induction m with
  | nil =>
    intro off h
    simp only [strstr] at h
    split at h
    · rename_i he
      exact absurd (by simpa using he) hf
    · cases h
  | cons c cs ih =>
    intro off h
    simp only [strstr] at h
    split at h
    · rename_i hp
      have hoff : off = 0 := by cases h; rfl
      subst hoff
      have hpos : 0 < find.length := List.length_pos.2 hf
      have e : 0 + find.length = (find.length - 1) + 1 := by omega
      simp only [replace_all, replace_scan, hp, if_true, List.take_zero, List.nil_append]
      rw [replace_scan_skip, e, List.drop_succ_cons]
    · rename_i hp
      cases hs : strstr cs find with
      | none => rw [hs] at h; cases h
      | some o =>
        rw [hs] at h
        have hoff : off = o + 1 := by cases h; rfl
        subst hoff
        have := ih o hs
        have e : o + 1 + find.length = (o + find.length) + 1 := by omega
        simp only [replace_all] at this ⊢
        simp only [replace_scan, hp, e, List.take_succ_cons, List.drop_succ_cons,
          List.cons_append]
        simp [this]

/-- The loop of `strsub` terminates for a non-empty pattern and writes the scanned
replacement behind what the destination already holds. -/
theorem strsub_eq (find rep : List Char) (hf : find ≠ []) :
    ∀ (fuel : Nat) (dst m : List Char), m.length < fuel →
      strsub fuel dst m find rep = some (dst ++ replace_all find rep m) := by
  intro fuel
  induction fuel with
  | zero => intro dst m h; omega
  | succ fuel ih =>
    intro dst m h
    simp only [strsub]
    cases hs : strstr m find with
    | none => simp [replace_all_of_strstr_none find rep m hs]
    | some off =>
      have hl := strstr_some_length find m off hs
      have hpos : 0 < find.length := List.length_pos.2 hf
      simp only [strlen]
      rw [ih _ _ (by omega), replace_all_of_strstr_some find rep hf m off hs]
      simp [List.append_assoc]

/-- The counting loop terminates for a non-empty pattern; its result is,
modulo `2^64`, the length of what `strsub` writes. -/
theorem strsub_count_eq (find rep : List Char) (hf : find ≠ []) :
    ∀ (fuel new_len d : Nat) (m : List Char), m.length < fuel →
      new_len % SIZE_MOD = (d + m.length) % SIZE_MOD → new_len < SIZE_MOD →
      ∃ r, strsub_count fuel new_len m find (strlen find) (strlen rep) = some r ∧
        r < SIZE_MOD ∧
        r % SIZE_MOD = (d + (replace_all find rep m).length) % SIZE_MOD := by
  intro fuel
  induction fuel with
  | zero => intro nl d m h; omega
  | succ fuel ih =>
    intro nl d m h hmod hlt
    simp only [strsub_count]
    cases hs : strstr m find with
    | none =>
      refine ⟨nl, rfl, hlt, ?_⟩
      rw [replace_all_of_strstr_none find rep m hs]; exact hmod
    | some off =>
      have hl := strstr_some_length find m off hs
      have hpos : 0 < find.length := List.length_pos.2 hf
      simp only [strlen]
      have hsplit := replace_all_of_strstr_some find rep hf m off hs
      have hle := strstr_some_le find m off hs
      have htake : (m.take off).length = off := by
        rw [List.length_take]; omega
      obtain ⟨r, hr, hrlt, hrmod⟩ := ih (size_add nl (size_sub rep.length find.length))
        (d + off + rep.length) (m.drop (off + find.length)) (by omega)
        (by
          simp only [size_add, size_sub, SIZE_MOD] at *
          omega)
        (by
          simp only [size_add, SIZE_MOD]
          omega)
      refine ⟨r, hr, hrlt, ?_⟩
      rw [hrmod, hsplit]
      simp only [List.length_append, htake]
      congr 1
      omega

/-- One iteration of the pair loop computes one substitution pass, provided
`src_len` is the length of the current string and the result fits
`size_t`. -/
theorem strsub_alloc_step_eq (fuel : Nat) (st : strsub_state) (pair : strsub_pair)
    (hf : pair.find ≠ []) (hfuel : st.str.length < fuel) (hlen : st.src_len = st.str.length)
    (hsrc : st.str.length < SIZE_MOD)
    (hout : (replace_all pair.find (pair.rep.getD []) st.str).length < SIZE_MOD) :
    ∃ st1, strsub_alloc_step fuel st pair = some st1 ∧
      st1.str = replace_all pair.find (pair.rep.getD []) st.str ∧
      st1.src_len = st1.str.length := by
  obtain ⟨r, hr, hrlt, hrmod⟩ := strsub_count_eq pair.find (pair.rep.getD []) hf fuel
    st.src_len 0 st.str hfuel (by rw [hlen]; simp) (by rw [hlen]; exact hsrc)
  have hreq : r = (replace_all pair.find (pair.rep.getD []) st.str).length := by
    rw [Nat.mod_eq_of_lt hrlt, Nat.zero_add, Nat.mod_eq_of_lt hout] at hrmod
    exact hrmod
  refine ⟨{ b := buf_realloc st.b (size_add (size_add st.src_len r) 1),
             str := (replace_all pair.find (pair.rep.getD []) st.str).take r,
             src_len := r }, ?_, ?_, ?_⟩
  · simp only [strsub_alloc_step, hr,
      strsub_eq pair.find (pair.rep.getD []) hf fuel [] st.str hfuel, List.nil_append]
  · simp [hreq]
  · simp [hreq]

/-- The pair loop computes the serial substitution `substitute_spec`. -/
theorem strsub_alloc_loop_eq :
    ∀ (pairs : List strsub_pair) (fuel : Nat) (st : strsub_state),
      (∀ p ∈ pairs, p.find ≠ []) →
      st.src_len = st.str.length →
      (∀ k, k ≤ pairs.length →
        (substitute_spec st.str (pairs.take k)).length < SIZE_MOD ∧
        (substitute_spec st.str (pairs.take k)).length < fuel) →
      ∃ st1, strsub_alloc_loop fuel st pairs = some st1 ∧
        st1.str = substitute_spec st.str pairs := by
  intro pairs
  induction pairs with
  | nil => intro fuel st _ _ _; exact ⟨st, rfl, rfl⟩
  | cons p ps ih =>
    intro fuel st hf hlen hk
    have h0 := hk 0 (Nat.zero_le _)
    have h1 := hk 1 (by simp)
    simp only [substitute_spec, List.take_zero, List.foldl_nil] at h0
    simp only [substitute_spec, List.take_succ_cons, List.take_zero, List.foldl_cons,
      List.foldl_nil] at h1
    obtain ⟨st1, hst1, hstr, hlen1⟩ := strsub_alloc_step_eq fuel st p
      (hf p (List.mem_cons_self _ _)) h0.2 hlen h0.1 h1.1
    obtain ⟨st2, hst2, hstr2⟩ := ih fuel st1
      (fun q hq => hf q (List.mem_cons_of_mem _ hq)) hlen1
      (by
        intro k hkle
        have := hk (k + 1) (by simp; omega)
        simpa [substitute_spec, hstr] using this)
    refine ⟨st2, ?_, ?_⟩
    · simp only [strsub_alloc_loop, hst1, hst2]
    · rw [hstr2, hstr]; simp [substitute_spec]

theorem substitute_peak_spec :
    ∀ (pairs : List strsub_pair) (s : List Char) (k : Nat),
      (substitute_spec s (pairs.take k)).length ≤ substitute_peak s pairs := by
  intro pairs
  induction pairs with
  | nil => intro s k; simp [substitute_spec, substitute_peak]
  | cons p ps ih =>
    intro s k
    cases k with
    | zero => simp [substitute_spec, substitute_peak]
    | succ k =>
      have := ih (replace_all p.find (p.rep.getD []) s) k
      simp only [substitute_spec, List.take_succ_cons, List.foldl_cons, substitute_peak] at this ⊢
      omega

theorem set_append_cons (a : List Char) (c x : Char) (b : List Char) :
    (a ++ c :: b).set a.length x = a ++ x :: b := by
  induction a with
  | nil => rfl
  | cons y ys ih => simp [ih]

theorem drop_append_length (a b : List Char) : (a ++ b).drop a.length = b := by
  induction a with
  | nil => rfl
  | cons y ys ih => simp

theorem takeWhile_append_of_forall (p : Char → Bool) (a b : List Char)
    (h : ∀ x ∈ a, p x = true) : (a ++ b).takeWhile p = a ++ b.takeWhile p := by
  induction a with
  | nil => rfl
  | cons y ys ih =>
    have hy : p y = true := h y (List.mem_cons_self _ _)
    simp [List.takeWhile_cons, hy, ih (fun x hx => h x (List.mem_cons_of_mem _ hx))]

theorem takeWhile_eq_self_of_forall (p : Char → Bool) (a : List Char)
    (h : ∀ x ∈ a, p x = true) : a.takeWhile p = a := by
  have := takeWhile_append_of_forall p a [] h
  simpa using this

theorem indexOf_append_cons (a b : List Char) (x : Char) (h : x ∉ a) :
    (a ++ x :: b).indexOf x = a.length := by
  induction a with
  | nil => simp
  | cons y ys ih =>
    have hne : y ≠ x := fun e => h (by simp [e])
    have hys : x ∉ ys := fun e => h (List.mem_cons_of_mem _ e)
    simp [List.indexOf_cons, hne, ih hys]

theorem ne_nul_of_not_mem (a : List Char) (h : NUL ∉ a) :
    ∀ x ∈ a, (decide (x ≠ NUL)) = true := by
  intro x hx
  simp only [decide_eq_true_eq]
  intro e; exact h (e ▸ hx)

/-- Reading a string at the end of a prefix of known length. -/
theorem cstr_append (pre rest : List Char) (h : NUL ∉ rest) :
    cstr (pre ++ rest) pre.length = rest := by
  simp only [cstr, drop_append_length]
  exact takeWhile_eq_self_of_forall _ _ (ne_nul_of_not_mem rest h)

theorem cstr_of_eq (b pre rest : List Char) (p : Nat) (hb : b = pre ++ rest)
    (hp : p = pre.length) (h : NUL ∉ rest) : cstr b p = rest := by
  subst hb; subst hp; exact cstr_append pre rest h

/-- The call of `strchr` finds the first occurrence of the character. -/
theorem strchr_append (pre a rest : List Char) (c : Char) (hc : c ∉ a)
    (hn : NUL ∉ a) (hcn : c ≠ NUL) :
    strchr (pre ++ a ++ c :: rest) pre.length c = some (pre.length + a.length) := by
  have hcs : cstr (pre ++ a ++ c :: rest) pre.length = a ++ c :: rest.takeWhile (· ≠ NUL) := by
    simp only [cstr, List.append_assoc, drop_append_length]
    rw [takeWhile_append_of_forall _ _ _ (ne_nul_of_not_mem a hn)]
    simp [List.takeWhile_cons, hcn]
  simp only [strchr, hcs]
  rw [if_pos (by simp), indexOf_append_cons _ _ _ hc]

theorem strchr_none (pre rest : List Char) (c : Char) (hc : c ∉ rest) (hn : NUL ∉ rest) :
    strchr (pre ++ rest) pre.length c = none := by
  simp only [strchr, cstr_append pre rest hn, if_neg hc]

/-- The call of `strstr` finds the pattern behind a prefix in which it does
not begin. -/
theorem strstr_append (find : List Char) (hf : find ≠ []) :
    ∀ (k tail : List Char), ¬ find <:+: k ++ find.dropLast →
      strstr (k ++ find ++ tail) find = some k.length := by
  intro k
  induction k with
  | nil =>
    intro tail _
    cases hft : find ++ tail with
    | nil =>
      have : find = [] := by
        cases find with
        | nil => rfl
        | cons a as => simp at hft
      exact absurd this hf
    | cons c cs =>
      have hp : find.isPrefixOf (c :: cs) = true := by
        rw [← hft]; simp
      simp only [List.nil_append, hft, strstr, hp, if_true, List.length_nil]
  | cons c k ih =>
    intro tail hno
    have hnp : ¬ find.isPrefixOf (c :: (k ++ find ++ tail)) = true := by
      intro hp
      have hp1 : find <+: (c :: k ++ find.dropLast) ++ (find.getLast hf :: tail) := by
        have e : (c :: k ++ find.dropLast) ++ (find.getLast hf :: tail)
            = c :: (k ++ find ++ tail) := by
          have := List.dropLast_append_getLast hf
          calc (c :: k ++ find.dropLast) ++ (find.getLast hf :: tail)
              = c :: (k ++ (find.dropLast ++ [find.getLast hf]) ++ tail) := by simp
            _ = c :: (k ++ find ++ tail) := by rw [this]
        rw [e]; exact (isPrefixOf_true_iff _ _).1 hp
      have hp2 : (c :: k ++ find.dropLast) <+: (c :: k ++ find.dropLast) ++ (find.getLast hf :: tail) :=
        List.prefix_append _ _
      have hlen : find.length ≤ (c :: k ++ find.dropLast).length := by
        have hpos : 0 < find.length := List.length_pos.2 hf
        simp only [List.length_append, List.length_cons, List.length_dropLast]
        omega
      have := List.prefix_of_prefix_length_le hp1 hp2 hlen
      exact hno this.isInfix
    have hno' : ¬ find <:+: k ++ find.dropLast := by
      intro hi
      apply hno
      exact hi.trans (List.suffix_cons c (k ++ find.dropLast)).isInfix
    have := ih tail hno'
    have e1 : (c :: k) ++ find ++ tail = c :: (k ++ find ++ tail) := rfl
    rw [e1]
    simp only [strstr, hnp, if_false]
    rw [this]; rfl

theorem fm_delim_nul : NUL ∉ CONF_FM_DELIM := by decide

theorem kv_delim_nul : NUL ∉ CONF_KV_DELIM := by decide

/-- An entry line does not begin with the front-matter delimiter. -/
theorem strncmp_entry (k rest : List Char) (hk : '\n' ∉ k) :
    strncmp_eq (k ++ CONF_KV_DELIM ++ rest) CONF_FM_DELIM CONF_FM_DELIM_LEN = false := by
  rcases k with _ | ⟨a, _ | ⟨b, _ | ⟨c, _ | ⟨d, k⟩⟩⟩⟩
  · cases rest <;> simp [strncmp_eq, CONF_KV_DELIM, CONF_FM_DELIM, CONF_FM_DELIM_LEN]
  · simp [strncmp_eq, CONF_KV_DELIM, CONF_FM_DELIM, CONF_FM_DELIM_LEN]
  · simp [strncmp_eq, CONF_KV_DELIM, CONF_FM_DELIM, CONF_FM_DELIM_LEN]
  · simp [strncmp_eq, CONF_KV_DELIM, CONF_FM_DELIM, CONF_FM_DELIM_LEN]
  · have hd : d ≠ '\n' := fun e => hk (by simp [e])
    simp [strncmp_eq, CONF_KV_DELIM, CONF_FM_DELIM, CONF_FM_DELIM_LEN, hd]

theorem strncmp_delim (T : List Char) :
    strncmp_eq (CONF_FM_DELIM ++ T) CONF_FM_DELIM CONF_FM_DELIM_LEN = true := by
  simp [strncmp_eq, CONF_FM_DELIM, CONF_FM_DELIM_LEN]

/-- The line loop at the closing delimiter: the newline before it becomes a
placeholder and the content starts behind the delimiter. -/
theorem conf_read_lines_delim (fuel : Nat) (pre junk T : List Char) (pairs : List conf_pair)
    (hj : '\n' ∉ junk) (hjn : NUL ∉ junk) (hT : NUL ∉ T) :
    conf_read_lines (fuel + 1) (pre ++ junk ++ '\n' :: (CONF_FM_DELIM ++ T)) pre.length pairs
      = some { buf := (pre ++ junk ++ [CONF_NULL_PH]) ++ (CONF_FM_DELIM ++ T),
               pairs := pairs,
               content := some ((pre ++ junk ++ [CONF_NULL_PH]).length + CONF_FM_DELIM_LEN) } := by
  have h1 := strchr_append pre junk (CONF_FM_DELIM ++ T) '\n' hj hjn (by decide)
  have h2 : (pre ++ junk ++ '\n' :: (CONF_FM_DELIM ++ T)).set (pre.length + junk.length)
      CONF_NULL_PH = (pre ++ junk ++ [CONF_NULL_PH]) ++ (CONF_FM_DELIM ++ T) := by
    have := set_append_cons (pre ++ junk) '\n' CONF_NULL_PH (CONF_FM_DELIM ++ T)
    rw [List.length_append] at this
    rw [this]; simp
  have h3 : pre.length + junk.length + 1 = (pre ++ junk ++ [CONF_NULL_PH]).length := by
    simp only [List.length_append, List.length_singleton]
  have hX : NUL ∉ CONF_FM_DELIM ++ T := by
    simp only [List.mem_append, not_or]; exact ⟨fm_delim_nul, hT⟩
  have h4 := cstr_append (pre ++ junk ++ [CONF_NULL_PH]) (CONF_FM_DELIM ++ T) hX
  rw [conf_read_lines]
  simp only [h1, h2, h3, h4, strncmp_delim, if_true]

/-- The line loop at an entry line: the newline before the line and the
first character of the key/value delimiter become placeholders, and the
entry is appended while there is room. -/
theorem conf_read_lines_entry (fuel : Nat) (pre junk k v R : List Char)
    (pairs : List conf_pair)
    (hj : '\n' ∉ junk) (hjn : NUL ∉ junk) (hkv : entry_ok (k, v)) (hR : NUL ∉ R) :
    conf_read_lines (fuel + 1)
        (pre ++ junk ++ '\n' :: (k ++ CONF_KV_DELIM ++ v ++ '\n' :: R)) pre.length pairs
      = conf_read_lines fuel
          ((pre ++ junk ++ [CONF_NULL_PH]) ++ (k ++ CONF_NULL_PH :: "= ".toList ++ v)
            ++ '\n' :: R)
          (pre ++ junk ++ [CONF_NULL_PH]).length
          (if pairs.length < CONF_MAX then
            pairs ++ [{ key := (pre ++ junk ++ [CONF_NULL_PH]).length,
                        val := (pre ++ junk ++ [CONF_NULL_PH]).length + k.length
                                + CONF_KV_DELIM_LEN }]
           else pairs) := by
  obtain ⟨hk, hv, hkn, hvn, hfirst⟩ := hkv
  simp only at hk hv hkn hvn hfirst
  have h1 := strchr_append pre junk (k ++ CONF_KV_DELIM ++ v ++ '\n' :: R) '\n' hj hjn
    (by decide)
  have h2 : (pre ++ junk ++ '\n' :: (k ++ CONF_KV_DELIM ++ v ++ '\n' :: R)).set
      (pre.length + junk.length) CONF_NULL_PH
        = (pre ++ junk ++ [CONF_NULL_PH]) ++ (k ++ CONF_KV_DELIM ++ v ++ '\n' :: R) := by
    have := set_append_cons (pre ++ junk) '\n' CONF_NULL_PH
      (k ++ CONF_KV_DELIM ++ v ++ '\n' :: R)
    rw [List.length_append] at this
    rw [this]; simp
  have h3 : pre.length + junk.length + 1 = (pre ++ junk ++ [CONF_NULL_PH]).length := by
    simp only [List.length_append, List.length_singleton]
  have hX : NUL ∉ k ++ CONF_KV_DELIM ++ v ++ '\n' :: R := by
    simp only [List.mem_append, List.mem_cons, not_or]
    exact ⟨⟨⟨hkn, kv_delim_nul⟩, hvn⟩, by decide, hR⟩
  have h4 := cstr_append (pre ++ junk ++ [CONF_NULL_PH])
    (k ++ CONF_KV_DELIM ++ v ++ '\n' :: R) hX
  have h5 : strncmp_eq (k ++ CONF_KV_DELIM ++ v ++ '\n' :: R) CONF_FM_DELIM
      CONF_FM_DELIM_LEN = false := by
    have := strncmp_entry k (v ++ '\n' :: R) hk
    simpa [List.append_assoc] using this
  have h6 : strstr_at ((pre ++ junk ++ [CONF_NULL_PH]) ++ (k ++ CONF_KV_DELIM ++ v ++ '\n' :: R))
      (pre ++ junk ++ [CONF_NULL_PH]).length CONF_KV_DELIM
        = some ((pre ++ junk ++ [CONF_NULL_PH]).length + k.length) := by
    have := strstr_append CONF_KV_DELIM (by decide) k (v ++ '\n' :: R) hfirst
    simp only [strstr_at, h4]
    have e : k ++ CONF_KV_DELIM ++ v ++ '\n' :: R = k ++ CONF_KV_DELIM ++ (v ++ '\n' :: R) := by
      simp [List.append_assoc]
    rw [e, this]; rfl
  have h7 : strchr ((pre ++ junk ++ [CONF_NULL_PH]) ++ (k ++ CONF_KV_DELIM ++ v ++ '\n' :: R))
      (pre ++ junk ++ [CONF_NULL_PH]).length '\n'
        = some ((pre ++ junk ++ [CONF_NULL_PH]).length + (k ++ CONF_KV_DELIM ++ v).length) := by
    have hnl : '\n' ∉ k ++ CONF_KV_DELIM ++ v := by
      simp only [List.mem_append, not_or]
      exact ⟨⟨hk, by decide⟩, hv⟩
    have hnn : NUL ∉ k ++ CONF_KV_DELIM ++ v := by
      simp only [List.mem_append, not_or]
      exact ⟨⟨hkn, kv_delim_nul⟩, hvn⟩
    have := strchr_append (pre ++ junk ++ [CONF_NULL_PH]) (k ++ CONF_KV_DELIM ++ v) R '\n'
      hnl hnn (by decide)
    rw [← this]
    congr 1
    simp [List.append_assoc]
  have h8 : ((pre ++ junk ++ [CONF_NULL_PH]) ++ (k ++ CONF_KV_DELIM ++ v ++ '\n' :: R)).set
      ((pre ++ junk ++ [CONF_NULL_PH]).length + k.length) CONF_NULL_PH
        = (pre ++ junk ++ [CONF_NULL_PH]) ++ (k ++ CONF_NULL_PH :: "= ".toList ++ v)
            ++ '\n' :: R := by
    have := set_append_cons ((pre ++ junk ++ [CONF_NULL_PH]) ++ k) ' ' CONF_NULL_PH
      ("= ".toList ++ v ++ '\n' :: R)
    rw [List.length_append] at this
    have e : (pre ++ junk ++ [CONF_NULL_PH]) ++ (k ++ CONF_KV_DELIM ++ v ++ '\n' :: R)
        = ((pre ++ junk ++ [CONF_NULL_PH]) ++ k) ++ ' ' :: ("= ".toList ++ v ++ '\n' :: R) := by
      simp [List.append_assoc, CONF_KV_DELIM]
    rw [e, this]
    simp [List.append_assoc]
  have h9 : ¬ ((pre ++ junk ++ [CONF_NULL_PH]).length + k.length
      > (pre ++ junk ++ [CONF_NULL_PH]).length + (k ++ CONF_KV_DELIM ++ v).length) := by
    simp only [List.length_append]; omega
  rw [conf_read_lines]
  simp only [h1, h2, h3, h4, h5, h6, h7, h8, h9, decide_False, if_false, Bool.false_eq_true]
  split <;> rfl

theorem entry_line_nul (kv : List Char × List Char) (h : entry_ok kv) :
    NUL ∉ conf_line kv := by
  obtain ⟨_, _, hkn, hvn, _⟩ := h
  simp only [conf_line, List.mem_append, List.mem_singleton, not_or]
  exact ⟨⟨⟨hkn, kv_delim_nul⟩, hvn⟩, by decide⟩

theorem entry_ph_line_nul (kv : List Char × List Char) (h : entry_ok kv) :
    NUL ∉ ph_line kv := by
  obtain ⟨_, _, hkn, hvn, _⟩ := h
  simp only [ph_line, List.mem_append, List.mem_cons, List.mem_singleton, not_or]
  exact ⟨⟨⟨hkn, by decide, by decide⟩, hvn⟩, by decide⟩

theorem flatten_lines_nul (g : List Char × List Char → List Char)
    (hg : ∀ kv, entry_ok kv → NUL ∉ g kv) :
    ∀ kvs : List (List Char × List Char), (∀ kv ∈ kvs, entry_ok kv) →
      NUL ∉ (kvs.map g).flatten := by
  intro kvs
  induction kvs with
  | nil => intro _; simp
  | cons kv kvs ih =>
    intro h
    simp only [List.map_cons, List.flatten_cons, List.mem_append, not_or]
    exact ⟨hg kv (h kv (List.mem_cons_self _ _)),
      ih (fun x hx => h x (List.mem_cons_of_mem _ hx))⟩

theorem ph_line_length (kv : List Char × List Char) :
    (ph_line kv).length = kv.1.length + CONF_KV_DELIM_LEN + kv.2.length + 1 := by
  simp only [ph_line, List.length_append, List.length_cons, List.length_singleton,
    CONF_KV_DELIM_LEN]
  simp

/-- The line loop over a block of entry lines closed by the delimiter. -/
theorem conf_read_lines_doc :
    ∀ (kvs : List (List Char × List Char)) (fuel : Nat) (pre junk T : List Char)
      (pairs : List conf_pair),
      (∀ kv ∈ kvs, entry_ok kv) → '\n' ∉ junk → NUL ∉ junk → NUL ∉ T →
      pairs.length + kvs.length ≤ CONF_MAX → kvs.length < fuel →
      conf_read_lines fuel
          (pre ++ junk ++ '\n' :: ((kvs.map conf_line).flatten ++ (CONF_FM_DELIM ++ T)))
          pre.length pairs
        = some { buf := (pre ++ junk ++ [CONF_NULL_PH]) ++
                    ((kvs.map ph_line).flatten ++ (CONF_FM_DELIM ++ T)),
                 pairs := pairs ++ line_pairs (pre ++ junk ++ [CONF_NULL_PH]).length kvs,
                 content := some ((pre ++ junk ++ [CONF_NULL_PH]).length +
                    ((kvs.map ph_line).flatten).length + CONF_FM_DELIM_LEN) } := by
  intro kvs
  induction kvs with
  | nil =>
    intro fuel pre junk T pairs _ hj hjn hT _ hfuel
    obtain ⟨f, rfl⟩ : ∃ f, fuel = f + 1 := ⟨fuel - 1, by simp at hfuel; omega⟩
    have := conf_read_lines_delim f pre junk T pairs hj hjn hT
    simpa [line_pairs] using this
  | cons kv kvs ih =>
    intro fuel pre junk T pairs hok hj hjn hT hcap hfuel
    obtain ⟨f, rfl⟩ : ∃ f, fuel = f + 1 := ⟨fuel - 1, by simp at hfuel; omega⟩
    obtain ⟨k, v⟩ := kv
    have hkv : entry_ok (k, v) := hok (k, v) (List.mem_cons_self _ _)
    have hok' : ∀ x ∈ kvs, entry_ok x := fun x hx => hok x (List.mem_cons_of_mem _ hx)
    have hR : NUL ∉ (kvs.map conf_line).flatten ++ (CONF_FM_DELIM ++ T) := by
      simp only [List.mem_append, not_or]
      exact ⟨flatten_lines_nul conf_line entry_line_nul kvs hok', fm_delim_nul, hT⟩
    have hstep := conf_read_lines_entry f pre junk k v
      ((kvs.map conf_line).flatten ++ (CONF_FM_DELIM ++ T)) pairs hj hjn hkv hR
    have e0 : pre ++ junk ++ '\n' :: (((k, v) :: kvs).map conf_line).flatten ++
          (CONF_FM_DELIM ++ T)
        = pre ++ junk ++ '\n' :: (k ++ CONF_KV_DELIM ++ v ++ '\n' ::
            ((kvs.map conf_line).flatten ++ (CONF_FM_DELIM ++ T))) := by
      simp [conf_line, List.append_assoc]
    have e0' : pre ++ junk ++ '\n' :: ((((k, v) :: kvs).map conf_line).flatten ++
          (CONF_FM_DELIM ++ T))
        = pre ++ junk ++ '\n' :: (k ++ CONF_KV_DELIM ++ v ++ '\n' ::
            ((kvs.map conf_line).flatten ++ (CONF_FM_DELIM ++ T))) := by
      simp [conf_line, List.append_assoc]
    rw [e0', hstep]
    obtain ⟨hk, hv, hkn, hvn, _⟩ := hkv
    simp only at hk hv hkn hvn
    have hj' : '\n' ∉ k ++ CONF_NULL_PH :: "= ".toList ++ v := by
      simp only [List.mem_append, List.mem_cons, not_or]
      exact ⟨⟨hk, by decide, by decide⟩, hv⟩
    have hjn' : NUL ∉ k ++ CONF_NULL_PH :: "= ".toList ++ v := by
      simp only [List.mem_append, List.mem_cons, not_or]
      exact ⟨⟨hkn, by decide, by decide⟩, hvn⟩
    have hlt : pairs.length < CONF_MAX := by
      simp only [List.length_cons] at hcap; omega
    rw [if_pos hlt]
    rw [ih f (pre ++ junk ++ [CONF_NULL_PH]) (k ++ CONF_NULL_PH :: "= ".toList ++ v) T _
      hok' hj' hjn' hT (by simp only [List.length_append, List.length_singleton,
        List.length_cons, List.length_nil] at hcap ⊢; omega) (by simp only [List.length_cons] at hfuel; omega)]
    have hlen : (pre ++ junk ++ [CONF_NULL_PH] ++ (k ++ CONF_NULL_PH :: "= ".toList ++ v)
        ++ [CONF_NULL_PH]).length
          = (pre ++ junk ++ [CONF_NULL_PH]).length + k.length + CONF_KV_DELIM_LEN
            + v.length + 1 := by
      simp only [List.length_append, List.length_cons, List.length_singleton,
        CONF_KV_DELIM_LEN]
      simp; omega
    have hph := ph_line_length (k, v)
    simp only at hph
    congr 1
    rw [hlen]
    congr 1
    · simp [ph_line, List.append_assoc]
    · simp [line_pairs, List.append_assoc]
    · simp only [List.map_cons, List.flatten_cons, List.length_append, hph]
      congr 1; omega

theorem first_split (x : Char) :
    ∀ l : List Char, x ∈ l → ∃ a t, l = a ++ x :: t ∧ x ∉ a := by
  intro l
  induction l with
  | nil => intro h; simp at h
  | cons y ys ih =>
    intro h
    by_cases hy : y = x
    · exact ⟨[], ys, by simp [hy], by simp⟩
    · have hx : x ∈ ys := by
        rcases List.mem_cons.1 h with e | e
        · exact absurd e.symm hy
        · exact e
      obtain ⟨a, t, hl, ha⟩ := ih hx
      refine ⟨y :: a, t, by simp [hl], ?_⟩
      simp only [List.mem_cons, not_or]
      exact ⟨fun e => hy e.symm, ha⟩

theorem map_nul_ph_of_not_mem (a : List Char) (h : CONF_NULL_PH ∉ a) :
    a.map nul_ph = a := by
  induction a with
  | nil => rfl
  | cons y ys ih =>
    have hy : y ≠ CONF_NULL_PH := fun e => h (by simp [e])
    simp [nul_ph, hy, ih (fun e => h (List.mem_cons_of_mem _ e))]

/-- The closing loop turns every placeholder of a terminator-free buffer
into a terminator. -/
theorem conf_read_nul_eq :
    ∀ (fuel : Nat) (pre rest : List Char), NUL ∉ rest → rest.length < fuel →
      conf_read_nul fuel (pre ++ rest) pre.length = some (pre ++ rest.map nul_ph) := by
  intro fuel
  induction fuel with
  | zero => intro pre rest _ h; omega
  | succ fuel ih =>
    intro pre rest hn hfuel
    rw [conf_read_nul]
    by_cases hm : CONF_NULL_PH ∈ rest
    · obtain ⟨a, t, hl, ha⟩ := first_split CONF_NULL_PH rest hm
      subst hl
      have hna : NUL ∉ a := fun e => hn (by simp [e])
      have hnt : NUL ∉ t := fun e => hn (by simp [e])
      have h1 : strchr (pre ++ (a ++ CONF_NULL_PH :: t)) pre.length CONF_NULL_PH
          = some (pre.length + a.length) := by
        have := strchr_append pre a t CONF_NULL_PH ha hna (by decide)
        simpa [List.append_assoc] using this
      have h2 : (pre ++ (a ++ CONF_NULL_PH :: t)).set (pre.length + a.length) NUL
          = (pre ++ a ++ [NUL]) ++ t := by
        have := set_append_cons (pre ++ a) CONF_NULL_PH NUL t
        rw [List.length_append] at this
        simp [List.append_assoc, this]
      have h3 : pre.length + a.length + 1 = (pre ++ a ++ [NUL]).length := by
        simp only [List.length_append, List.length_singleton]
      simp only [h1, h2, h3]
      rw [ih (pre ++ a ++ [NUL]) t hnt (by
        simp only [List.length_append, List.length_cons] at hfuel; omega)]
      simp [map_nul_ph_of_not_mem a ha, nul_ph, List.append_assoc]
    · have h1 := strchr_none pre rest CONF_NULL_PH hm hn
      simp only [h1, map_nul_ph_of_not_mem rest hm]

theorem takeWhile_map_nul_ph (s Y : List Char) (hs : NUL ∉ s) :
    ((s.map nul_ph) ++ NUL :: Y).takeWhile (· ≠ NUL) = cut_ph s := by
  induction s with
  | nil => simp [cut_ph]
  | cons c s ih =>
    have hc : c ≠ NUL := fun e => hs (by simp [e])
    have hs' : NUL ∉ s := fun e => hs (List.mem_cons_of_mem _ e)
    by_cases hd : c = CONF_NULL_PH
    · simp [cut_ph, nul_ph, hd, List.takeWhile_cons]
    · have := ih hs'
      simp only [cut_ph] at this
      simp only [List.map_cons, List.cons_append, cut_ph, nul_ph, hd, if_false,
        List.takeWhile_cons, ne_eq, hc, not_false_eq_true, decide_True, if_true]
      exact congrArg (c :: ·) this

theorem takeWhile_map_nul_ph_end (s : List Char) (hs : NUL ∉ s) :
    (s.map nul_ph).takeWhile (· ≠ NUL) = cut_ph s := by
  induction s with
  | nil => simp [cut_ph]
  | cons c s ih =>
    have hc : c ≠ NUL := fun e => hs (by simp [e])
    have hs' : NUL ∉ s := fun e => hs (List.mem_cons_of_mem _ e)
    by_cases hd : c = CONF_NULL_PH
    · simp [cut_ph, nul_ph, hd, List.takeWhile_cons]
    · have := ih hs'
      simp only [cut_ph] at this
      simp only [List.map_cons, List.cons_append, cut_ph, nul_ph, hd, if_false,
        List.takeWhile_cons, ne_eq, hc, not_false_eq_true, decide_True, if_true]
      exact congrArg (c :: ·) this

/-- In the finished buffer a string that was closed by a placeholder reads
as its source text cut before the first placeholder. -/
theorem cstr_nul_ph (P s Y : List Char) (hs : NUL ∉ s) :
    cstr ((P ++ (s ++ CONF_NULL_PH :: Y)).map nul_ph) P.length = cut_ph s := by
  have e : (P ++ (s ++ CONF_NULL_PH :: Y)).map nul_ph
      = P.map nul_ph ++ (s.map nul_ph ++ NUL :: Y.map nul_ph) := by
    simp [nul_ph]
  have hl : P.length = (P.map nul_ph).length := by simp
  rw [e, cstr, hl, drop_append_length]
  exact takeWhile_map_nul_ph s _ hs

theorem cstr_nul_ph_end (P s : List Char) (hs : NUL ∉ s) :
    cstr ((P ++ s).map nul_ph) P.length = cut_ph s := by
  have e : (P ++ s).map nul_ph = P.map nul_ph ++ s.map nul_ph := by simp
  have hl : P.length = (P.map nul_ph).length := by simp
  rw [e, cstr, hl, drop_append_length]
  exact takeWhile_map_nul_ph_end s hs

/-- Reading the stored pointers of a block of entry lines from the finished
buffer. -/
theorem line_pairs_read :
    ∀ (kvs : List (List Char × List Char)) (P rest : List Char),
      (∀ kv ∈ kvs, entry_ok kv) →
      (line_pairs P.length kvs).map (fun p =>
          (cstr ((P ++ ((kvs.map ph_line).flatten ++ rest)).map nul_ph) p.key,
           cstr ((P ++ ((kvs.map ph_line).flatten ++ rest)).map nul_ph) p.val))
        = kvs.map (fun kv => (cut_ph kv.1, cut_ph kv.2)) := by
  intro kvs
  induction kvs with
  | nil => intro P rest _; rfl
  | cons kv kvs ih =>
    intro P rest hok
    obtain ⟨k, v⟩ := kv
    obtain ⟨_, _, hkn, hvn, _⟩ := hok (k, v) (List.mem_cons_self _ _)
    simp only at hkn hvn
    have hok' : ∀ x ∈ kvs, entry_ok x := fun x hx => hok x (List.mem_cons_of_mem _ hx)
    have hbuf : P ++ ((((k, v) :: kvs).map ph_line).flatten ++ rest)
        = (P ++ ph_line (k, v)) ++ ((kvs.map ph_line).flatten ++ rest) := by
      simp [List.append_assoc]
    have hkey : cstr ((P ++ ((((k, v) :: kvs).map ph_line).flatten ++ rest)).map nul_ph)
        P.length = cut_ph k := by
      have e : P ++ ((((k, v) :: kvs).map ph_line).flatten ++ rest)
          = P ++ (k ++ CONF_NULL_PH ::
              ("= ".toList ++ v ++ [CONF_NULL_PH] ++ ((kvs.map ph_line).flatten ++ rest))) := by
        simp [ph_line, List.append_assoc]
      rw [e]; exact cstr_nul_ph P k _ hkn
    have hval : cstr ((P ++ ((((k, v) :: kvs).map ph_line).flatten ++ rest)).map nul_ph)
        (P.length + k.length + CONF_KV_DELIM_LEN) = cut_ph v := by
      have e : P ++ ((((k, v) :: kvs).map ph_line).flatten ++ rest)
          = (P ++ k ++ CONF_NULL_PH :: "= ".toList) ++ (v ++ CONF_NULL_PH ::
              ((kvs.map ph_line).flatten ++ rest)) := by
        simp [ph_line, List.append_assoc]
      have hl : P.length + k.length + CONF_KV_DELIM_LEN
          = (P ++ k ++ CONF_NULL_PH :: "= ".toList).length := by
        simp only [List.length_append, List.length_cons, CONF_KV_DELIM_LEN]
        simp
      rw [e, hl]; exact cstr_nul_ph _ v _ hvn
    have hnext : P.length + k.length + CONF_KV_DELIM_LEN + v.length + 1
        = (P ++ ph_line (k, v)).length := by
      rw [List.length_append, ph_line_length]; simp only; omega
    have htail := ih (P ++ ph_line (k, v)) rest hok'
    rw [← hnext, ← hbuf] at htail
    generalize (P ++ ((((k, v) :: kvs).map ph_line).flatten ++ rest)).map nul_ph = B
      at hkey hval htail ⊢
    simp only [line_pairs, List.map_cons, hkey, hval, htail]

theorem cut_ph_of_not_mem (s : List Char) (h : CONF_NULL_PH ∉ s) : cut_ph s = s := by
  apply takeWhile_eq_self_of_forall
  intro x hx
  simp only [decide_eq_true_eq]
  intro e; exact h (e ▸ hx)

theorem conf_doc_eq (kvs : List (List Char × List Char)) (T : List Char) :
    conf_doc kvs T = ([] ++ "---".toList ++ '\n' ::
      ((kvs.map conf_line).flatten ++ (CONF_FM_DELIM ++ T))) := by
  simp [conf_doc, CONF_FM_DELIM, List.append_assoc]

theorem conf_doc_length (kvs : List (List Char × List Char)) (T : List Char) :
    (conf_doc kvs T).length
      = 4 + ((kvs.map ph_line).flatten).length + 4 + T.length := by
  have hl : ∀ l : List (List Char × List Char),
      ((l.map conf_line).flatten).length = ((l.map ph_line).flatten).length := by
    intro l
    induction l with
    | nil => rfl
    | cons kv l ih =>
      simp only [List.map_cons, List.flatten_cons, List.length_append, ih, ph_line_length]
      simp [conf_line, CONF_KV_DELIM, CONF_KV_DELIM_LEN]
      omega
  simp only [conf_doc, List.length_append, hl]
  simp [CONF_FM_DELIM]

theorem flatten_length_ge (g : List Char × List Char → List Char)
    (hg : ∀ kv, 1 ≤ (g kv).length) :
    ∀ kvs : List (List Char × List Char), kvs.length ≤ ((kvs.map g).flatten).length := by
  intro kvs
  induction kvs with
  | nil => simp
  | cons kv kvs ih =>
    have := hg kv
    simp only [List.map_cons, List.flatten_cons, List.length_append, List.length_cons]
    omega

theorem mem_flatten_lines (x : Char) (g : List Char × List Char → List Char)
    (kv : List Char × List Char) (l : List Char) (hl : ∀ y ∈ l, y ∈ g kv) :
    ∀ kvs : List (List Char × List Char), kv ∈ kvs → x ∈ l → x ∈ (kvs.map g).flatten := by
  intro kvs hkv hx
  simp only [List.mem_flatten, List.mem_map]
  exact ⟨g kv, ⟨kv, hkv, rfl⟩, hl x hx⟩

/-- C2, as the code has it: for a text made of the opening delimiter, at
most 256 lines `k = v`, the closing delimiter and a text `T`, where no `k`
or `v` holds a newline and the first `" = "` of each line is the one behind
`k`, `conf_read` yields exactly one entry per line, in source order, and
content `T`, each key, value and the content cut before its first
placeholder byte `0x7F`; for a text without that byte the entries are the
`(k, v)` and the content is `T`, present also when `T` is empty. -/
theorem conf_read_front_matter (kvs : List (List Char × List Char)) (T : List Char)
    (hN : kvs.length ≤ CONF_MAX) (hok : ∀ kv ∈ kvs, entry_ok kv) (hT : NUL ∉ T)
    (fuel : Nat) (hfuel : (conf_doc kvs T).length < fuel) :
    ∃ c, conf_read fuel (conf_doc kvs T) = some c ∧
      conf_entries c = kvs.map (fun kv => (cut_ph kv.1, cut_ph kv.2)) ∧
      conf_content c = some (cut_ph T) ∧
      (CONF_NULL_PH ∉ conf_doc kvs T →
        conf_entries c = kvs ∧ conf_content c = some T) := by
  have hlen := conf_doc_length kvs T
  have hge := flatten_length_ge ph_line (fun kv => by rw [ph_line_length]; omega) kvs
  have hlinesn : NUL ∉ (kvs.map conf_line).flatten :=
    flatten_lines_nul conf_line entry_line_nul kvs hok
  have hphn : NUL ∉ (kvs.map ph_line).flatten :=
    flatten_lines_nul ph_line entry_ph_line_nul kvs hok
  have hdocn : NUL ∉ conf_doc kvs T := by
    simp only [conf_doc, List.mem_append, not_or]
    exact ⟨⟨⟨fm_delim_nul, hlinesn⟩, fm_delim_nul⟩, hT⟩
  have hstart : strncmp_eq (cstr (conf_doc kvs T) 0) CONF_FM_DELIM CONF_FM_DELIM_LEN
      = true := by
    have := cstr_append [] (conf_doc kvs T) hdocn
    simp only [List.nil_append, List.length_nil] at this
    rw [this]
    simp [strncmp_eq, conf_doc, CONF_FM_DELIM, CONF_FM_DELIM_LEN]
  have hlines := conf_read_lines_doc kvs fuel [] "---".toList T [] hok (by decide)
    (by decide) hT (by simpa using hN) (by omega)
  rw [← conf_doc_eq] at hlines
  simp only [List.length_nil] at hlines
  have hbufn : NUL ∉ ([] ++ "---".toList ++ [CONF_NULL_PH]) ++
      ((kvs.map ph_line).flatten ++ (CONF_FM_DELIM ++ T)) := by
    simp only [List.mem_append, not_or]
    exact ⟨⟨⟨by simp, by decide⟩, by decide⟩, hphn, fm_delim_nul, hT⟩
  have hnul := conf_read_nul_eq fuel []
    (([] ++ "---".toList ++ [CONF_NULL_PH]) ++
      ((kvs.map ph_line).flatten ++ (CONF_FM_DELIM ++ T))) hbufn
    (by
      have h3 : "---".toList.length = 3 := rfl
      have h4 : CONF_FM_DELIM.length = 4 := rfl
      simp only [List.length_append, List.length_nil, List.length_singleton, h3, h4]
      omega)
  simp only [List.nil_append, List.length_nil] at hnul
  have hentries := line_pairs_read kvs ([] ++ "---".toList ++ [CONF_NULL_PH])
    (CONF_FM_DELIM ++ T) hok
  have hcontent := cstr_nul_ph_end
    (([] ++ "---".toList ++ [CONF_NULL_PH]) ++ (kvs.map ph_line).flatten ++ CONF_FM_DELIM) T hT
  have hoff : (([] ++ "---".toList ++ [CONF_NULL_PH]) ++ (kvs.map ph_line).flatten ++
        CONF_FM_DELIM).length
      = ([] ++ "---".toList ++ [CONF_NULL_PH]).length + ((kvs.map ph_line).flatten).length
        + CONF_FM_DELIM_LEN := by
    simp only [List.length_append]
    simp [CONF_FM_DELIM, CONF_FM_DELIM_LEN]
  have hbufeq : (([] ++ "---".toList ++ [CONF_NULL_PH]) ++ (kvs.map ph_line).flatten ++
        CONF_FM_DELIM) ++ T
      = ([] ++ "---".toList ++ [CONF_NULL_PH]) ++
          ((kvs.map ph_line).flatten ++ (CONF_FM_DELIM ++ T)) := by
    simp only [List.append_assoc]
  rw [hoff, hbufeq] at hcontent
  have hres : conf_read fuel (conf_doc kvs T) = some
      { pairs := [] ++ line_pairs ([] ++ "---".toList ++ [CONF_NULL_PH]).length kvs,
        content := some (([] ++ "---".toList ++ [CONF_NULL_PH]).length +
          ((kvs.map ph_line).flatten).length + CONF_FM_DELIM_LEN),
        buf := some ((([] ++ "---".toList ++ [CONF_NULL_PH]) ++
          ((kvs.map ph_line).flatten ++ (CONF_FM_DELIM ++ T))).map nul_ph) } := by
    simp only [conf_read, hstart, Bool.not_true, Bool.false_eq_true, if_false, hlines]
    simp only [List.nil_append] at hnul ⊢
    rw [hnul]
  have he : conf_entries
      { pairs := [] ++ line_pairs ([] ++ "---".toList ++ [CONF_NULL_PH]).length kvs,
        content := some (([] ++ "---".toList ++ [CONF_NULL_PH]).length +
          ((kvs.map ph_line).flatten).length + CONF_FM_DELIM_LEN),
        buf := some ((([] ++ "---".toList ++ [CONF_NULL_PH]) ++
          ((kvs.map ph_line).flatten ++ (CONF_FM_DELIM ++ T))).map nul_ph) }
      = kvs.map (fun kv => (cut_ph kv.1, cut_ph kv.2)) := by
    simp only [conf_entries, List.nil_append] at hentries ⊢
    exact hentries
  have hc : conf_content
      { pairs := [] ++ line_pairs ([] ++ "---".toList ++ [CONF_NULL_PH]).length kvs,
        content := some (([] ++ "---".toList ++ [CONF_NULL_PH]).length +
          ((kvs.map ph_line).flatten).length + CONF_FM_DELIM_LEN),
        buf := some ((([] ++ "---".toList ++ [CONF_NULL_PH]) ++
          ((kvs.map ph_line).flatten ++ (CONF_FM_DELIM ++ T))).map nul_ph) }
      = some (cut_ph T) := by
    simp only [conf_content, hcontent]
  refine ⟨_, hres, he, hc, ?_⟩
  intro hph
  have hTph : CONF_NULL_PH ∉ T := fun e => hph (by simp [conf_doc, e])
  rw [he, hc, cut_ph_of_not_mem T hTph]
  refine ⟨?_, rfl⟩
  have hall : ∀ kv ∈ kvs, (cut_ph kv.1, cut_ph kv.2) = kv := by
    intro kv hkv
    have h1 : CONF_NULL_PH ∉ kv.1 := fun e => hph (by
      simp only [conf_doc, List.mem_append]
      exact Or.inl (Or.inl (Or.inr (mem_flatten_lines _ conf_line kv kv.1
        (fun y hy => by simp [conf_line, hy]) kvs hkv e))))
    have h2 : CONF_NULL_PH ∉ kv.2 := fun e => hph (by
      simp only [conf_doc, List.mem_append]
      exact Or.inl (Or.inl (Or.inr (mem_flatten_lines _ conf_line kv kv.2
        (fun y hy => by simp [conf_line, hy]) kvs hkv e))))
    rw [cut_ph_of_not_mem _ h1, cut_ph_of_not_mem _ h2]
  calc kvs.map (fun kv => (cut_ph kv.1, cut_ph kv.2))
      = kvs.map id := List.map_congr_left hall
    _ = kvs := List.map_id kvs

/-- C2 at the document of `test_conf_read`: two entries and the content
behind the closing delimiter. -/
theorem conf_read_front_matter_witness :
    ∃ c, conf_read 80 "---\nkey 1 = value 1\nkey 2 = value 2\n---\nmultiline\ntest = content".toList
        = some c ∧
      conf_entries c = [("key 1".toList, "value 1".toList), ("key 2".toList, "value 2".toList)] ∧
      conf_content c = some "multiline\ntest = content".toList := by
  obtain ⟨c, h1, _, _, h4⟩ := conf_read_front_matter
    [("key 1".toList, "value 1".toList), ("key 2".toList, "value 2".toList)]
    "multiline\ntest = content".toList (by decide) (by decide) (by decide) 80 (by decide)
  exact ⟨c, h1, h4 (by decide)⟩

/-- C2 as stated fails.  The key `"a ="` holds no `" = "`, yet its line
`"a = = v"` is split at the earlier delimiter into `("a", "= v")`.  And a
placeholder byte `0x7F` cuts a value and the content short. -/
theorem conf_read_front_matter_counterexample :
    ('\n' ∉ "a =".toList ∧ '\n' ∉ "v".toList ∧ ¬ CONF_KV_DELIM <:+: "a =".toList ∧
      (conf_read 32 (conf_doc [("a =".toList, "v".toList)] [])).map conf_entries
        = some [("a".toList, "= v".toList)] ∧
      (conf_read 32 (conf_doc [("a =".toList, "v".toList)] [])).map conf_entries
        ≠ some [("a =".toList, "v".toList)]) ∧
    ('\n' ∉ "a".toList ∧ '\n' ∉ "b\x7fc".toList ∧ ¬ CONF_KV_DELIM <:+: "a".toList ∧
      (conf_read 32 (conf_doc [("a".toList, "b\x7fc".toList)] "T\x7fU".toList)).map
          (fun c => (conf_entries c, conf_content c))
        = some ([("a".toList, "b".toList)], some "T".toList) ∧
      (conf_read 32 (conf_doc [("a".toList, "b\x7fc".toList)] "T\x7fU".toList)).map
          (fun c => (conf_entries c, conf_content c))
        ≠ some ([("a".toList, "b\x7fc".toList)], some "T\x7fU".toList)) := by
  decide

/-- C3: a text that does not begin with `"---\n"` yields zero entries and a
present content equal to the whole text, unchanged. -/
theorem conf_read_no_front_matter (text : List Char) (hn : NUL ∉ text)
    (h : ¬ CONF_FM_DELIM <+: text) (fuel : Nat) :
    conf_read fuel text = some { pairs := [], content := some 0, buf := some text } ∧
      conf_entries { pairs := [], content := some 0, buf := some text } = [] ∧
      conf_content { pairs := [], content := some 0, buf := some text } = some text := by
  have hc : cstr text 0 = text := by
    have := cstr_append [] text hn
    simpa using this
  have hs : strncmp_eq (cstr text 0) CONF_FM_DELIM CONF_FM_DELIM_LEN = false := by
    rw [hc]
    cases hb : strncmp_eq text CONF_FM_DELIM CONF_FM_DELIM_LEN with
    | false => rfl
    | true =>
      exfalso; apply h
      simp only [strncmp_eq, beq_iff_eq] at hb
      rw [List.prefix_iff_eq_take]
      have e : CONF_FM_DELIM.take CONF_FM_DELIM_LEN = CONF_FM_DELIM := by decide
      rw [e] at hb
      have hl : CONF_FM_DELIM.length = CONF_FM_DELIM_LEN := rfl
      rw [hl]; exact hb.symm
  refine ⟨?_, ?_, ?_⟩
  · simp only [conf_read, hs, Bool.not_false, if_true]
  · simp [conf_entries]
  · simp only [conf_content, hc]

/-- C3 at the text `"---"`, which lacks the newline of the delimiter. -/
theorem conf_read_no_front_matter_witness :
    conf_read 0 "---".toList
        = some { pairs := [], content := some 0, buf := some "---".toList } ∧
      conf_entries { pairs := [], content := some 0, buf := some "---".toList } = [] ∧
      conf_content { pairs := [], content := some 0, buf := some "---".toList }
        = some "---".toList :=
  conf_read_no_front_matter "---".toList (by decide) (by decide) 0

/-! ## Pages: `page_root`, `page_find`, `page_path_append`, `page_conf` -/

/-! ### The invariant of the heap -/

theorem wf_at {h : heap} {rank : Nat → Nat} (hwf : heap_wf h rank) {n : Nat} {p : page}
    (hp : h[n]? = some p) :
    p.name.length < NAME_MAX ∧
    (∀ par ∈ p.parent, rank par < rank n ∧
      ∃ pp ∈ h[par]?, n ∈ pp.children ++ pp.special) ∧
    (∀ c ∈ p.children ++ p.special, (h[c]?).bind (·.parent) = some n) ∧
    (p.children ++ p.special ≠ [] → p.is_parent = true) := by
  obtain ⟨hlt, _⟩ := List.getElem?_eq_some.1 hp
  exact hwf n hlt p hp

theorem wf_parent {h : heap} {rank : Nat → Nat} (hwf : heap_wf h rank) {n par : Nat}
    {p : page} (hp : h[n]? = some p) (hpar : p.parent = some par) :
    rank par < rank n ∧ ∃ pp, h[par]? = some pp ∧ n ∈ pp.children ++ pp.special := by
  obtain ⟨hr, pp, hpp, hmem⟩ := (wf_at hwf hp).2.1 par hpar
  exact ⟨hr, pp, hpp, hmem⟩

theorem wf_child {h : heap} {rank : Nat → Nat} (hwf : heap_wf h rank) {n c : Nat}
    {p : page} (hp : h[n]? = some p) (hc : c ∈ p.children ++ p.special) :
    ∃ cp, h[c]? = some cp ∧ cp.parent = some n := by
  have := (wf_at hwf hp).2.2.1 c hc
  cases hcp : h[c]? with
  | none => rw [hcp] at this; cases this
  | some cp =>
    rw [hcp] at this
    exact ⟨cp, rfl, this⟩

/-! ### `sscanf` -/

theorem takeWhile_seg (s r : List Char) (hs : '/' ∉ s) :
    (s ++ '/' :: r).takeWhile (· ≠ '/') = s := by
  rw [takeWhile_append_of_forall _ _ _ (fun x hx => by
    simp only [decide_eq_true_eq]; intro e; exact hs (e ▸ hx))]
  simp

theorem takeWhile_seg_end (s : List Char) (hs : '/' ∉ s) :
    s.takeWhile (· ≠ '/') = s :=
  takeWhile_eq_self_of_forall _ _ (fun x hx => by
    simp only [decide_eq_true_eq]; intro e; exact hs (e ▸ hx))

theorem dropWhile_isspace (r : List Char) (hr : ∀ x ∈ r, isspace x = false) :
    r.dropWhile isspace = r := by
  cases r with
  | nil => rfl
  | cons c cs => simp [List.dropWhile_cons, hr c (List.mem_cons_self _ _)]

/-- The split of `segment/rest` for a segment that fits `name` and a rest
that `%s` reads whole. -/
theorem sscanf_path_seg (s r : List Char) (hs : s ≠ []) (hslash : '/' ∉ s)
    (hlen : s.length ≤ NAME_MAX) (hr : ∀ x ∈ r, isspace x = false)
    (hrlen : r.length ≤ PATH_MAX) :
    sscanf_path (s ++ '/' :: r) = (s, r) := by
  have h1 : ((s ++ '/' :: r).takeWhile (· ≠ '/')).take NAME_MAX = s := by
    rw [takeWhile_seg s r hslash]; exact List.take_of_length_le hlen
  have h2 : s.isEmpty = false := by
    cases s with
    | nil => exact absurd rfl hs
    | cons _ _ => rfl
  have h3 : (r.takeWhile (fun x => !isspace x)) = r :=
    takeWhile_eq_self_of_forall _ _ (fun x hx => by simp [hr x hx])
  simp only [sscanf_path, h1, h2, drop_append_length, Bool.false_eq_true, if_false, if_true,
    dropWhile_isspace r hr, h3, List.take_of_length_le hrlen]

/-- The split of a path that is one segment. -/
theorem sscanf_path_single (s : List Char) (hs : s ≠ []) (hslash : '/' ∉ s)
    (hlen : s.length ≤ NAME_MAX) :
    sscanf_path s = (s, []) := by
  have h1 : (s.takeWhile (· ≠ '/')).take NAME_MAX = s := by
    rw [takeWhile_seg_end s hslash]; exact List.take_of_length_le hlen
  have h2 : s.isEmpty = false := by
    cases s with
    | nil => exact absurd rfl hs
    | cons _ _ => rfl
  simp only [sscanf_path, h1, h2, List.drop_length, Bool.false_eq_true, if_false]

theorem sscanf_path_nil : sscanf_path [] = ([], []) := by
  simp [sscanf_path]

/-- The second output of `sscanf` is shorter than the path whenever the
first conversion succeeded. -/
theorem sscanf_path_child_lt (path : List Char)
    (hname : (sscanf_path path).1.isEmpty = false) :
    (sscanf_path path).2.length < path.length := by
  have hne : (((path.takeWhile (· ≠ '/')).take NAME_MAX).isEmpty) = false := by
    cases hc : ((path.takeWhile (· ≠ '/')).take NAME_MAX).isEmpty with
    | false => rfl
    | true =>
      rw [sscanf_path] at hname
      simp only [hc, if_true] at hname
      simp at hname
  have hpos : 0 < ((path.takeWhile (· ≠ '/')).take NAME_MAX).length := by
    cases hl : (path.takeWhile (· ≠ '/')).take NAME_MAX with
    | nil => rw [hl] at hne; simp at hne
    | cons _ _ => simp
  have hplen : 0 < path.length := by
    cases path with
    | nil => simp at hpos
    | cons _ _ => simp
  simp only [sscanf_path, hne, Bool.false_eq_true, if_false]
  cases hd : path.drop ((path.takeWhile (· ≠ '/')).take NAME_MAX).length with
  | nil => simpa using hplen
  | cons c rest =>
    have hdl := congrArg List.length hd
    simp only [List.length_drop, List.length_cons] at hdl
    by_cases hc : c = '/'
    · simp only [hc, if_true]
      have h1 : (((rest.dropWhile isspace).takeWhile (fun x => !isspace x)).take PATH_MAX).length
          ≤ rest.length := by
        refine le_trans (List.take_sublist _ _).length_le ?_
        refine le_trans (List.takeWhile_sublist _).length_le ?_
        exact (List.dropWhile_sublist _).length_le
      omega
    · simp only [hc, if_false]; simpa using hplen

/-! ### The search loops -/

/-- Over valid pointers the search loop returns the first page with the
name. -/
theorem page_search_eq_find (h : heap) (name : List Char) :
    ∀ l : List Nat, (∀ c ∈ l, ∃ cp, h[c]? = some cp) →
      page_search h name l = some (l.find? (fun c => page_name h c == some name)) := by
  intro l
  induction l with
  | nil => intro _; rfl
  | cons c cs ih =>
    intro hv
    obtain ⟨cp, hcp⟩ := hv c (List.mem_cons_self _ _)
    have ih' := ih (fun x hx => hv x (List.mem_cons_of_mem _ hx))
    by_cases hn : cp.name = name
    · simp [page_search, hcp, strcmp_eq, hn, page_name, List.find?_cons]
    · simp [page_search, hcp, strcmp_eq, hn, page_name, List.find?_cons, ih']

/-! ### `page_root` -/

theorem page_root_mono_succ :
    ∀ (f : Nat) (h : heap) (n r : Nat), page_root f h n = some r →
      page_root (f + 1) h n = some r := by
  intro f
  induction f with
  | zero => intro h n r hyp; simp [page_root] at hyp
  | succ f ih =>
    intro h n r hyp
    rw [page_root] at hyp ⊢
    cases ht : h[n]? with
    | none => simp [ht] at hyp
    | some t =>
      simp only [ht] at hyp ⊢
      cases hp : t.parent with
      | none => simpa [hp] using hyp
      | some par =>
        simp only [hp] at hyp ⊢
        exact ih h par r hyp

theorem page_root_mono (h : heap) (n r : Nat) :
    ∀ (f f' : Nat), f ≤ f' → page_root f h n = some r → page_root f' h n = some r := by
  intro f f' hle
  induction hle with
  | refl => exact id
  | step _ ih => intro hyp; exact page_root_mono_succ _ h n r (ih hyp)

/-- In a well-formed heap `page_root` returns: the result is an
ancestor-or-self without a parent. -/
theorem page_root_returns {h : heap} {rank : Nat → Nat} (hwf : heap_wf h rank) :
    ∀ (m n : Nat) (p : page), rank n ≤ m → h[n]? = some p →
      ∃ f r k t, page_root f h n = some r ∧ page_ancestor h k n = some r ∧
        h[r]? = some t ∧ t.parent = none := by
  intro m
  induction m with
  | zero =>
    intro n p hm hp
    cases hpar : p.parent with
    | none =>
      refine ⟨1, n, 0, p, ?_, ?_, hp, hpar⟩
      · simp [page_root, hp, hpar]
      · obtain ⟨hlt, _⟩ := List.getElem?_eq_some.1 hp
        simp [page_ancestor, hlt]
    | some par =>
      have := (wf_parent hwf hp hpar).1
      omega
  | succ m ih =>
    intro n p hm hp
    cases hpar : p.parent with
    | none =>
      refine ⟨1, n, 0, p, ?_, ?_, hp, hpar⟩
      · simp [page_root, hp, hpar]
      · obtain ⟨hlt, _⟩ := List.getElem?_eq_some.1 hp
        simp [page_ancestor, hlt]
    | some par =>
      obtain ⟨hr, pp, hpp, _⟩ := wf_parent hwf hp hpar
      obtain ⟨f, r, k, t, h1, h2, h3, h4⟩ := ih par pp (by omega) hpp
      refine ⟨f + 1, r, k + 1, t, ?_, ?_, h3, h4⟩
      · simp [page_root, hp, hpar, h1]
      · simp [page_ancestor, hp, hpar, h2]

/-! ### Unfolding `page_find` -/

theorem page_find_succ (f : Nat) (h : heap) (tree : Nat) (path : List Char) (t : page)
    (ht : h[tree]? = some t) :
    page_find (f + 1) h tree path =
      if path.head? = some '/' then
        match page_root f h tree with
        | none => none
        | some root => page_find f h root (path.drop 1)
      else if (sscanf_path path).1.isEmpty then some (some tree)
      else if (sscanf_path path).1 = ['.'] ∧ !t.is_parent ∧ t.parent.isSome then
        match t.parent with
        | some par => page_find f h par (sscanf_path path).2
        | none => none
      else if (sscanf_path path).1 = ['.'] then page_find f h tree (sscanf_path path).2
      else
        match page_search h (sscanf_path path).1 t.children with
        | none => none
        | some (some child) => page_find f h child (sscanf_path path).2
        | some none =>
          match page_search h (sscanf_path path).1 t.special with
          | none => none
          | some (some special) => page_find f h special (sscanf_path path).2
          | some none =>
            match t.parent with
            | some par => page_find f h par path
            | none => some none := by
  rw [page_find]
  simp only [ht]

theorem page_find_valid (f : Nat) (h : heap) (n : Nat) (path : List Char) (r : Option Nat)
    (hyp : page_find f h n path = some r) : ∃ t, h[n]? = some t := by
  cases f with
  | zero => simp [page_find] at hyp
  | succ f =>
    cases ht : h[n]? with
    | none => rw [page_find] at hyp; simp [ht] at hyp
    | some t => exact ⟨t, rfl⟩

theorem page_find_mono_succ :
    ∀ (f : Nat) (h : heap) (n : Nat) (path : List Char) (r : Option Nat),
      page_find f h n path = some r → page_find (f + 1) h n path = some r := by
  intro f
  induction f with
  | zero => intro h n path r hyp; simp [page_find] at hyp
  | succ f ih =>
    intro h n path r hyp
    obtain ⟨t, ht⟩ := page_find_valid _ h n path r hyp
    rw [page_find_succ _ h n path t ht] at hyp ⊢
    split_ifs at hyp ⊢ with c1 c2 c3 c4
    · cases hr : page_root f h n with
      | none => simp [hr] at hyp
      | some root =>
        simp only [hr] at hyp
        simp only [page_root_mono_succ f h n root hr]
        exact ih h root _ r hyp
    · exact hyp
    · cases hp : t.parent with
      | none => simp [hp] at hyp
      | some par =>
        simp only [hp] at hyp ⊢
        exact ih h par _ r hyp
    · exact ih h n _ r hyp
    · cases hs : page_search h (sscanf_path path).1 t.children with
      | none => simp [hs] at hyp
      | some oc =>
        cases oc with
        | some child =>
          simp only [hs] at hyp ⊢
          exact ih h child _ r hyp
        | none =>
          simp only [hs] at hyp ⊢
          cases hs2 : page_search h (sscanf_path path).1 t.special with
          | none => simp [hs2] at hyp
          | some os =>
            cases os with
            | some special =>
              simp only [hs2] at hyp ⊢
              exact ih h special _ r hyp
            | none =>
              simp only [hs2] at hyp ⊢
              cases hp : t.parent with
              | none => simpa [hp] using hyp
              | some par =>
                simp only [hp] at hyp ⊢
                exact ih h par _ r hyp

theorem page_find_mono (h : heap) (n : Nat) (path : List Char) (r : Option Nat) :
    ∀ (f f' : Nat), f ≤ f' → page_find f h n path = some r →
      page_find f' h n path = some r := by
  intro f f' hle
  induction hle with
  | refl => exact id
  | step _ ih => intro hyp; exact page_find_mono_succ _ h n path r (ih hyp)

/-- One run that returns settles every run with at least as much fuel. -/
theorem page_find_returns_of_run {h : heap} {n : Nat} {path : List Char} {r : Option Nat}
    {f : Nat} (hyp : page_find f h n path = some r) : page_find_returns h n path r :=
  ⟨f, fun f' hle => page_find_mono h n path r f f' hle hyp⟩

theorem page_find_returns_run {h : heap} {n : Nat} {path : List Char} {r : Option Nat}
    (hyp : page_find_returns h n path r) : ∃ f, page_find f h n path = some r := by
  obtain ⟨N, hN⟩ := hyp
  exact ⟨N, hN N (Nat.le_refl _)⟩

/-- A call of `page_find` returns at most one result. -/
theorem page_find_returns_unique {h : heap} {n : Nat} {path : List Char}
    {r r' : Option Nat} (h1 : page_find_returns h n path r)
    (h2 : page_find_returns h n path r') : r = r' := by
  obtain ⟨N, hN⟩ := h1
  obtain ⟨M, hM⟩ := h2
  have a := hN (max N M) (Nat.le_max_left _ _)
  have b := hM (max N M) (Nat.le_max_right _ _)
  rw [a] at b
  exact Option.some.inj b

/-! ### The search below one page -/

theorem page_search_children {h : heap} {rank : Nat → Nat} (hwf : heap_wf h rank)
    {n : Nat} {t : page} (ht : h[n]? = some t) (name : List Char) :
    page_search h name t.children
      = some (t.children.find? (fun c => page_name h c == some name)) := by
  apply page_search_eq_find
  intro c hc
  obtain ⟨cp, hcp, _⟩ := wf_child hwf ht (List.mem_append_left _ hc)
  exact ⟨cp, hcp⟩

theorem page_search_special {h : heap} {rank : Nat → Nat} (hwf : heap_wf h rank)
    {n : Nat} {t : page} (ht : h[n]? = some t) (name : List Char) :
    page_search h name t.special
      = some (t.special.find? (fun c => page_name h c == some name)) := by
  apply page_search_eq_find
  intro c hc
  obtain ⟨cp, hcp, _⟩ := wf_child hwf ht (List.mem_append_right _ hc)
  exact ⟨cp, hcp⟩

/-- The selected child is listed below the page and carries the name. -/
theorem page_child_named_spec {h : heap} {t : page} {s : List Char} {c : Nat}
    (hc : page_child_named h t s = some c) :
    c ∈ t.children ++ t.special ∧ page_name h c = some s := by
  unfold page_child_named at hc
  cases h1 : t.children.find? (fun c => page_name h c == some s) with
  | some c1 =>
    rw [h1] at hc
    have : c1 = c := Option.some.inj hc
    subst this
    refine ⟨List.mem_append_left _ (List.mem_of_find?_eq_some h1), ?_⟩
    have := List.find?_some h1
    simpa using this
  | none =>
    rw [h1] at hc
    simp only at hc
    refine ⟨List.mem_append_right _ (List.mem_of_find?_eq_some hc), ?_⟩
    have := List.find?_some hc
    simpa using this

theorem page_child_named_none {h : heap} {t : page} {s : List Char}
    (hc : page_child_named h t s = none) :
    ∀ c ∈ t.children ++ t.special, page_name h c ≠ some s := by
  unfold page_child_named at hc
  cases h1 : t.children.find? (fun c => page_name h c == some s) with
  | some c1 => rw [h1] at hc; cases hc
  | none =>
    rw [h1] at hc
    simp only at hc
    intro c hmem
    rcases List.mem_append.1 hmem with hm | hm
    · have := List.find?_eq_none.1 h1 c hm
      simpa using this
    · have := List.find?_eq_none.1 hc c hm
      simpa using this

/-! ### Termination of `page_find` -/

/-- One step of `page_find` on a path that does not begin with a separator
and whose first segment is not empty and not the dot: the run continues in
the selected child with the rest of the path, or in the parent with the
same path, or ends with `NULL` at a page without parent. -/
theorem page_find_succ_search {h : heap} {rank : Nat → Nat} (hwf : heap_wf h rank)
    (f : Nat) {n : Nat} {t : page} (ht : h[n]? = some t) (path : List Char)
    (c1 : ¬ path.head? = some '/') (c2 : (sscanf_path path).1.isEmpty = false)
    (c3 : (sscanf_path path).1 ≠ ['.']) :
    page_find (f + 1) h n path =
      match page_child_named h t (sscanf_path path).1 with
      | some c => page_find f h c (sscanf_path path).2
      | none =>
        match t.parent with
        | some par => page_find f h par path
        | none => some none := by
  have c2' : ¬ (sscanf_path path).1.isEmpty = true := by simp [c2]
  have c3' : ¬ ((sscanf_path path).1 = ['.'] ∧ (!t.is_parent) = true ∧
      t.parent.isSome = true) := fun hh => c3 hh.1
  rw [page_find_succ f h n path t ht, if_neg c1, if_neg c2', if_neg c3', if_neg c3,
    page_search_children hwf ht, page_search_special hwf ht]
  unfold page_child_named
  cases h1 : t.children.find? (fun c => page_name h c == some (sscanf_path path).1) with
  | some c => rfl
  | none =>
    simp only
    cases h2 : t.special.find? (fun c => page_name h c == some (sscanf_path path).1) with
    | some c => rfl
    | none => rfl

theorem page_find_terminates_aux {h : heap} {rank : Nat → Nat} (hwf : heap_wf h rank) :
    ∀ (L : Nat) (path : List Char), path.length < L →
      ∀ (m n : Nat) (t : page), rank n < m → h[n]? = some t →
        ∃ f r, page_find f h n path = some r := by
  intro L
  induction L with
  | zero => intro path hl; omega
  | succ L ihL =>
    intro path hl m
    have rec_short : ∀ (path' : List Char) (n' : Nat) (t' : page),
        path'.length < path.length → h[n']? = some t' →
        ∃ f r, page_find f h n' path' = some r :=
      fun path' n' t' hlt ht' => ihL path' (by omega) (rank n' + 1) n' t' (by omega) ht'
    induction m with
    | zero => intro n t hr; omega
    | succ m ihm =>
      intro n t hrank ht
      by_cases c1 : path.head? = some '/'
      · obtain ⟨f1, root, _, troot, hroot, _, htroot, _⟩ :=
          page_root_returns hwf (rank n) n t (Nat.le_refl _) ht
        have hdrop : (path.drop 1).length < path.length := by
          cases path with
          | nil => simp at c1
          | cons _ _ => simp
        obtain ⟨f2, r, hr⟩ := rec_short (path.drop 1) root troot hdrop htroot
        refine ⟨max f1 f2 + 1, r, ?_⟩
        rw [page_find_succ _ h n path t ht, if_pos c1,
          page_root_mono h n root f1 _ (Nat.le_max_left _ _) hroot]
        exact page_find_mono h root _ r f2 _ (Nat.le_max_right _ _) hr
      · by_cases c2 : (sscanf_path path).1.isEmpty = true
        · exact ⟨1, some n, by rw [page_find_succ _ h n path t ht, if_neg c1, if_pos c2]⟩
        · have c2f : (sscanf_path path).1.isEmpty = false := by simpa using c2
          have hchild := sscanf_path_child_lt path c2f
          by_cases c3 : (sscanf_path path).1 = ['.'] ∧ (!t.is_parent) = true ∧
              t.parent.isSome = true
          · cases hp : t.parent with
            | none => rw [hp] at c3; simp at c3
            | some par =>
              obtain ⟨_, pp, hpp, _⟩ := wf_parent hwf ht hp
              obtain ⟨f2, r, hr⟩ := rec_short _ par pp hchild hpp
              refine ⟨f2 + 1, r, ?_⟩
              rw [page_find_succ _ h n path t ht, if_neg c1, if_neg c2, if_pos c3]
              simp only [hp]
              exact hr
          · by_cases c4 : (sscanf_path path).1 = ['.']
            · obtain ⟨f2, r, hr⟩ := rec_short _ n t hchild ht
              refine ⟨f2 + 1, r, ?_⟩
              rw [page_find_succ _ h n path t ht, if_neg c1, if_neg c2, if_neg c3, if_pos c4]
              exact hr
            · cases hc : page_child_named h t (sscanf_path path).1 with
              | some c =>
                obtain ⟨hmem, _⟩ := page_child_named_spec hc
                obtain ⟨cp, hcp, _⟩ := wf_child hwf ht hmem
                obtain ⟨f2, r, hr⟩ := rec_short _ c cp hchild hcp
                refine ⟨f2 + 1, r, ?_⟩
                rw [page_find_succ_search hwf f2 ht path c1 c2f c4, hc]
                exact hr
              | none =>
                cases hp : t.parent with
                | none =>
                  refine ⟨1, none, ?_⟩
                  rw [page_find_succ_search hwf 0 ht path c1 c2f c4, hc]
                  simp only [hp]
                | some par =>
                  obtain ⟨hrk, pp, hpp, _⟩ := wf_parent hwf ht hp
                  obtain ⟨f2, r, hr⟩ := ihm par pp (by omega) hpp
                  refine ⟨f2 + 1, r, ?_⟩
                  rw [page_find_succ_search hwf f2 ht path c1 c2f c4, hc]
                  simp only [hp]
                  exact hr

/-- In a well-formed heap `page_find` returns on every path from every
page. -/
theorem page_find_total {h : heap} {rank : Nat → Nat} (hwf : heap_wf h rank)
    {n : Nat} {t : page} (ht : h[n]? = some t) (path : List Char) :
    ∃ r, page_find_returns h n path r := by
  obtain ⟨f, r, hr⟩ := page_find_terminates_aux hwf (path.length + 1) path (by omega)
    (rank n + 1) n t (by omega) ht
  exact ⟨r, page_find_returns_of_run hr⟩

/-! ### The steps of `page_find` as statements about results -/

theorem returns_nil {h : heap} {n : Nat} {t : page} (ht : h[n]? = some t) :
    page_find_returns h n [] (some n) := by
  apply page_find_returns_of_run (f := 1)
  rw [page_find_succ 0 h n [] t ht]
  simp [sscanf_path_nil]

theorem returns_abs {h : heap} {n root f0 : Nat} {t : page} (ht : h[n]? = some t)
    (hroot : page_root f0 h n = some root) (p : List Char) {r : Option Nat}
    (hr : page_find_returns h root p r) : page_find_returns h n ('/' :: p) r := by
  obtain ⟨f2, hf2⟩ := page_find_returns_run hr
  apply page_find_returns_of_run (f := max f0 f2 + 1)
  rw [page_find_succ _ h n _ t ht, if_pos (by simp),
    page_root_mono h n root f0 _ (Nat.le_max_left _ _) hroot]
  exact page_find_mono h root _ r f2 _ (Nat.le_max_right _ _) hf2

theorem returns_dot_up {h : heap} {n par : Nat} {t : page} (ht : h[n]? = some t)
    (path child : List Char) (c1 : ¬ path.head? = some '/')
    (hsplit : sscanf_path path = (['.'], child))
    (hleaf : t.is_parent = false) (hpar : t.parent = some par) {r : Option Nat}
    (hr : page_find_returns h par child r) : page_find_returns h n path r := by
  obtain ⟨f2, hf2⟩ := page_find_returns_run hr
  apply page_find_returns_of_run (f := f2 + 1)
  rw [page_find_succ _ h n _ t ht, if_neg c1, hsplit, if_neg (by simp),
    if_pos (by simp [hleaf, hpar])]
  simp only [hpar]
  exact hf2

theorem returns_dot_stay {h : heap} {n : Nat} {t : page} (ht : h[n]? = some t)
    (path child : List Char) (c1 : ¬ path.head? = some '/')
    (hsplit : sscanf_path path = (['.'], child))
    (hstay : t.is_parent = true ∨ t.parent = none) {r : Option Nat}
    (hr : page_find_returns h n child r) : page_find_returns h n path r := by
  obtain ⟨f2, hf2⟩ := page_find_returns_run hr
  apply page_find_returns_of_run (f := f2 + 1)
  have c3 : ¬ (True ∧ (!t.is_parent) = true ∧ t.parent.isSome = true) := by
    rcases hstay with hs | hs
    · simp [hs]
    · simp [hs]
  rw [page_find_succ _ h n _ t ht, if_neg c1, hsplit, if_neg (by simp)]
  simp only
  rw [if_neg c3, if_pos trivial]
  exact hf2

theorem returns_child {h : heap} {rank : Nat → Nat} (hwf : heap_wf h rank)
    {n c : Nat} {t : page} (ht : h[n]? = some t)
    (path name child : List Char) (c1 : ¬ path.head? = some '/')
    (hsplit : sscanf_path path = (name, child)) (hne : name ≠ []) (hdot : name ≠ ['.'])
    (hc : page_child_named h t name = some c) {r : Option Nat}
    (hr : page_find_returns h c child r) : page_find_returns h n path r := by
  obtain ⟨f2, hf2⟩ := page_find_returns_run hr
  apply page_find_returns_of_run (f := f2 + 1)
  have c2 : (sscanf_path path).1.isEmpty = false := by
    rw [hsplit]; cases name with
    | nil => exact absurd rfl hne
    | cons _ _ => rfl
  rw [page_find_succ_search hwf f2 ht path c1 c2 (by rw [hsplit]; exact hdot), hsplit]
  simp only [hc]
  exact hf2

theorem returns_up {h : heap} {rank : Nat → Nat} (hwf : heap_wf h rank)
    {n par : Nat} {t : page} (ht : h[n]? = some t)
    (path name child : List Char) (c1 : ¬ path.head? = some '/')
    (hsplit : sscanf_path path = (name, child)) (hne : name ≠ []) (hdot : name ≠ ['.'])
    (hc : page_child_named h t name = none) (hpar : t.parent = some par) {r : Option Nat}
    (hr : page_find_returns h par path r) : page_find_returns h n path r := by
  obtain ⟨f2, hf2⟩ := page_find_returns_run hr
  apply page_find_returns_of_run (f := f2 + 1)
  have c2 : (sscanf_path path).1.isEmpty = false := by
    rw [hsplit]; cases name with
    | nil => exact absurd rfl hne
    | cons _ _ => rfl
  rw [page_find_succ_search hwf f2 ht path c1 c2 (by rw [hsplit]; exact hdot), hsplit]
  simp only [hc, hpar]
  exact hf2

theorem returns_fail {h : heap} {rank : Nat → Nat} (hwf : heap_wf h rank)
    {n : Nat} {t : page} (ht : h[n]? = some t)
    (path name child : List Char) (c1 : ¬ path.head? = some '/')
    (hsplit : sscanf_path path = (name, child)) (hne : name ≠ []) (hdot : name ≠ ['.'])
    (hc : page_child_named h t name = none) (hpar : t.parent = none) :
    page_find_returns h n path none := by
  apply page_find_returns_of_run (f := 1)
  have c2 : (sscanf_path path).1.isEmpty = false := by
    rw [hsplit]; cases name with
    | nil => exact absurd rfl hne
    | cons _ _ => rfl
  rw [page_find_succ_search hwf 0 ht path c1 c2 (by rw [hsplit]; exact hdot), hsplit]
  simp only [hc, hpar]

/-! ## Path resolution: the claims about `page_find` -/

theorem test_heap_build_eq : test_heap_build = some test_heap := by decide

theorem head_seg_ne_slash (s rest : List Char) (hs : s ≠ []) (hslash : '/' ∉ s) :
    ¬ (s ++ rest).head? = some '/' := by
  cases s with
  | nil => exact absurd rfl hs
  | cons a s' =>
    simp only [List.cons_append, List.head?_cons, Option.some.injEq]
    intro e; exact hslash (by simp [e])

theorem name_of_page_name {h : heap} {c : Nat} {s : List Char}
    (hn : page_name h c = some s) : ∃ cp, h[c]? = some cp ∧ cp.name = s := by
  unfold page_name at hn
  cases hcp : h[c]? with
  | none => rw [hcp] at hn; cases hn
  | some cp =>
    rw [hcp] at hn
    exact ⟨cp, rfl, Option.some.inj hn⟩

/-- The name of a selected child fits the `name` buffer of `page_find`. -/
theorem child_named_length {h : heap} {rank : Nat → Nat} (hwf : heap_wf h rank)
    {t : page} {s : List Char} {c : Nat} (hc : page_child_named h t s = some c) :
    s.length < NAME_MAX := by
  obtain ⟨_, hname⟩ := page_child_named_spec hc
  obtain ⟨cp, hcp, hs⟩ := name_of_page_name hname
  rw [← hs]; exact (wf_at hwf hcp).1

/-- No child carries a name as long as the `name` field. -/
theorem child_named_long {h : heap} {rank : Nat → Nat} (hwf : heap_wf h rank)
    (t : page) (s : List Char) (hlen : NAME_MAX ≤ s.length) :
    page_child_named h t s = none := by
  cases hc : page_child_named h t s with
  | none => rfl
  | some c => have := child_named_length hwf hc; omega

/-- The descent step: the first segment selects a child and the run goes on
there with the rest of the path. -/
theorem returns_descent {h : heap} {rank : Nat → Nat} (hwf : heap_wf h rank)
    {n c : Nat} {t : page} (ht : h[n]? = some t) (s r : List Char)
    (hs : s ≠ []) (hslash : '/' ∉ s) (hdot : s ≠ ['.'])
    (hc : page_child_named h t s = some c)
    (hr : ∀ x ∈ r, isspace x = false) (hrlen : r.length ≤ PATH_MAX) {res : Option Nat}
    (hres : page_find_returns h c r res) :
    page_find_returns h n (s ++ '/' :: r) res := by
  have hlen := child_named_length hwf hc
  exact returns_child hwf ht (s ++ '/' :: r) s r (head_seg_ne_slash s _ hs hslash)
    (sscanf_path_seg s r hs hslash (by omega) hr hrlen) hs hdot hc hres

/-- C5, as the code has it: if the page `n` has an ordinary or special child
named exactly `s` (non-empty, no separator, not the dot) and `r` is free of
white space and at most `PATH_MAX` characters long, then
`page_find(n, s + "/" + r)` and `page_find(c, r)` return the same result,
where `c` is the first ordinary child named `s` or, if there is none, the
first special child named `s`. -/
theorem page_find_descent (h : heap) (rank : Nat → Nat) (hwf : heap_wf h rank)
    {n c : Nat} {t : page} (ht : h[n]? = some t) (s r : List Char)
    (hs : s ≠ []) (hslash : '/' ∉ s) (hdot : s ≠ ['.'])
    (hc : page_child_named h t s = some c)
    (hr : ∀ x ∈ r, isspace x = false) (hrlen : r.length ≤ PATH_MAX) :
    ∃ res, page_find_returns h n (s ++ '/' :: r) res ∧ page_find_returns h c r res := by
  obtain ⟨hmem, _⟩ := page_child_named_spec hc
  obtain ⟨cp, hcp, _⟩ := wf_child hwf ht hmem
  obtain ⟨res, hres⟩ := page_find_total hwf hcp r
  exact ⟨res, returns_descent hwf ht s r hs hslash hdot hc hr hrlen hres, hres⟩

/-- C5 on the tree of `test_page_find`: `child2/.child3` from the root and
`.child3` from `child2` both return `.child3`. -/
theorem page_find_descent_witness :
    ∃ res, page_find_returns test_heap 0 ("child2".toList ++ '/' :: ".child3".toList) res ∧
      page_find_returns test_heap 2 ".child3".toList res :=
  page_find_descent test_heap id (by decide) (n := 0) (c := 2) rfl
    "child2".toList ".child3".toList (by decide) (by decide) (by decide) (by decide)
    (by decide) (by decide)

set_option maxRecDepth 100000 in
/-- C5 as stated fails for a remainder that `child_path` does not take
whole.  With white space: from the root, `"child2/ .child3"` resolves to
`.child3`, while `" .child3"` from `child2` is not found.  With more than
`PATH_MAX` characters: from the root, `"child2/"` followed by 1024
separators and `"child1"` resolves to the root, while the remainder alone
resolves from `child2` to `child1`. -/
theorem page_find_descent_counterexample :
    page_child_named test_heap
        { page_zero with name := "root".toList, is_parent := true, children := [1, 2] }
        "child2".toList = some 2 ∧
      (page_find_returns test_heap 0 ("child2".toList ++ '/' :: " .child3".toList) (some 3) ∧
        page_find_returns test_heap 2 " .child3".toList none ∧
        ¬ ∃ res,
          page_find_returns test_heap 0 ("child2".toList ++ '/' :: " .child3".toList) res ∧
          page_find_returns test_heap 2 " .child3".toList res) ∧
      (page_find_returns test_heap 0
          ("child2".toList ++ '/' :: (List.replicate 1024 '/' ++ "child1".toList)) (some 0) ∧
        page_find_returns test_heap 2
          (List.replicate 1024 '/' ++ "child1".toList) (some 1) ∧
        ¬ ∃ res,
          page_find_returns test_heap 0
            ("child2".toList ++ '/' :: (List.replicate 1024 '/' ++ "child1".toList)) res ∧
          page_find_returns test_heap 2 (List.replicate 1024 '/' ++ "child1".toList) res) := by
  have h1 : page_find_returns test_heap 0 ("child2".toList ++ '/' :: " .child3".toList)
      (some 3) := page_find_returns_of_run (f := 8) (by decide)
  have h2 : page_find_returns test_heap 2 " .child3".toList none :=
    page_find_returns_of_run (f := 8) (by decide)
  have h3 : page_find_returns test_heap 0
      ("child2".toList ++ '/' :: (List.replicate 1024 '/' ++ "child1".toList)) (some 0) :=
    page_find_returns_of_run (f := 1100) (by decide)
  have h4 : page_find_returns test_heap 2
      (List.replicate 1024 '/' ++ "child1".toList) (some 1) :=
    page_find_returns_of_run (f := 1100) (by decide)
  refine ⟨by decide, ⟨h1, h2, ?_⟩, ⟨h3, h4, ?_⟩⟩
  · rintro ⟨res, a, b⟩
    have e1 := page_find_returns_unique a h1
    have e2 := page_find_returns_unique b h2
    rw [e1] at e2
    cases e2
  · rintro ⟨res, a, b⟩
    have e1 := page_find_returns_unique a h3
    have e2 := page_find_returns_unique b h4
    rw [e1] at e2
    cases e2

/-! ### Single segments and the upward fallback -/

/-- The split of a path that is one segment without separator: the name is
the segment, cut to `NAME_MAX` characters, and nothing is left for
`child_path`. -/
theorem sscanf_path_long (s : List Char) (hslash : '/' ∉ s) (hlen : NAME_MAX < s.length) :
    sscanf_path s = (s.take NAME_MAX, []) := by
  have h1 : (s.takeWhile (· ≠ '/')).take NAME_MAX = s.take NAME_MAX := by
    rw [takeWhile_seg_end s hslash]
  have hl : (s.take NAME_MAX).length = NAME_MAX := by
    rw [List.length_take]; omega
  have h2 : (s.take NAME_MAX).isEmpty = false := by
    cases hc : s.take NAME_MAX with
    | nil => rw [hc] at hl; simp [NAME_MAX] at hl
    | cons _ _ => rfl
  simp only [sscanf_path, h1, h2, Bool.false_eq_true, if_false, hl]
  cases hd : s.drop NAME_MAX with
  | nil => rfl
  | cons c rest =>
    have hc : c ∈ s := List.mem_of_mem_drop (by rw [hd]; exact List.mem_cons_self _ _)
    have : c ≠ '/' := fun e => hslash (e ▸ hc)
    simp [this]

/-- The steps of `page_find` on a one-segment path, by what the page holds
under that name. -/
theorem returns_single_found {h : heap} {rank : Nat → Nat} (hwf : heap_wf h rank)
    {n c : Nat} {t : page} (ht : h[n]? = some t) (s : List Char)
    (hs : s ≠ []) (hslash : '/' ∉ s) (hdot : s ≠ ['.'])
    (hc : page_child_named h t s = some c) :
    page_find_returns h n s (some c) := by
  have hlen := child_named_length hwf hc
  obtain ⟨hmem, _⟩ := page_child_named_spec hc
  obtain ⟨cp, hcp, _⟩ := wf_child hwf ht hmem
  have := returns_child hwf ht s s [] (by simpa using head_seg_ne_slash s [] hs hslash)
    (sscanf_path_single s hs hslash (by omega)) hs hdot hc (returns_nil hcp)
  exact this

theorem single_split {h : heap} {rank : Nat → Nat} (hwf : heap_wf h rank)
    (t : page) (s : List Char) (hs : s ≠ []) (hslash : '/' ∉ s) (hdot : s ≠ ['.'])
    (hc : page_child_named h t s = none) :
    ∃ name, sscanf_path s = (name, []) ∧ name ≠ [] ∧ name ≠ ['.'] ∧
      page_child_named h t name = none := by
  by_cases hlen : s.length ≤ NAME_MAX
  · exact ⟨s, sscanf_path_single s hs hslash hlen, hs, hdot, hc⟩
  · have hl : (s.take NAME_MAX).length = NAME_MAX := by
      rw [List.length_take]; omega
    refine ⟨s.take NAME_MAX, sscanf_path_long s hslash (by omega), ?_, ?_,
      child_named_long hwf t _ (by omega)⟩
    · intro e; rw [e] at hl; simp [NAME_MAX] at hl
    · intro e; rw [e] at hl; simp [NAME_MAX] at hl

theorem returns_single_up {h : heap} {rank : Nat → Nat} (hwf : heap_wf h rank)
    {n par : Nat} {t : page} (ht : h[n]? = some t) (s : List Char)
    (hs : s ≠ []) (hslash : '/' ∉ s) (hdot : s ≠ ['.'])
    (hc : page_child_named h t s = none) (hpar : t.parent = some par) {r : Option Nat}
    (hr : page_find_returns h par s r) : page_find_returns h n s r := by
  obtain ⟨name, hsplit, hne, hnd, hnone⟩ := single_split hwf t s hs hslash hdot hc
  exact returns_up hwf ht s name [] (by simpa using head_seg_ne_slash s [] hs hslash)
    hsplit hne hnd hnone hpar hr

theorem returns_single_fail {h : heap} {rank : Nat → Nat} (hwf : heap_wf h rank)
    {n : Nat} {t : page} (ht : h[n]? = some t) (s : List Char)
    (hs : s ≠ []) (hslash : '/' ∉ s) (hdot : s ≠ ['.'])
    (hc : page_child_named h t s = none) (hpar : t.parent = none) :
    page_find_returns h n s none := by
  obtain ⟨name, hsplit, hne, hnd, hnone⟩ := single_split hwf t s hs hslash hdot hc
  exact returns_fail hwf ht s name [] (by simpa using head_seg_ne_slash s [] hs hslash)
    hsplit hne hnd hnone hpar

theorem ancestor_zero {h : heap} {n a : Nat} (ha : page_ancestor h 0 n = some a) : a = n := by
  simp only [page_ancestor] at ha
  split at ha
  · exact (Option.some.inj ha).symm
  · cases ha

theorem ancestor_zero_self {h : heap} {n : Nat} {t : page} (ht : h[n]? = some t) :
    page_ancestor h 0 n = some n := by
  obtain ⟨hlt, _⟩ := List.getElem?_eq_some.1 ht
  simp [page_ancestor, hlt]

theorem ancestor_succ {h : heap} {n par : Nat} {t : page} (ht : h[n]? = some t)
    (hpar : t.parent = some par) (k : Nat) :
    page_ancestor h (k + 1) n = page_ancestor h k par := by
  simp [page_ancestor, ht, hpar]

theorem ancestor_succ_none {h : heap} {n : Nat} {t : page} (ht : h[n]? = some t)
    (hpar : t.parent = none) (k : Nat) :
    page_ancestor h (k + 1) n = none := by
  simp [page_ancestor, ht, hpar]

/-- From the nearest ancestor-or-self that holds a child named `s` the
one-segment path `s` resolves to that child. -/
theorem returns_single_nearest {h : heap} {rank : Nat → Nat} (hwf : heap_wf h rank)
    (s : List Char) (hs : s ≠ []) (hslash : '/' ∉ s) (hdot : s ≠ ['.']) :
    ∀ (k n a c : Nat) (t ta : page), h[n]? = some t → page_ancestor h k n = some a →
      h[a]? = some ta → page_child_named h ta s = some c →
      (∀ j, j < k → ∀ b tb, page_ancestor h j n = some b → h[b]? = some tb →
        page_child_named h tb s = none) →
      page_find_returns h n s (some c) := by
  intro k
  induction k with
  | zero =>
    intro n a c t ta ht ha hta hc _
    have := ancestor_zero ha
    subst this
    rw [ht] at hta
    have := Option.some.inj hta
    subst this
    exact returns_single_found hwf ht s hs hslash hdot hc
  | succ k ih =>
    intro n a c t ta ht ha hta hc hmin
    have hnone : page_child_named h t s = none :=
      hmin 0 (by omega) n t (ancestor_zero_self ht) ht
    cases hpar : t.parent with
    | none => rw [ancestor_succ_none ht hpar] at ha; cases ha
    | some par =>
      rw [ancestor_succ ht hpar] at ha
      obtain ⟨_, pp, hpp, _⟩ := wf_parent hwf ht hpar
      have := ih par a c pp ta hpp ha hta hc (by
        intro j hj b tb hb htb
        exact hmin (j + 1) (by omega) b tb (by rw [ancestor_succ ht hpar]; exact hb) htb)
      exact returns_single_up hwf ht s hs hslash hdot hnone hpar this

/-- Where some ancestor-or-self holds a child named `s`, the one-segment
path `s` resolves to a page. -/
theorem returns_single_some {h : heap} {rank : Nat → Nat} (hwf : heap_wf h rank)
    (s : List Char) (hs : s ≠ []) (hslash : '/' ∉ s) (hdot : s ≠ ['.']) :
    ∀ (k n a c : Nat) (t ta : page), h[n]? = some t → page_ancestor h k n = some a →
      h[a]? = some ta → page_child_named h ta s = some c →
      ∃ c', page_find_returns h n s (some c') := by
  intro k
  induction k with
  | zero =>
    intro n a c t ta ht ha hta hc
    have := ancestor_zero ha
    subst this
    rw [ht] at hta
    have := Option.some.inj hta
    subst this
    exact ⟨c, returns_single_found hwf ht s hs hslash hdot hc⟩
  | succ k ih =>
    intro n a c t ta ht ha hta hc
    cases hhere : page_child_named h t s with
    | some c0 => exact ⟨c0, returns_single_found hwf ht s hs hslash hdot hhere⟩
    | none =>
      cases hpar : t.parent with
      | none => rw [ancestor_succ_none ht hpar] at ha; cases ha
      | some par =>
        rw [ancestor_succ ht hpar] at ha
        obtain ⟨_, pp, hpp, _⟩ := wf_parent hwf ht hpar
        obtain ⟨c', hc'⟩ := ih par a c pp ta hpp ha hta hc
        exact ⟨c', returns_single_up hwf ht s hs hslash hdot hhere hpar hc'⟩

/-- Where no ancestor-or-self holds a child named `s`, the one-segment path
`s` is not found. -/
theorem returns_single_none {h : heap} {rank : Nat → Nat} (hwf : heap_wf h rank)
    (s : List Char) (hs : s ≠ []) (hslash : '/' ∉ s) (hdot : s ≠ ['.']) :
    ∀ (m n : Nat) (t : page), rank n < m → h[n]? = some t →
      (∀ k a ta, page_ancestor h k n = some a → h[a]? = some ta →
        page_child_named h ta s = none) →
      page_find_returns h n s none := by
  intro m
  induction m with
  | zero => intro n t hr; omega
  | succ m ih =>
    intro n t hr ht hall
    have hnone : page_child_named h t s = none := hall 0 n t (ancestor_zero_self ht) ht
    cases hpar : t.parent with
    | none => exact returns_single_fail hwf ht s hs hslash hdot hnone hpar
    | some par =>
      obtain ⟨hrk, pp, hpp, _⟩ := wf_parent hwf ht hpar
      have := ih par pp (by omega) hpp (by
        intro k a ta ha hta
        exact hall (k + 1) a ta (by rw [ancestor_succ ht hpar]; exact ha) hta)
      exact returns_single_up hwf ht s hs hslash hdot hnone hpar this

/-- C6: for a one-segment path `s` (non-empty, no separator, not the dot)
`page_find(n, s)` returns the first child named `s`, ordinary children
before special ones, of the nearest ancestor-or-self of `n` that has such a
child, and returns `NULL` exactly when no ancestor-or-self of `n` has
one. -/
theorem page_find_upward (h : heap) (rank : Nat → Nat) (hwf : heap_wf h rank)
    {n : Nat} {t : page} (ht : h[n]? = some t) (s : List Char)
    (hs : s ≠ []) (hslash : '/' ∉ s) (hdot : s ≠ ['.']) :
    (∀ (k a c : Nat) (ta : page), page_ancestor h k n = some a → h[a]? = some ta →
      page_child_named h ta s = some c →
      (∀ j, j < k → ∀ b ∈ page_ancestor h j n, ∀ tb ∈ h[b]?,
        page_child_named h tb s = none) →
      page_find_returns h n s (some c)) ∧
    (page_find_returns h n s none ↔
      ∀ k a ta, page_ancestor h k n = some a → h[a]? = some ta →
        page_child_named h ta s = none) := by
  refine ⟨?_, ?_, ?_⟩
  · intro k a c ta ha hta hc hmin
    exact returns_single_nearest hwf s hs hslash hdot k n a c t ta ht ha hta hc
      (fun j hj b tb hb htb => hmin j hj b hb tb htb)
  · intro hnone k a ta ha hta
    cases hc : page_child_named h ta s with
    | none => rfl
    | some c =>
      obtain ⟨c', hc'⟩ := returns_single_some hwf s hs hslash hdot k n a c t ta ht ha hta hc
      have := page_find_returns_unique hnone hc'
      cases this
  · intro hall
    exact returns_single_none hwf s hs hslash hdot (rank n + 1) n t (by omega) ht hall

/-- C6 on the tree `root > a > b` with a second child `c` of the root:
neither `b` nor `a` has a child named `c`, and `page_find(b, "c")` returns
`c`. -/
theorem page_find_upward_witness :
    page_find_returns chain_heap 2 "c".toList (some 3) :=
  (page_find_upward chain_heap id (by decide) (n := 2) rfl "c".toList
    (by decide) (by decide) (by decide)).1 2 0 3 _ (by decide) rfl (by decide) (by decide)

/-! ### The dot segment -/

theorem sscanf_path_dot (R : List Char) (hR : ∀ x ∈ R, isspace x = false)
    (hRlen : R.length ≤ PATH_MAX) : sscanf_path ('.' :: '/' :: R) = (['.'], R) :=
  sscanf_path_seg ['.'] R (by simp) (by decide) (by decide) hR hRlen

theorem sscanf_path_dot_only : sscanf_path ['.'] = (['.'], []) := by decide

/-- C7: for a remainder `R` free of white space and at most `PATH_MAX`
characters long: from a page that is not a container and has a parent,
`"./" + R` resolves as `R` does from the parent and `"."` is the parent;
from a container or a page without parent, `"./" + R` resolves as `R` does
from the page itself and `"."` is the page.  A segment that only starts with
a dot is an ordinary name: it selects the child of that name. -/
theorem page_find_dot (h : heap) (rank : Nat → Nat) (hwf : heap_wf h rank)
    {n : Nat} {t : page} (ht : h[n]? = some t) (R : List Char)
    (hR : ∀ x ∈ R, isspace x = false) (hRlen : R.length ≤ PATH_MAX) :
    (∀ par, t.is_parent = false → t.parent = some par →
      (∃ res, page_find_returns h n ('.' :: '/' :: R) res ∧ page_find_returns h par R res) ∧
      page_find_returns h n ['.'] (some par)) ∧
    (t.is_parent = true ∨ t.parent = none →
      (∃ res, page_find_returns h n ('.' :: '/' :: R) res ∧ page_find_returns h n R res) ∧
      page_find_returns h n ['.'] (some n)) ∧
    (∀ (s : List Char) (c : Nat), s ≠ [] → '/' ∉ s →
      page_child_named h t ('.' :: s) = some c →
      ∃ res, page_find_returns h n ('.' :: s ++ '/' :: R) res ∧
        page_find_returns h c R res) := by
  refine ⟨?_, ?_, ?_⟩
  · intro par hleaf hpar
    obtain ⟨_, pp, hpp, _⟩ := wf_parent hwf ht hpar
    obtain ⟨res, hres⟩ := page_find_total hwf hpp R
    refine ⟨⟨res, ?_, hres⟩, ?_⟩
    · exact returns_dot_up ht _ R (by simp) (sscanf_path_dot R hR hRlen) hleaf hpar hres
    · exact returns_dot_up ht _ [] (by simp) sscanf_path_dot_only hleaf hpar
        (returns_nil hpp)
  · intro hstay
    obtain ⟨res, hres⟩ := page_find_total hwf ht R
    refine ⟨⟨res, ?_, hres⟩, ?_⟩
    · exact returns_dot_stay ht _ R (by simp) (sscanf_path_dot R hR hRlen) hstay hres
    · exact returns_dot_stay ht _ [] (by simp) sscanf_path_dot_only hstay (returns_nil ht)
  · intro s c hs hslash hc
    obtain ⟨hmem, _⟩ := page_child_named_spec hc
    obtain ⟨cp, hcp, _⟩ := wf_child hwf ht hmem
    obtain ⟨res, hres⟩ := page_find_total hwf hcp R
    refine ⟨res, ?_, hres⟩
    have hslash' : '/' ∉ '.' :: s := by
      simp only [List.mem_cons, not_or]
      exact ⟨by decide, hslash⟩
    have hdot : '.' :: s ≠ ['.'] := by
      intro e
      apply hs
      simpa using e
    have := returns_descent hwf ht ('.' :: s) R (by simp) hslash' hdot hc hR hRlen hres
    simpa using this

/-- C7 on the tree of `test_page_find`: from the leaf `.child3` the dot is
its parent `child2`, and from the container `child2` the dot is `child2`
itself. -/
theorem page_find_dot_witness :
    page_find_returns test_heap 3 ['.'] (some 2) ∧
      page_find_returns test_heap 2 ['.'] (some 2) :=
  ⟨((page_find_dot test_heap id (by decide) (n := 3) rfl "child1".toList
      (by decide) (by decide)).1 2 rfl rfl).2,
   ((page_find_dot test_heap id (by decide) (n := 2) rfl "child1".toList
      (by decide) (by decide)).2.1 (Or.inl rfl)).2⟩

/-! ### Absolute paths -/

/-- Two ancestors-or-self of one page that both lack a parent are the same
page. -/
theorem ancestor_root_unique {h : heap} :
    ∀ (k k' n a b : Nat) (ta tb : page), page_ancestor h k n = some a →
      page_ancestor h k' n = some b → h[a]? = some ta → h[b]? = some tb →
      ta.parent = none → tb.parent = none → a = b := by
  intro k
  induction k with
  | zero =>
    intro k' n a b ta tb ha hb hta htb hpa hpb
    have e := ancestor_zero ha
    subst e
    cases k' with
    | zero => exact (ancestor_zero hb).symm
    | succ k' => rw [ancestor_succ_none hta hpa] at hb; cases hb
  | succ k ih =>
    intro k' n a b ta tb ha hb hta htb hpa hpb
    cases k' with
    | zero =>
      have e := ancestor_zero hb
      subst e
      rw [ancestor_succ_none htb hpb] at ha; cases ha
    | succ k' =>
      cases hn : h[n]? with
      | none => simp [page_ancestor, hn] at ha
      | some t =>
        cases hpar : t.parent with
        | none => rw [ancestor_succ_none hn hpar] at ha; cases ha
        | some par =>
          rw [ancestor_succ hn hpar] at ha hb
          exact ih k' par a b ta tb ha hb hta htb hpa hpb

theorem ancestor_valid {h : heap} :
    ∀ (k n a : Nat), page_ancestor h k n = some a → ∃ t, h[n]? = some t := by
  intro k n a ha
  cases k with
  | zero =>
    simp only [page_ancestor] at ha
    split at ha
    · rename_i hlt
      exact ⟨h[n], List.getElem?_eq_getElem hlt⟩
    · cases ha
  | succ k =>
    cases hn : h[n]? with
    | none => simp [page_ancestor, hn] at ha
    | some t => exact ⟨t, rfl⟩

/-- C8: `page_root(n)` is the one ancestor-or-self of `n` without a parent,
`n` itself if `n` has none; `page_find(n, "/" + p)` returns what
`page_find(page_root(n), p)` returns, so an absolute path resolves alike
from every page below that root; and `page_find(n, "/")` is the root. -/
theorem page_find_absolute (h : heap) (rank : Nat → Nat) (hwf : heap_wf h rank)
    {n : Nat} {t : page} (ht : h[n]? = some t) (p : List Char) :
    ∃ root troot,
      (∃ N, ∀ f, N ≤ f → page_root f h n = some root) ∧
      (∃ k, page_ancestor h k n = some root) ∧
      h[root]? = some troot ∧ troot.parent = none ∧
      (∀ k a ta, page_ancestor h k n = some a → h[a]? = some ta → ta.parent = none →
        a = root) ∧
      (t.parent = none → root = n) ∧
      (∃ res, page_find_returns h n ('/' :: p) res ∧ page_find_returns h root p res ∧
        ∀ n' k', page_ancestor h k' n' = some root →
          page_find_returns h n' ('/' :: p) res) ∧
      page_find_returns h n ['/'] (some root) := by
  obtain ⟨f0, root, k0, troot, hroot, hanc, htroot, hnopar⟩ :=
    page_root_returns hwf (rank n) n t (Nat.le_refl _) ht
  obtain ⟨res, hres⟩ := page_find_total hwf htroot p
  refine ⟨root, troot, ⟨f0, fun f hle => page_root_mono h n root f0 f hle hroot⟩,
    ⟨k0, hanc⟩, htroot, hnopar, ?_, ?_, ⟨res, ?_, hres, ?_⟩, ?_⟩
  · intro k a ta ha hta hpa
    exact ancestor_root_unique k k0 n a root ta troot ha hanc hta htroot hpa hnopar
  · intro hpar
    exact (ancestor_root_unique 0 k0 n n root t troot (ancestor_zero_self ht) hanc ht htroot
      hpar hnopar).symm
  · exact returns_abs ht hroot p hres
  · intro n' k' hanc'
    obtain ⟨t', ht'⟩ := ancestor_valid k' n' root hanc'
    obtain ⟨f1, root', k1, troot', hroot', hanc1, htroot', hnopar'⟩ :=
      page_root_returns hwf (rank n') n' t' (Nat.le_refl _) ht'
    have e : root' = root :=
      ancestor_root_unique k1 k' n' root' root troot' troot hanc1 hanc' htroot' htroot
        hnopar' hnopar
    subst e
    exact returns_abs ht' hroot' p hres
  · exact returns_abs ht hroot [] (returns_nil htroot)

/-- C8 on the tree of `test_page_find`: from `.child3` the root is page 0,
and `"/child2"` resolves to `child2`. -/
theorem page_find_absolute_witness :
    ∃ root troot,
      (∃ N, ∀ f, N ≤ f → page_root f test_heap 3 = some root) ∧
      (∃ k, page_ancestor test_heap k 3 = some root) ∧
      test_heap[root]? = some troot ∧ troot.parent = none ∧
      (∀ k a ta, page_ancestor test_heap k 3 = some a → test_heap[a]? = some ta →
        ta.parent = none → a = root) ∧
      ((({ page_zero with name := ".child3".toList, parent := some 2 } : page).parent = none) →
        root = 3) ∧
      (∃ res, page_find_returns test_heap 3 ('/' :: "child2".toList) res ∧
        page_find_returns test_heap root "child2".toList res ∧
        ∀ n' k', page_ancestor test_heap k' n' = some root →
          page_find_returns test_heap n' ('/' :: "child2".toList) res) ∧
      page_find_returns test_heap 3 ['/'] (some root) :=
  page_find_absolute test_heap id (by decide) (n := 3) rfl "child2".toList

/-! ### Paths with a segment that names no page -/

theorem path_segments_seg (seg p' : List Char) (hslash : '/' ∉ seg) :
    path_segments (seg ++ '/' :: p') = seg :: path_segments p' := by
  induction seg with
  | nil => simp [path_segments]
  | cons c seg ih =>
    have hc : c ≠ '/' := fun e => hslash (by simp [e])
    have hs : '/' ∉ seg := fun e => hslash (List.mem_cons_of_mem _ e)
    simp only [List.cons_append, path_segments, hc, if_false]
    rw [show seg.append ('/' :: p') = seg ++ '/' :: p' from rfl, ih hs]

theorem path_segments_single (seg : List Char) (hslash : '/' ∉ seg) :
    path_segments seg = [seg] := by
  induction seg with
  | nil => rfl
  | cons c seg ih =>
    have hc : c ≠ '/' := fun e => hslash (by simp [e])
    have hs : '/' ∉ seg := fun e => hslash (List.mem_cons_of_mem _ e)
    simp only [path_segments, hc, if_false, ih hs]

/-- A path is its first segment, alone or followed by a separator and the
rest. -/
theorem path_split (path : List Char) :
    ∃ seg rest, path = seg ++ rest ∧ '/' ∉ seg ∧ (rest = [] ∨ ∃ p', rest = '/' :: p') := by
  induction path with
  | nil => exact ⟨[], [], rfl, by simp, Or.inl rfl⟩
  | cons c cs ih =>
    by_cases hc : c = '/'
    · exact ⟨[], c :: cs, rfl, by simp, Or.inr ⟨cs, by rw [hc]⟩⟩
    · obtain ⟨seg, rest, he, hs, hr⟩ := ih
      refine ⟨c :: seg, rest, by simp [he], ?_, hr⟩
      simp only [List.mem_cons, not_or]
      exact ⟨fun e => hc e.symm, hs⟩

/-- The split of a path whose first segment does not fit `name`: the name
is cut to `NAME_MAX` characters and the literal separator of the format does
not match, so `child_path` stays empty. -/
theorem sscanf_path_cut (seg rest : List Char) (hslash : '/' ∉ seg)
    (hlen : NAME_MAX < seg.length) (hrest : rest = [] ∨ ∃ p', rest = '/' :: p') :
    sscanf_path (seg ++ rest) = (seg.take NAME_MAX, []) := by
  have htw : (seg ++ rest).takeWhile (· ≠ '/') = seg := by
    rcases hrest with e | ⟨p', e⟩
    · subst e; simpa using takeWhile_seg_end seg hslash
    · subst e; exact takeWhile_seg seg p' hslash
  have hl : (seg.take NAME_MAX).length = NAME_MAX := by
    rw [List.length_take]; omega
  have h2 : (seg.take NAME_MAX).isEmpty = false := by
    cases hc : seg.take NAME_MAX with
    | nil => rw [hc] at hl; simp [NAME_MAX] at hl
    | cons _ _ => rfl
  have hdrop : (seg ++ rest).drop NAME_MAX = seg.drop NAME_MAX ++ rest := by
    rw [List.drop_append_of_le_length (by omega)]
  simp only [sscanf_path, htw, h2, Bool.false_eq_true, if_false, hl, hdrop]
  cases hd : seg.drop NAME_MAX with
  | nil =>
    have := congrArg List.length hd
    simp only [List.length_drop, List.length_nil] at this
    omega
  | cons c tl =>
    have hc : c ∈ seg := List.mem_of_mem_drop (by rw [hd]; exact List.mem_cons_self _ _)
    have : c ≠ '/' := fun e => hslash (e ▸ hc)
    simp [this]

theorem ancestor_parent {h : heap} {n par root : Nat} {t troot : page}
    (ht : h[n]? = some t) (hpar : t.parent = some par)
    (htroot : h[root]? = some troot) (hnopar : troot.parent = none)
    (hin : ∃ k, page_ancestor h k n = some root) :
    ∃ k, page_ancestor h k par = some root := by
  obtain ⟨k, hk⟩ := hin
  cases k with
  | zero =>
    have e := ancestor_zero hk
    subst e
    rw [ht] at htroot
    have := Option.some.inj htroot
    subst this
    rw [hpar] at hnopar; cases hnopar
  | succ k =>
    rw [ancestor_succ ht hpar] at hk
    exact ⟨k, hk⟩

theorem ancestor_child {h : heap} {n c root : Nat} {cp : page}
    (hcp : h[c]? = some cp) (hpar : cp.parent = some n)
    (hin : ∃ k, page_ancestor h k n = some root) :
    ∃ k, page_ancestor h k c = some root := by
  obtain ⟨k, hk⟩ := hin
  exact ⟨k + 1, by rw [ancestor_succ hcp hpar]; exact hk⟩

/-- Resolution fails on every path that holds a segment which names no page
of the tree below `root`. -/
theorem returns_missing {h : heap} {rank : Nat → Nat} (hwf : heap_wf h rank)
    {root : Nat} {troot : page} (htroot : h[root]? = some troot)
    (hnopar : troot.parent = none) (s : List Char) (hs : s ≠ []) (hdot : s ≠ ['.'])
    (hno : ∀ m pm, h[m]? = some pm → (∃ k, page_ancestor h k m = some root) →
      pm.name ≠ s) :
    ∀ (L : Nat) (path : List Char), path.length < L →
      (∀ x ∈ path, isspace x = false) → path.length ≤ PATH_MAX →
      s ∈ path_segments path →
      ∀ (m n : Nat) (t : page), rank n < m → h[n]? = some t →
        (∃ k, page_ancestor h k n = some root) →
        page_find_returns h n path none := by
  intro L
  induction L with
  | zero => intro path hl; omega
  | succ L ihL =>
    intro path hl hws hplen hseg m
    induction m with
    | zero => intro n t hr; omega
    | succ m ihm =>
      intro n t hrank ht hin
      obtain ⟨seg, rest, hpath, hslash, hrest⟩ := path_split path
      -- the step to the parent with the same path, or the failure at the root
      have step_up : ∀ name child, sscanf_path path = (name, child) → name ≠ [] →
          name ≠ ['.'] → ¬ path.head? = some '/' → page_child_named h t name = none →
          page_find_returns h n path none := by
        intro name child hsplit hne hnd hhead hnone
        cases hpar : t.parent with
        | none => exact returns_fail hwf ht path name child hhead hsplit hne hnd hnone hpar
        | some par =>
          obtain ⟨hrk, pp, hpp, _⟩ := wf_parent hwf ht hpar
          have := ihm par pp (by omega) hpp (ancestor_parent ht hpar htroot hnopar hin)
          exact returns_up hwf ht path name child hhead hsplit hne hnd hnone hpar this
      cases hseg0 : seg with
      | nil =>
        -- the path is empty or begins with a separator
        subst hseg0
        rcases hrest with e | ⟨p', e⟩
        · subst e
          subst hpath
          simp [path_segments] at hseg
          exact absurd hseg hs
        · subst e
          simp only [List.nil_append] at hpath
          subst hpath
          have hseg' : s ∈ path_segments p' := by
            simp only [path_segments, if_true, List.mem_cons] at hseg
            rcases hseg with e | e
            · exact absurd e hs
            · exact e
          obtain ⟨f0, r0, k0, tr0, hr0, hanc0, htr0, hnp0⟩ :=
            page_root_returns hwf (rank n) n t (Nat.le_refl _) ht
          obtain ⟨k, hk⟩ := hin
          have e : r0 = root :=
            ancestor_root_unique k0 k n r0 root tr0 troot hanc0 hk htr0 htroot hnp0 hnopar
          subst e
          have := ihL p' (by simp only [List.length_cons] at hl; omega)
            (fun x hx => hws x (List.mem_cons_of_mem _ hx))
            (by simp only [List.length_cons] at hplen; omega) hseg'
            (rank r0 + 1) r0 tr0 (by omega) htr0 ⟨0, ancestor_zero_self htr0⟩
          exact returns_abs ht hr0 p' this
      | cons c0 seg0 =>
        have hsegne : seg ≠ [] := by rw [hseg0]; simp
        have hhead : ¬ path.head? = some '/' := by
          rw [hpath]; exact head_seg_ne_slash seg rest hsegne hslash
        by_cases hlong : NAME_MAX < seg.length
        · -- the first segment is cut: no page is named by the cut name
          have hsplit := sscanf_path_cut seg rest hslash hlong hrest
          rw [← hpath] at hsplit
          have hl : (seg.take NAME_MAX).length = NAME_MAX := by
            rw [List.length_take]; omega
          exact step_up _ _ hsplit
            (by intro e; rw [e] at hl; simp [NAME_MAX] at hl)
            (by intro e; rw [e] at hl; simp [NAME_MAX] at hl) hhead
            (child_named_long hwf t _ (by omega))
        · -- the first segment is read whole
          have hshort : seg.length ≤ NAME_MAX := by omega
          -- the rest of the path, empty when there is no separator
          obtain ⟨child, hsplit, hchild_seg, hchild_len, hchild_ws, hchild_le⟩ :
              ∃ child, sscanf_path path = (seg, child) ∧
                (s ≠ seg → s ∈ path_segments child) ∧ child.length < path.length ∧
                (∀ x ∈ child, isspace x = false) ∧ child.length ≤ PATH_MAX := by
            rcases hrest with e | ⟨p', e⟩
            · subst e
              simp only [List.append_nil] at hpath
              subst hpath
              refine ⟨[], sscanf_path_single _ hsegne hslash hshort, ?_, ?_, by simp, by simp⟩
              · intro hne
                rw [path_segments_single _ hslash] at hseg
                simp only [List.mem_singleton] at hseg
                exact absurd hseg hne
              · exact List.length_pos.2 hsegne
            · subst e
              subst hpath
              have hws' : ∀ x ∈ p', isspace x = false :=
                fun x hx => hws x (by simp [hx])
              have hle' : p'.length ≤ PATH_MAX := by
                simp only [List.length_append, List.length_cons] at hplen; omega
              refine ⟨p', sscanf_path_seg seg p' hsegne hslash hshort hws' hle', ?_, ?_,
                hws', hle'⟩
              · intro hne
                rw [path_segments_seg _ _ hslash] at hseg
                simp only [List.mem_cons] at hseg
                rcases hseg with e | e
                · exact absurd e hne
                · exact e
              · simp only [List.length_append, List.length_cons]; omega
          by_cases hd : seg = ['.']
          · -- the dot segment: the bad segment lies in the rest
            have hsne : s ≠ seg := by rw [hd]; exact hdot
            have hseg' := hchild_seg hsne
            rw [hd] at hsplit
            by_cases hup : t.is_parent = false ∧ ∃ par, t.parent = some par
            · obtain ⟨hleaf, par, hpar⟩ := hup
              obtain ⟨_, pp, hpp, _⟩ := wf_parent hwf ht hpar
              have := ihL child (by omega) hchild_ws hchild_le hseg' (rank par + 1) par pp
                (by omega) hpp (ancestor_parent ht hpar htroot hnopar hin)
              exact returns_dot_up ht path child hhead hsplit hleaf hpar this
            · have hstay : t.is_parent = true ∨ t.parent = none := by
                by_cases hp : t.is_parent = true
                · exact Or.inl hp
                · right
                  cases hpar : t.parent with
                  | none => rfl
                  | some par =>
                    exact absurd ⟨by simpa using hp, par, hpar⟩ hup
              have := ihL child (by omega) hchild_ws hchild_le hseg' (rank n + 1) n t
                (by omega) ht hin
              exact returns_dot_stay ht path child hhead hsplit hstay this
          · cases hc : page_child_named h t seg with
            | none => exact step_up seg child hsplit hsegne hd hhead hc
            | some c =>
              obtain ⟨hmem, hname⟩ := page_child_named_spec hc
              obtain ⟨cp, hcp, hcpar⟩ := wf_child hwf ht hmem
              obtain ⟨cp', hcp', hcname⟩ := name_of_page_name hname
              rw [hcp] at hcp'
              have := Option.some.inj hcp'
              subst this
              have hcin := ancestor_child hcp hcpar hin
              have hsne : s ≠ seg := by
                intro e
                exact hno c cp hcp hcin (by rw [hcname, e])
              have := ihL child (by omega) hchild_ws hchild_le (hchild_seg hsne)
                (rank c + 1) c cp (by omega) hcp hcin
              exact returns_child hwf ht path seg child hhead hsplit hsegne hd hc this

/-- C9: in a well-formed tree, for every start page and every path free of
white space and at most `PATH_MAX` characters long, if some segment of the
path that is non-empty and not the dot is the name of no page of the tree,
`page_find` returns `NULL`. -/
theorem page_find_missing_segment (h : heap) (rank : Nat → Nat) (hwf : heap_wf h rank)
    {n : Nat} {t : page} (ht : h[n]? = some t) (path : List Char)
    (hws : ∀ x ∈ path, isspace x = false) (hlen : path.length ≤ PATH_MAX)
    (s : List Char) (hseg : s ∈ path_segments path) (hs : s ≠ []) (hdot : s ≠ ['.'])
    (hno : ∀ m pm, h[m]? = some pm →
      (∃ a j k, page_ancestor h j n = some a ∧ page_ancestor h k m = some a) →
      pm.name ≠ s) :
    page_find_returns h n path none := by
  obtain ⟨f0, root, k0, troot, _, hanc, htroot, hnopar⟩ :=
    page_root_returns hwf (rank n) n t (Nat.le_refl _) ht
  exact returns_missing hwf htroot hnopar s hs hdot
    (fun m pm hm ⟨k, hk⟩ => hno m pm hm ⟨root, k0, k, hanc, hk⟩)
    (path.length + 1) path (by omega) hws hlen hseg (rank n + 1) n t (by omega) ht
    ⟨k0, hanc⟩

/-- C9 on the tree of `test_page_find`: no page is named `child4`, and
`"child2/child4"` from the root is not found. -/
theorem page_find_missing_segment_witness :
    page_find_returns test_heap 0 "child2/child4".toList none :=
  page_find_missing_segment test_heap id (by decide) (n := 0) rfl
    "child2/child4".toList (by decide) (by decide) "child4".toList (by decide) (by decide)
    (by decide)
    (by
      intro m pm hm _
      have hlt : m < 4 := (List.getElem?_eq_some.1 hm).1
      interval_cases m
      all_goals
        have := Option.some.inj hm
        subst this
        decide)

/-! ### Path rendering and the round trip through `page_find` -/

theorem strcat_safe_fit (dst src : List Char) (size : Nat)
    (h : dst.length + src.length < size) : strcat_safe dst src size = dst ++ src := by
  have h1 : min dst.length (size - 1) = dst.length := by omega
  have h2 : ¬ src.length ≥ size - dst.length := by omega
  simp only [strcat_safe, h1, h2, if_false, List.take_length]

/-- A path that fits the buffer is rendered by `page_path_append` without
loss. -/
theorem page_path_append_fit (h : heap) (size : Nat) :
    ∀ (fuel n : Nat) (p : List Char), page_path fuel h n = some p → p.length < size →
      page_path_append fuel h n [] size = some p := by
  intro fuel
  induction fuel with
  | zero => intro n p hp; simp [page_path] at hp
  | succ fuel ih =>
    intro n p hp hfit
    rw [page_path] at hp
    rw [page_path_append]
    cases ht : h[n]? with
    | none => simp [ht] at hp
    | some t =>
      simp only [ht] at hp ⊢
      cases hpar : t.parent with
      | none =>
        simp only [hpar] at hp ⊢
        have e := Option.some.inj hp
        subst e
        by_cases hip : t.is_parent = true
        · simp only [hip, if_true] at hfit ⊢
          rw [strcat_safe_fit _ _ _ (by simpa using hfit)]
          rfl
        · simp [hip]
      | some par =>
        simp only [hpar] at hp ⊢
        cases hq : page_path fuel h par with
        | none => simp [hq] at hp
        | some q =>
          simp only [hq] at hp
          have e := Option.some.inj hp
          subst e
          have hql : q.length < size := by
            simp only [List.length_append] at hfit; omega
          rw [ih par q hq hql]
          simp only
          have hcat : strcat_safe q t.name size = q ++ t.name :=
            strcat_safe_fit _ _ _ (by simp only [List.length_append] at hfit; omega)
          rw [hcat]
          by_cases hip : t.is_parent = true
          · simp only [hip, if_true] at hfit ⊢
            rw [strcat_safe_fit _ _ _ (by simpa using hfit)]
          · simp [hip]

theorem find_by_name_nodup (h : heap) :
    ∀ (l : List Nat) (m : Nat) (s : List Char), (l.map (page_name h)).Nodup → m ∈ l →
      page_name h m = some s →
      l.find? (fun c => page_name h c == some s) = some m := by
  intro l
  induction l with
  | nil => intro m s _ hm; simp at hm
  | cons a l ih =>
    intro m s hnd hm hname
    simp only [List.map_cons, List.nodup_cons] at hnd
    rcases List.mem_cons.1 hm with e | e
    · subst e
      exact List.find?_cons_of_pos _ (by simp [hname])
    · have hne : page_name h a ≠ some s := by
        intro heq
        exact hnd.1 (by rw [heq, ← hname]; exact List.mem_map_of_mem _ e)
      rw [List.find?_cons_of_neg _ (by simpa using hne)]
      exact ih m s hnd.2 e hname

/-- Among siblings with different names the name of a page selects that
page. -/
theorem child_named_of_siblings {h : heap} (hsib : siblings_ok h) {par m : Nat}
    {pp pm : page} (hpp : h[par]? = some pp) (hpm : h[m]? = some pm)
    (hmem : m ∈ pp.children ++ pp.special) :
    page_child_named h pp pm.name = some m := by
  obtain ⟨hlt, _⟩ := List.getElem?_eq_some.1 hpp
  obtain ⟨hnd, _⟩ := hsib par hlt pp hpp
  have hname : page_name h m = some pm.name := by simp [page_name, hpm]
  have hfind := find_by_name_nodup h (pp.children ++ pp.special) m pm.name hnd hmem hname
  rw [List.find?_append] at hfind
  unfold page_child_named
  cases h1 : pp.children.find? (fun c => page_name h c == some pm.name) with
  | some c =>
    rw [h1] at hfind
    simpa using hfind
  | none =>
    rw [h1] at hfind
    simpa using hfind

theorem page_path_nonempty {h : heap} :
    ∀ (fuel n : Nat) (t : page) (q : List Char), h[n]? = some t → t.is_parent = true →
      page_path fuel h n = some q → 0 < q.length := by
  intro fuel n t q ht hip hq
  cases fuel with
  | zero => simp [page_path] at hq
  | succ fuel =>
    rw [page_path] at hq
    simp only [ht] at hq
    cases hpar : t.parent with
    | none =>
      simp only [hpar, hip, if_true] at hq
      have := Option.some.inj hq
      subst this; simp
    | some par =>
      simp only [hpar] at hq
      cases hq' : page_path fuel h par with
      | none => simp [hq'] at hq
      | some q' =>
        simp only [hq', hip, if_true] at hq
        have := Option.some.inj hq
        subst this; simp

/-- From the root, the path of a container followed by a tail resolves as
the tail does from the container. -/
theorem returns_from_root {h : heap} {rank : Nat → Nat} (hwf : heap_wf h rank)
    (hsib : siblings_ok h) {root : Nat} {troot : page} (htroot : h[root]? = some troot)
    (hnopar : troot.parent = none) :
    ∀ (fuel m : Nat) (pm : page) (q tail : List Char) (res : Option Nat),
      h[m]? = some pm → pm.is_parent = true →
      (∃ k, page_ancestor h k m = some root) →
      page_path fuel h m = some q →
      (∀ x ∈ tail, isspace x = false) → (q ++ tail).length ≤ PATH_MAX + 1 →
      page_find_returns h m tail res →
      page_find_returns h root (q ++ tail) res := by
  intro fuel
  induction fuel with
  | zero => intro m pm q tail res _ _ _ hq; simp [page_path] at hq
  | succ fuel ih =>
    intro m pm q tail res hpm hip hin hq hws hlen hres
    rw [page_path] at hq
    simp only [hpm] at hq
    cases hpar : pm.parent with
    | none =>
      simp only [hpar, hip, if_true] at hq
      have e := Option.some.inj hq
      subst e
      obtain ⟨k, hk⟩ := hin
      have e : m = root :=
        ancestor_root_unique 0 k m m root pm troot (ancestor_zero_self hpm) hk hpm htroot
          hpar hnopar
      subst e
      have hroot : page_root 1 h m = some m := by simp [page_root, hpm, hpar]
      exact returns_abs hpm hroot tail hres
    | some par =>
      simp only [hpar] at hq
      cases hq' : page_path fuel h par with
      | none => simp [hq'] at hq
      | some q' =>
        simp only [hq', hip, if_true] at hq
        have e := Option.some.inj hq
        subst e
        obtain ⟨_, pp, hpp, hmem⟩ := wf_parent hwf hpm hpar
        have hppar : pp.is_parent = true :=
          (wf_at hwf hpp).2.2.2 (List.ne_nil_of_mem hmem)
        have hq'pos := page_path_nonempty fuel par pp q' hpp hppar hq'
        obtain ⟨hlt, _⟩ := List.getElem?_eq_some.1 hpp
        obtain ⟨_, hok⟩ := hsib par hlt pp hpp
        obtain ⟨nm, hnm, hnok⟩ := hok m hmem
        have hnm' : nm = pm.name := by
          simp only [page_name, hpm, Option.map_some', Option.mem_def,
            Option.some.injEq] at hnm
          exact hnm.symm
        subst hnm'
        obtain ⟨hne, hnd, hnslash, hnws⟩ := hnok
        have hchild := child_named_of_siblings hsib hpp hpm hmem
        have htl : tail.length ≤ PATH_MAX := by
          simp only [List.length_append, List.length_singleton] at hlen; omega
        have hstep := returns_descent hwf hpp pm.name tail hne hnslash hnd hchild hws htl hres
        have := ih par pp q' (pm.name ++ '/' :: tail) res hpp hppar
          (ancestor_parent hpm hpar htroot hnopar hin) hq'
          (by
            intro x hx
            rcases List.mem_append.1 hx with hx | hx
            · exact hnws x hx
            · rcases List.mem_cons.1 hx with hx | hx
              · subst hx; decide
              · exact hws x hx)
          (by
            simp only [List.length_append, List.length_cons, List.length_singleton,
              List.length_nil] at hlen ⊢
            omega)
          hstep
        simpa [List.append_assoc] using this

/-- C4: in a well-formed tree whose sibling names are pairwise distinct,
non-empty, not the dot and free of separators and white space, for every
page `n` whose path fits the buffer and has at most `PATH_MAX` characters,
`page_path_append` renders that path `p` into an empty buffer and
`page_find(root, p)` returns `n`. -/
theorem page_find_path_roundtrip (h : heap) (rank : Nat → Nat) (hwf : heap_wf h rank)
    (hsib : siblings_ok h) (n root : Nat) {t troot : page} (ht : h[n]? = some t)
    (htroot : h[root]? = some troot) (hnopar : troot.parent = none)
    (hin : ∃ k, page_ancestor h k n = some root)
    (fuel size : Nat) (p : List Char) (hp : page_path fuel h n = some p)
    (hfit : p.length < size) (hmax : p.length ≤ PATH_MAX) :
    page_path_append fuel h n [] size = some p ∧ page_find_returns h root p (some n) := by
  refine ⟨page_path_append_fit h size fuel n p hp hfit, ?_⟩
  by_cases hip : t.is_parent = true
  · have := returns_from_root hwf hsib htroot hnopar fuel n t p [] (some n) ht hip hin hp
      (by simp) (by simp only [List.append_nil]; omega) (returns_nil ht)
    simpa using this
  · have hipf : t.is_parent = false := by simpa using hip
    cases fuel with
    | zero => simp [page_path] at hp
    | succ fuel =>
      rw [page_path] at hp
      simp only [ht] at hp
      cases hpar : t.parent with
      | none =>
        simp only [hpar, hipf, Bool.false_eq_true, if_false] at hp
        have e := Option.some.inj hp
        subst e
        obtain ⟨k, hk⟩ := hin
        have e : n = root :=
          ancestor_root_unique 0 k n n root t troot (ancestor_zero_self ht) hk ht htroot
            hpar hnopar
        subst e
        exact returns_nil ht
      | some par =>
        simp only [hpar] at hp
        cases hq' : page_path fuel h par with
        | none => simp [hq'] at hp
        | some q' =>
          simp only [hq', hipf, Bool.false_eq_true, if_false, List.append_nil] at hp
          have e := Option.some.inj hp
          subst e
          obtain ⟨_, pp, hpp, hmem⟩ := wf_parent hwf ht hpar
          have hppar : pp.is_parent = true :=
            (wf_at hwf hpp).2.2.2 (List.ne_nil_of_mem hmem)
          obtain ⟨hlt, _⟩ := List.getElem?_eq_some.1 hpp
          obtain ⟨_, hok⟩ := hsib par hlt pp hpp
          obtain ⟨nm, hnm, hnok⟩ := hok n hmem
          have hnm' : nm = t.name := by
            simp only [page_name, ht, Option.map_some', Option.mem_def,
              Option.some.injEq] at hnm
            exact hnm.symm
          subst hnm'
          obtain ⟨hne, hnd, hnslash, hnws⟩ := hnok
          have hchild := child_named_of_siblings hsib hpp ht hmem
          have hfound := returns_single_found hwf hpp t.name hne hnslash hnd hchild
          exact returns_from_root hwf hsib htroot hnopar fuel par pp q' t.name (some n) hpp
            hppar (ancestor_parent ht hpar htroot hnopar hin) hq' hnws (by omega) hfound

/-- C4 on the tree of `test_page_find_by_page_path`: the path of `.child3`
rendered into a buffer of 32 bytes is `"/child2/.child3"`, and from the root
it resolves to `.child3`. -/
theorem page_find_path_roundtrip_witness :
    page_path_append 3 test_heap 3 [] 32 = some "/child2/.child3".toList ∧
      page_find_returns test_heap 0 "/child2/.child3".toList (some 3) :=
  page_find_path_roundtrip test_heap id (by decide) (by decide) 3 0 rfl rfl rfl
    ⟨2, by decide⟩ 3 32 "/child2/.child3".toList (by decide) (by decide) (by decide)

/-! ### Inherited configuration lookup: `page_conf` -/

theorem conf_find_loop_eq (b : List Char) (key : List Char) :
    ∀ pairs : List conf_pair,
      conf_find_loop b key pairs
        = ((pairs.map (fun p => (cstr b p.key, cstr b p.val))).find?
            (fun kv => kv.1 == key)).map (·.2) := by
  intro pairs
  induction pairs with
  | nil => rfl
  | cons p ps ih =>
    by_cases hk : cstr b p.key = key
    · simp [conf_find_loop, strcmp_eq, hk, List.find?_cons]
    · simp [conf_find_loop, strcmp_eq, hk, List.find?_cons, ih]

/-- On a parsed document `conf_find` from offset 0 with a `NULL` default
returns the value of the first entry with the key, or `NULL`. -/
theorem conf_find_eq_lookup (c : conf) (key : List Char) (hbuf : c.buf ≠ none) :
    conf_find c 0 key none = some (conf_lookup c key) := by
  cases hb : c.buf with
  | none => exact absurd hb hbuf
  | some b =>
    simp only [conf_find, hb, List.drop_zero, conf_find_loop_eq, conf_lookup, conf_entries]
    cases ((c.pairs.map (fun p => (cstr b p.key, cstr b p.val))).find?
        (fun kv => kv.1 == key)) with
    | none => rfl
    | some kv => rfl

theorem page_conf_found (f : Nat) {h : heap} {n : Nat} {t : page} (ht : h[n]? = some t)
    (key : List Char) (d : Option (List Char)) (hbuf : t.conf.buf ≠ none) {v : List Char}
    (hv : conf_lookup t.conf key = some v) :
    page_conf (f + 1) h n key d = some (some v) := by
  rw [page_conf]
  simp only [ht, conf_find_eq_lookup t.conf key hbuf, hv]

theorem page_conf_up (f : Nat) {h : heap} {n par : Nat} {t : page} (ht : h[n]? = some t)
    (key : List Char) (d : Option (List Char)) (hbuf : t.conf.buf ≠ none)
    (hv : conf_lookup t.conf key = none) (hpar : t.parent = some par) :
    page_conf (f + 1) h n key d = page_conf f h par key d := by
  rw [page_conf]
  simp only [ht, conf_find_eq_lookup t.conf key hbuf, hv, hpar]

theorem page_conf_end (f : Nat) {h : heap} {n : Nat} {t : page} (ht : h[n]? = some t)
    (key : List Char) (d : Option (List Char)) (hbuf : t.conf.buf ≠ none)
    (hv : conf_lookup t.conf key = none) (hpar : t.parent = none) :
    page_conf (f + 1) h n key d = some d := by
  rw [page_conf]
  simp only [ht, conf_find_eq_lookup t.conf key hbuf, hv, hpar]

theorem page_conf_mono_succ (h : heap) (key : List Char) (d : Option (List Char)) :
    ∀ (f n : Nat) (r : Option (List Char)), page_conf f h n key d = some r →
      page_conf (f + 1) h n key d = some r := by
  intro f
  induction f with
  | zero => intro n r hyp; simp [page_conf] at hyp
  | succ f ih =>
    intro n r hyp
    rw [page_conf] at hyp ⊢
    cases ht : h[n]? with
    | none => simp [ht] at hyp
    | some t =>
      simp only [ht] at hyp ⊢
      cases hc : conf_find t.conf 0 key none with
      | none => simp [hc] at hyp
      | some o =>
        cases o with
        | some found => simpa [hc] using hyp
        | none =>
          simp only [hc] at hyp ⊢
          cases hp : t.parent with
          | none => simpa [hp] using hyp
          | some par =>
            simp only [hp] at hyp ⊢
            exact ih par r hyp

theorem page_conf_mono (h : heap) (key : List Char) (d : Option (List Char)) (n : Nat)
    (r : Option (List Char)) :
    ∀ (f f' : Nat), f ≤ f' → page_conf f h n key d = some r →
      page_conf f' h n key d = some r := by
  intro f f' hle
  induction hle with
  | refl => exact id
  | step _ ih => intro hyp; exact page_conf_mono_succ h key d _ n r (ih hyp)

theorem page_conf_returns_of_run {h : heap} {n : Nat} {key : List Char}
    {d r : Option (List Char)} {f : Nat} (hyp : page_conf f h n key d = some r) :
    page_conf_returns h n key d r :=
  ⟨f, fun f' hle => page_conf_mono h key d n r f f' hle hyp⟩

theorem page_conf_returns_unique {h : heap} {n : Nat} {key : List Char}
    {d r r' : Option (List Char)} (h1 : page_conf_returns h n key d r)
    (h2 : page_conf_returns h n key d r') : r = r' := by
  obtain ⟨N, hN⟩ := h1
  obtain ⟨M, hM⟩ := h2
  have a := hN (max N M) (Nat.le_max_left _ _)
  have b := hM (max N M) (Nat.le_max_right _ _)
  rw [a] at b
  exact Option.some.inj b

theorem page_conf_returns_step {h : heap} {n par : Nat} {t : page} (ht : h[n]? = some t)
    (key : List Char) (d : Option (List Char)) (hbuf : t.conf.buf ≠ none)
    (hv : conf_lookup t.conf key = none) (hpar : t.parent = some par)
    {r : Option (List Char)} (hr : page_conf_returns h par key d r) :
    page_conf_returns h n key d r := by
  obtain ⟨N, hN⟩ := hr
  apply page_conf_returns_of_run (f := N + 1)
  rw [page_conf_up N ht key d hbuf hv hpar]
  exact hN N (Nat.le_refl _)

/-- With the key first found at the `k`-th ancestor, `page_conf` returns the
value stored there. -/
theorem page_conf_nearest {h : heap} {rank : Nat → Nat} (hwf : heap_wf h rank)
    (key : List Char) (d : Option (List Char)) :
    ∀ (k n a : Nat) (t ta : page) (v : List Char), h[n]? = some t →
      (∀ j b tb, page_ancestor h j n = some b → h[b]? = some tb → tb.conf.buf ≠ none) →
      page_ancestor h k n = some a → h[a]? = some ta → conf_lookup ta.conf key = some v →
      (∀ j, j < k → ∀ b tb, page_ancestor h j n = some b → h[b]? = some tb →
        conf_lookup tb.conf key = none) →
      page_conf_returns h n key d (some v) := by
  intro k
  induction k with
  | zero =>
    intro n a t ta v ht hparsed ha hta hv _
    have := ancestor_zero ha
    subst this
    rw [ht] at hta
    have := Option.some.inj hta
    subst this
    exact page_conf_returns_of_run (f := 1)
      (page_conf_found 0 ht key d (hparsed 0 a t (ancestor_zero_self ht) ht) hv)
  | succ k ih =>
    intro n a t ta v ht hparsed ha hta hv hmin
    have hnone : conf_lookup t.conf key = none :=
      hmin 0 (by omega) n t (ancestor_zero_self ht) ht
    have hbuf := hparsed 0 n t (ancestor_zero_self ht) ht
    cases hpar : t.parent with
    | none => rw [ancestor_succ_none ht hpar] at ha; cases ha
    | some par =>
      rw [ancestor_succ ht hpar] at ha
      obtain ⟨_, pp, hpp, _⟩ := wf_parent hwf ht hpar
      have := ih par a pp ta v hpp
        (fun j b tb hb htb =>
          hparsed (j + 1) b tb (by rw [ancestor_succ ht hpar]; exact hb) htb)
        ha hta hv
        (fun j hj b tb hb htb =>
          hmin (j + 1) (by omega) b tb (by rw [ancestor_succ ht hpar]; exact hb) htb)
      exact page_conf_returns_step ht key d hbuf hnone hpar this

/-- With the key found at some ancestor, `page_conf` returns a value. -/
theorem page_conf_some {h : heap} {rank : Nat → Nat} (hwf : heap_wf h rank)
    (key : List Char) (d : Option (List Char)) :
    ∀ (k n a : Nat) (t ta : page) (v : List Char), h[n]? = some t →
      (∀ j b tb, page_ancestor h j n = some b → h[b]? = some tb → tb.conf.buf ≠ none) →
      page_ancestor h k n = some a → h[a]? = some ta → conf_lookup ta.conf key = some v →
      ∃ v', page_conf_returns h n key d (some v') := by
  intro k
  induction k with
  | zero =>
    intro n a t ta v ht hparsed ha hta hv
    have := ancestor_zero ha
    subst this
    rw [ht] at hta
    have := Option.some.inj hta
    subst this
    exact ⟨v, page_conf_returns_of_run (f := 1)
      (page_conf_found 0 ht key d (hparsed 0 a t (ancestor_zero_self ht) ht) hv)⟩
  | succ k ih =>
    intro n a t ta v ht hparsed ha hta hv
    have hbuf := hparsed 0 n t (ancestor_zero_self ht) ht
    cases hhere : conf_lookup t.conf key with
    | some v0 =>
      exact ⟨v0, page_conf_returns_of_run (f := 1) (page_conf_found 0 ht key d hbuf hhere)⟩
    | none =>
      cases hpar : t.parent with
      | none => rw [ancestor_succ_none ht hpar] at ha; cases ha
      | some par =>
        rw [ancestor_succ ht hpar] at ha
        obtain ⟨_, pp, hpp, _⟩ := wf_parent hwf ht hpar
        obtain ⟨v', hv'⟩ := ih par a pp ta v hpp
          (fun j b tb hb htb =>
            hparsed (j + 1) b tb (by rw [ancestor_succ ht hpar]; exact hb) htb)
          ha hta hv
        exact ⟨v', page_conf_returns_step ht key d hbuf hhere hpar hv'⟩

/-- With the key on no page of the parent chain, `page_conf` returns the
default. -/
theorem page_conf_default {h : heap} {rank : Nat → Nat} (hwf : heap_wf h rank)
    (key : List Char) (d : Option (List Char)) :
    ∀ (m n : Nat) (t : page), rank n < m → h[n]? = some t →
      (∀ j b tb, page_ancestor h j n = some b → h[b]? = some tb → tb.conf.buf ≠ none) →
      (∀ k a ta, page_ancestor h k n = some a → h[a]? = some ta →
        conf_lookup ta.conf key = none) →
      page_conf_returns h n key d d := by
  intro m
  induction m with
  | zero => intro n t hr; omega
  | succ m ih =>
    intro n t hr ht hparsed hall
    have hnone : conf_lookup t.conf key = none := hall 0 n t (ancestor_zero_self ht) ht
    have hbuf := hparsed 0 n t (ancestor_zero_self ht) ht
    cases hpar : t.parent with
    | none =>
      exact page_conf_returns_of_run (f := 1) (page_conf_end 0 ht key d hbuf hnone hpar)
    | some par =>
      obtain ⟨hrk, pp, hpp, _⟩ := wf_parent hwf ht hpar
      have := ih par pp (by omega) hpp
        (fun j b tb hb htb =>
          hparsed (j + 1) b tb (by rw [ancestor_succ ht hpar]; exact hb) htb)
        (fun k a ta ha hta =>
          hall (k + 1) a ta (by rw [ancestor_succ ht hpar]; exact ha) hta)
      exact page_conf_returns_step ht key d hbuf hnone hpar this

/-- With the key found at some ancestor, `page_conf` returns the value that
a page of the parent chain holds for it. -/
theorem page_conf_some_holder {h : heap} {rank : Nat → Nat} (hwf : heap_wf h rank)
    (key : List Char) (d : Option (List Char)) :
    ∀ (k n a : Nat) (t ta : page) (v : List Char), h[n]? = some t →
      (∀ j b tb, page_ancestor h j n = some b → h[b]? = some tb → tb.conf.buf ≠ none) →
      page_ancestor h k n = some a → h[a]? = some ta → conf_lookup ta.conf key = some v →
      ∃ k' a' ta' v', page_ancestor h k' n = some a' ∧ h[a']? = some ta' ∧
        conf_lookup ta'.conf key = some v' ∧ page_conf_returns h n key d (some v') := by
  intro k
  induction k with
  | zero =>
    intro n a t ta v ht hparsed ha hta hv
    have := ancestor_zero ha
    subst this
    rw [ht] at hta
    have := Option.some.inj hta
    subst this
    exact ⟨0, a, t, v, ancestor_zero_self ht, ht, hv, page_conf_returns_of_run (f := 1)
      (page_conf_found 0 ht key d (hparsed 0 a t (ancestor_zero_self ht) ht) hv)⟩
  | succ k ih =>
    intro n a t ta v ht hparsed ha hta hv
    have hbuf := hparsed 0 n t (ancestor_zero_self ht) ht
    cases hhere : conf_lookup t.conf key with
    | some v0 =>
      exact ⟨0, n, t, v0, ancestor_zero_self ht, ht, hhere,
        page_conf_returns_of_run (f := 1) (page_conf_found 0 ht key d hbuf hhere)⟩
    | none =>
      cases hpar : t.parent with
      | none => rw [ancestor_succ_none ht hpar] at ha; cases ha
      | some par =>
        rw [ancestor_succ ht hpar] at ha
        obtain ⟨_, pp, hpp, _⟩ := wf_parent hwf ht hpar
        obtain ⟨k', a', ta', v', ha', hta', hv', hret⟩ := ih par a pp ta v hpp
          (fun j b tb hb htb =>
            hparsed (j + 1) b tb (by rw [ancestor_succ ht hpar]; exact hb) htb)
          ha hta hv
        exact ⟨k' + 1, a', ta', v', by rw [ancestor_succ ht hpar]; exact ha', hta', hv',
          page_conf_returns_step ht key d hbuf hhere hpar hret⟩

/-- C10, as the code has it: for a page whose own document and whose
ancestors' documents have all been parsed, `page_conf(n, key, d)` returns
the value of the first entry with that key in the document of the nearest
ancestor-or-self that contains the key; it returns the default `d` when no
page on the parent chain contains the key.  Conversely, when it returns `d`
and `d` is not the value a page of the chain holds for the key, no page of
the chain contains the key; so with the default `NULL` it returns `NULL`
exactly in that case. -/
theorem page_conf_inherited (h : heap) (rank : Nat → Nat) (hwf : heap_wf h rank)
    {n : Nat} {t : page} (ht : h[n]? = some t) (key : List Char)
    (d : Option (List Char))
    (hparsed : ∀ j, ∀ b ∈ page_ancestor h j n, ∀ tb ∈ h[b]?, tb.conf.buf ≠ none) :
    (∀ (k a : Nat) (ta : page) (v : List Char), page_ancestor h k n = some a →
      h[a]? = some ta → conf_lookup ta.conf key = some v →
      (∀ j, j < k → ∀ b ∈ page_ancestor h j n, ∀ tb ∈ h[b]?,
        conf_lookup tb.conf key = none) →
      page_conf_returns h n key d (some v)) ∧
    ((∀ k a ta, page_ancestor h k n = some a → h[a]? = some ta →
        conf_lookup ta.conf key = none) →
      page_conf_returns h n key d d) ∧
    (page_conf_returns h n key none none ↔
      ∀ k a ta, page_ancestor h k n = some a → h[a]? = some ta →
        conf_lookup ta.conf key = none) ∧
    ((∀ k a ta v, page_ancestor h k n = some a → h[a]? = some ta →
        conf_lookup ta.conf key = some v → d ≠ some v) →
      (page_conf_returns h n key d d ↔
        ∀ k a ta, page_ancestor h k n = some a → h[a]? = some ta →
          conf_lookup ta.conf key = none)) := by
  have hparsed' : ∀ j b tb, page_ancestor h j n = some b → h[b]? = some tb →
      tb.conf.buf ≠ none := fun j b tb hb htb => hparsed j b hb tb htb
  refine ⟨?_, ?_, ⟨?_, ?_⟩, ?_⟩
  · intro k a ta v ha hta hv hmin
    exact page_conf_nearest hwf key d k n a t ta v ht hparsed' ha hta hv
      (fun j hj b tb hb htb => hmin j hj b hb tb htb)
  · intro hall
    exact page_conf_default hwf key d (rank n + 1) n t (by omega) ht hparsed' hall
  · intro hnone k a ta ha hta
    cases hv : conf_lookup ta.conf key with
    | none => rfl
    | some v =>
      obtain ⟨v', hv'⟩ := page_conf_some hwf key none k n a t ta v ht hparsed' ha hta hv
      have := page_conf_returns_unique hnone hv'
      cases this
  · intro hall
    exact page_conf_default hwf key none (rank n + 1) n t (by omega) ht hparsed' hall
  · intro hd
    refine ⟨?_, ?_⟩
    · intro hret k a ta ha hta
      cases hv : conf_lookup ta.conf key with
      | none => rfl
      | some v =>
        obtain ⟨k', a', ta', v', ha', hta', hv', hret'⟩ :=
          page_conf_some_holder hwf key d k n a t ta v ht hparsed' ha hta hv
        have := page_conf_returns_unique hret hret'
        exact absurd this (hd k' a' ta' v' ha' hta' hv')
    · intro hall
      exact page_conf_default hwf key d (rank n + 1) n t (by omega) ht hparsed' hall

/-- C10 on the tree of `test_page_conf`: `child1` does not hold `key 2` and
inherits the value of the root. -/
theorem page_conf_inherited_witness :
    page_conf_returns conf_heap 1 "key 2".toList none (some "value 2".toList) :=
  (page_conf_inherited conf_heap id (by decide) (n := 1) rfl
    "key 2".toList none
    (by
      intro j
      match j with
      | 0 => decide
      | 1 => decide
      | j + 2 =>
        intro b hb
        have : page_ancestor conf_heap (j + 2) 1 = none := rfl
        rw [this] at hb
        cases hb)).1 1 0 _ "value 2".toList (by decide) rfl (by decide) (by decide)

/-- C10 as stated fails where the default is the string a page holds for the
key: in the tree of `test_page_conf` the root holds `key 2` with the value
`value 2`, and `page_conf(child1, "key 2", "value 2")` returns the string of
the default although a page of the chain contains the key. -/
theorem page_conf_inherited_counterexample :
    page_ancestor conf_heap 1 1 = some 0 ∧
      (conf_heap[0]?).map (fun p => conf_lookup p.conf "key 2".toList)
        = some (some "value 2".toList) ∧
      page_conf_returns conf_heap 1 "key 2".toList (some "value 2".toList)
        (some "value 2".toList) :=
  ⟨by decide, by decide, page_conf_returns_of_run (f := 8) (by decide)⟩

/-! ### Front matter with arbitrary lines -/

theorem strstr_eq_none (find : List Char) :
    ∀ m : List Char, strstr m find = none → ¬ find <:+: m := by
  intro m
  induction m with
  | nil =>
    intro h hi
    have e : find = [] := List.infix_nil.1 hi
    subst e
    simp [strstr] at h
  | cons c cs ih =>
    intro h hi
    simp only [strstr] at h
    by_cases hp : find.isPrefixOf (c :: cs) = true
    · simp [hp] at h
    · rw [if_neg hp] at h
      simp only [Option.map_eq_none'] at h
      rcases List.infix_cons_iff.1 hi with h1 | h1
      · exact hp ((isPrefixOf_true_iff _ _).2 h1)
      · exact ih h h1

theorem strstr_some_occurs (find m : List Char) (i : Nat) (h : strstr m find = some i) :
    find <:+: m := by
  have := strstr_some_split find m i h
  exact ⟨m.take i, m.drop (i + find.length), this.symm⟩

theorem strstr_none_of_absent (find m : List Char) (h : ¬ find <:+: m) :
    strstr m find = none := by
  cases hs : strstr m find with
  | none => rfl
  | some i => exact absurd (strstr_some_occurs find m i hs) h

/-- The match reported by `strstr` is the first one. -/
theorem strstr_some_first (find : List Char) (hf : find ≠ []) :
    ∀ (m : List Char) (i : Nat), strstr m find = some i →
      ¬ find <:+: m.take i ++ find.dropLast := by
  intro m
  induction m with
  | nil =>
    intro i h
    cases find with
    | nil => exact absurd rfl hf
    | cons a as => simp [strstr] at h
  | cons c cs ih =>
    intro i h
    simp only [strstr] at h
    by_cases hp : find.isPrefixOf (c :: cs) = true
    · simp only [hp, if_true, Option.some.injEq] at h
      subst h
      intro hi
      have hl := hi.length_le
      have hpos : 0 < find.length := List.length_pos.2 hf
      simp only [List.take_zero, List.nil_append, List.length_dropLast] at hl
      omega
    · rw [if_neg hp] at h
      cases hs : strstr cs find with
      | none => simp [hs] at h
      | some j =>
        simp only [hs, Option.map_some', Option.some.injEq] at h
        subst h
        intro hi
        simp only [List.take_succ_cons, List.cons_append] at hi
        rcases List.infix_cons_iff.1 hi with h1 | h1
        · apply hp
          rw [isPrefixOf_true_iff]
          have hsplit := strstr_some_split find cs j hs
          have hpre : c :: (cs.take j ++ find.dropLast) <+: c :: cs := by
            refine ⟨[find.getLast hf] ++ cs.drop (j + find.length), ?_⟩
            have := List.dropLast_append_getLast hf
            calc c :: (cs.take j ++ find.dropLast) ++
                  ([find.getLast hf] ++ cs.drop (j + find.length))
                = c :: (cs.take j ++ (find.dropLast ++ [find.getLast hf]) ++
                    cs.drop (j + find.length)) := by simp
              _ = c :: (cs.take j ++ find ++ cs.drop (j + find.length)) := by rw [this]
              _ = c :: cs := by rw [← hsplit]
          exact h1.trans hpre
        · exact ih j hs h1

theorem prefix_of_append_sep (find A R : List Char) (x : Char) (hx : x ∉ find)
    (h : find <+: A ++ x :: R) : find <+: A := by
  rcases List.prefix_or_prefix_of_prefix h (List.prefix_append A (x :: R)) with h1 | h1
  · exact h1
  · obtain ⟨r, hr⟩ := h1
    subst hr
    cases r with
    | nil => simp
    | cons y r =>
      exfalso
      have h2 : y :: r <+: x :: R := (List.prefix_append_right_inj A).1 h
      have : y = x := by
        obtain ⟨t, ht⟩ := h2
        simp only [List.cons_append, List.cons.injEq] at ht
        exact ht.1
      subst this
      exact hx (by simp)

/-- The call of `strstr` passes over a line that does not hold the pattern. -/
theorem strstr_skip_line (find : List Char) (hf : find ≠ []) (x : Char) (hx : x ∉ find)
    (R : List Char) :
    ∀ l : List Char, ¬ find <:+: l →
      strstr (l ++ x :: R) find = (strstr R find).map (· + (l.length + 1)) := by
  intro l
  induction l with
  | nil =>
    intro _
    have hp : ¬ find.isPrefixOf (x :: R) = true := by
      intro hp
      rw [isPrefixOf_true_iff] at hp
      have := prefix_of_append_sep find [] R x hx (by simpa using hp)
      exact hf (List.prefix_nil.1 this)
    simp only [List.nil_append, strstr, List.length_nil, Nat.zero_add]
    rw [if_neg hp]
  | cons c l ih =>
    intro hno
    have hp : ¬ find.isPrefixOf (c :: (l ++ x :: R)) = true := by
      intro hp
      rw [isPrefixOf_true_iff] at hp
      have := prefix_of_append_sep find (c :: l) R x hx (by simpa using hp)
      exact hno this.isInfix
    have hno' : ¬ find <:+: l := fun hi =>
      hno (hi.trans (List.suffix_cons c l).isInfix)
    have e : (c :: l) ++ x :: R = c :: (l ++ x :: R) := rfl
    rw [e, strstr, if_neg hp, ih hno', Option.map_map]
    rfl

theorem strncmp_fm_iff (X : List Char) :
    strncmp_eq X CONF_FM_DELIM CONF_FM_DELIM_LEN = true ↔ CONF_FM_DELIM <+: X := by
  have h4 : CONF_FM_DELIM.take CONF_FM_DELIM_LEN = CONF_FM_DELIM := rfl
  have hl : CONF_FM_DELIM.length = CONF_FM_DELIM_LEN := rfl
  simp only [strncmp_eq, h4, beq_iff_eq]
  rw [List.prefix_iff_eq_take, hl]
  exact eq_comm

theorem fm_prefix_newline (E : List Char) (h : CONF_FM_DELIM <+: E) : '\n' ∈ E :=
  h.subset (by decide)

theorem fm_not_prefix_line (l R : List Char) (hl : block_line l) :
    ¬ CONF_FM_DELIM <+: l ++ '\n' :: R := by
  intro h
  obtain ⟨hn, hne⟩ := hl
  have h3 : "---".toList <+: l ++ '\n' :: R :=
    List.IsPrefix.trans (⟨['\n'], rfl⟩ : "---".toList <+: CONF_FM_DELIM) h
  have h3l : "---".toList <+: l := prefix_of_append_sep _ l R '\n' (by decide) h3
  obtain ⟨r, hr⟩ := h3l
  subst hr
  cases r with
  | nil => exact hne (by simp)
  | cons y r =>
    have : CONF_FM_DELIM <+: "---".toList ++ (y :: (r ++ '\n' :: R)) := by
      simpa [List.append_assoc] using h
    have h2 : ['\n'] <+: y :: (r ++ '\n' :: R) :=
      (List.prefix_append_right_inj "---".toList).1 this
    obtain ⟨t, ht⟩ := h2
    simp only [List.cons_append, List.nil_append, List.cons.injEq] at ht
    exact hn (by simp [← ht.1])

/-- One pass of the line loop up to the search for the key/value
delimiter: the newline behind the current line becomes a placeholder and
`match` moves to the text `X` behind it. -/
theorem conf_read_lines_head (fuel : Nat) (pre junk X : List Char) (pairs : List conf_pair)
    (hj : '\n' ∉ junk) (hjn : NUL ∉ junk) (hX : NUL ∉ X) :
    conf_read_lines (fuel + 1) (pre ++ junk ++ '\n' :: X) pre.length pairs
      = if strncmp_eq X CONF_FM_DELIM CONF_FM_DELIM_LEN then
          some { buf := (pre ++ junk ++ [CONF_NULL_PH]) ++ X,
                 pairs := pairs,
                 content := some ((pre ++ junk ++ [CONF_NULL_PH]).length + CONF_FM_DELIM_LEN) }
        else
          match strstr X CONF_KV_DELIM with
          | none => some { buf := (pre ++ junk ++ [CONF_NULL_PH]) ++ X,
                           pairs := pairs, content := none }
          | some i =>
            if (match strchr ((pre ++ junk ++ [CONF_NULL_PH]) ++ X)
                  (pre ++ junk ++ [CONF_NULL_PH]).length '\n' with
                | none => true
                | some e => decide ((pre ++ junk ++ [CONF_NULL_PH]).length + i > e)) then
              conf_read_lines fuel ((pre ++ junk ++ [CONF_NULL_PH]) ++ X)
                (pre ++ junk ++ [CONF_NULL_PH]).length pairs
            else
              if pairs.length < CONF_MAX then
                conf_read_lines fuel
                  (((pre ++ junk ++ [CONF_NULL_PH]) ++ X).set
                    ((pre ++ junk ++ [CONF_NULL_PH]).length + i) CONF_NULL_PH)
                  (pre ++ junk ++ [CONF_NULL_PH]).length
                  (pairs ++ [{ key := (pre ++ junk ++ [CONF_NULL_PH]).length,
                               val := (pre ++ junk ++ [CONF_NULL_PH]).length + i
                                        + CONF_KV_DELIM_LEN }])
              else
                conf_read_lines fuel
                  (((pre ++ junk ++ [CONF_NULL_PH]) ++ X).set
                    ((pre ++ junk ++ [CONF_NULL_PH]).length + i) CONF_NULL_PH)
                  (pre ++ junk ++ [CONF_NULL_PH]).length pairs := by
  have h1 := strchr_append pre junk X '\n' hj hjn (by decide)
  have h2 : (pre ++ junk ++ '\n' :: X).set (pre.length + junk.length) CONF_NULL_PH
      = (pre ++ junk ++ [CONF_NULL_PH]) ++ X := by
    have := set_append_cons (pre ++ junk) '\n' CONF_NULL_PH X
    rw [List.length_append] at this
    rw [this]; simp
  have h3 : pre.length + junk.length + 1 = (pre ++ junk ++ [CONF_NULL_PH]).length := by
    simp only [List.length_append, List.length_singleton]
  have h4 := cstr_append (pre ++ junk ++ [CONF_NULL_PH]) X hX
  rw [conf_read_lines]
  simp only [h1, h2, h3, h4, strstr_at]
  cases strstr X CONF_KV_DELIM <;> rfl

/-- The line loop at a line from which on the text holds no key/value
delimiter: the loop is left and the content stays `NULL`. -/
theorem conf_read_lines_break (fuel : Nat) (pre junk X : List Char) (pairs : List conf_pair)
    (hj : '\n' ∉ junk) (hjn : NUL ∉ junk) (hX : NUL ∉ X)
    (hfm : ¬ CONF_FM_DELIM <+: X) (hkv : strstr X CONF_KV_DELIM = none) :
    conf_read_lines (fuel + 1) (pre ++ junk ++ '\n' :: X) pre.length pairs
      = some { buf := (pre ++ junk ++ [CONF_NULL_PH]) ++ X, pairs := pairs,
               content := none } := by
  have hs : ¬ strncmp_eq X CONF_FM_DELIM CONF_FM_DELIM_LEN = true :=
    fun h => hfm ((strncmp_fm_iff X).1 h)
  rw [conf_read_lines_head fuel pre junk X pairs hj hjn hX, if_neg hs, hkv]

/-- The line loop at a line without key/value delimiter that is followed by
one further down: the line is passed over. -/
theorem conf_read_lines_skip (fuel : Nat) (pre junk l R : List Char) (pairs : List conf_pair)
    (hj : '\n' ∉ junk) (hjn : NUL ∉ junk) (hl : block_line l) (hln : NUL ∉ l)
    (hR : NUL ∉ R) (hno : strstr l CONF_KV_DELIM = none) (j : Nat)
    (hkv : strstr R CONF_KV_DELIM = some j) :
    conf_read_lines (fuel + 1) (pre ++ junk ++ '\n' :: (l ++ '\n' :: R)) pre.length pairs
      = conf_read_lines fuel ((pre ++ junk ++ [CONF_NULL_PH]) ++ l ++ '\n' :: R)
          (pre ++ junk ++ [CONF_NULL_PH]).length pairs := by
  have hX : NUL ∉ l ++ '\n' :: R := by
    simp only [List.mem_append, List.mem_cons, not_or]
    exact ⟨hln, by decide, hR⟩
  have hs : ¬ strncmp_eq (l ++ '\n' :: R) CONF_FM_DELIM CONF_FM_DELIM_LEN = true :=
    fun h => fm_not_prefix_line l R hl ((strncmp_fm_iff _).1 h)
  have hstr : strstr (l ++ '\n' :: R) CONF_KV_DELIM = some (j + (l.length + 1)) := by
    rw [strstr_skip_line CONF_KV_DELIM (by decide) '\n' (by decide) R l
      (strstr_eq_none _ _ hno), hkv]
    rfl
  have hchr : strchr ((pre ++ junk ++ [CONF_NULL_PH]) ++ (l ++ '\n' :: R))
      (pre ++ junk ++ [CONF_NULL_PH]).length '\n'
        = some ((pre ++ junk ++ [CONF_NULL_PH]).length + l.length) := by
    have := strchr_append (pre ++ junk ++ [CONF_NULL_PH]) l R '\n' hl.1 hln (by decide)
    rw [← this]
    congr 1
    simp [List.append_assoc]
  have hgt : (pre ++ junk ++ [CONF_NULL_PH]).length + (j + (l.length + 1))
      > (pre ++ junk ++ [CONF_NULL_PH]).length + l.length := by omega
  rw [conf_read_lines_head fuel pre junk _ pairs hj hjn hX, if_neg hs, hstr]
  simp only [hchr, hgt, decide_True, if_true]
  congr 1
  simp [List.append_assoc]

/-- The line loop at a last line that no newline closes: no entry is read
from it and the content stays `NULL`. -/
theorem conf_read_lines_tail (fuel : Nat) (pre junk E : List Char) (pairs : List conf_pair)
    (hj : '\n' ∉ junk) (hjn : NUL ∉ junk) (hE : '\n' ∉ E) (hEn : NUL ∉ E) :
    conf_read_lines (fuel + 2) (pre ++ junk ++ '\n' :: E) pre.length pairs
      = some { buf := (pre ++ junk ++ [CONF_NULL_PH]) ++ E, pairs := pairs,
               content := none } := by
  have hs : ¬ strncmp_eq E CONF_FM_DELIM CONF_FM_DELIM_LEN = true :=
    fun h => hE (fm_prefix_newline E ((strncmp_fm_iff E).1 h))
  have hchr := strchr_none (pre ++ junk ++ [CONF_NULL_PH]) E '\n' hE hEn
  rw [conf_read_lines_head (fuel + 1) pre junk E pairs hj hjn hEn, if_neg hs]
  cases hkv : strstr E CONF_KV_DELIM with
  | none => rfl
  | some i =>
    simp only [hchr, if_true]
    rw [conf_read_lines]
    simp only [hchr]

/-- A line that holds the key/value delimiter is the line of an entry: the
key before the first delimiter and the value behind it. -/
theorem line_entry_split (l : List Char) (i : Nat) (hs : strstr l CONF_KV_DELIM = some i)
    (hl : '\n' ∉ l) (hn : NUL ∉ l) :
    ∃ k v, l.take i = k ∧ l.drop (i + CONF_KV_DELIM_LEN) = v ∧ i = k.length ∧
      l = k ++ CONF_KV_DELIM ++ v ∧ entry_ok (k, v) := by
  have hsplit := strstr_some_split CONF_KV_DELIM l i hs
  have hle := strstr_some_le CONF_KV_DELIM l i hs
  have hfirst := strstr_some_first CONF_KV_DELIM (by decide) l i hs
  refine ⟨l.take i, l.drop (i + CONF_KV_DELIM_LEN), rfl, rfl, ?_, hsplit, ?_⟩
  · rw [List.length_take]; omega
  · refine ⟨fun h => hl (List.mem_of_mem_take h), fun h => hl (List.mem_of_mem_drop h),
      fun h => hn (List.mem_of_mem_take h), fun h => hn (List.mem_of_mem_drop h), hfirst⟩

theorem take_append_full (a b : List conf_pair) (n : Nat) (h : a.length = n) :
    (a ++ b).take n = a := by
  subst h
  simp

/-- The line loop of `conf_read` over the lines of a front-matter block and
the rest of the text behind them. -/
theorem conf_read_lines_scan :
    ∀ (ls : List (List Char)) (fuel : Nat) (pre junk E : List Char) (pairs : List conf_pair),
      (∀ l ∈ ls, block_line l) → block_end E → NUL ∉ fm_join ls E →
      '\n' ∉ junk → NUL ∉ junk → pairs.length ≤ CONF_MAX → ls.length + 1 < fuel →
      conf_read_lines fuel (pre ++ junk ++ '\n' :: fm_join ls E) pre.length pairs
        = some { buf := (pre ++ junk ++ [CONF_NULL_PH]) ++ scan_buf ls E,
                 pairs := (pairs ++
                    scan_pairs (pre ++ junk ++ [CONF_NULL_PH]).length ls E).take CONF_MAX,
                 content := scan_content (pre ++ junk ++ [CONF_NULL_PH]).length ls E } := by
  intro ls
  induction ls with
  | nil =>
    intro fuel pre junk E pairs _ hE hn hj hjn hcap hfuel
    obtain ⟨f, rfl⟩ : ∃ f, fuel = f + 2 := ⟨fuel - 2, by simp at hfuel; omega⟩
    simp only [fm_join] at hn ⊢
    have hp : (pairs ++ scan_pairs (pre ++ junk ++ [CONF_NULL_PH]).length [] E).take CONF_MAX
        = pairs := by
      simp only [scan_pairs, List.append_nil]
      exact List.take_of_length_le hcap
    rw [hp]
    by_cases hfm : CONF_FM_DELIM <+: E
    · obtain ⟨T, rfl⟩ := hfm
      have hT : NUL ∉ T := fun h => hn (by simp [h])
      rw [conf_read_lines_delim (f + 1) pre junk T pairs hj hjn hT]
      have : CONF_FM_DELIM.isPrefixOf (CONF_FM_DELIM ++ T) = true := by simp
      simp only [scan_buf, scan_content, this, if_true]
    · have hnl : '\n' ∉ E := by
        rcases hE with h | h
        · exact absurd h hfm
        · exact h
      rw [conf_read_lines_tail f pre junk E pairs hj hjn hnl hn]
      have : ¬ CONF_FM_DELIM.isPrefixOf E = true := fun h => hfm ((isPrefixOf_true_iff _ _).1 h)
      simp only [scan_buf, scan_content]
      rw [if_neg this]
  | cons l ls ih =>
    intro fuel pre junk E pairs hls hE hn hj hjn hcap hfuel
    obtain ⟨f, rfl⟩ : ∃ f, fuel = f + 1 := ⟨fuel - 1, by simp at hfuel; omega⟩
    have hl : block_line l := hls l (List.mem_cons_self _ _)
    have hls' : ∀ x ∈ ls, block_line x := fun x hx => hls x (List.mem_cons_of_mem _ hx)
    have hln : NUL ∉ l := fun h => hn (by simp [fm_join, h])
    have hR : NUL ∉ fm_join ls E := fun h => hn (by simp [fm_join, h])
    have hf : ls.length + 1 < f := by simp only [List.length_cons] at hfuel; omega
    cases hs : strstr l CONF_KV_DELIM with
    | some i =>
      obtain ⟨k, v, hk, hv, hi, hsplit, hok⟩ := line_entry_split l i hs hl.1 hln
      simp only [scan_buf, scan_pairs, scan_content, hs, hk, hv, fm_join]
      subst hi
      clear hk hv hs
      subst hsplit
      have hstep := conf_read_lines_entry f pre junk k v (fm_join ls E) pairs hj hjn hok hR
      rw [hstep]
      obtain ⟨hkl, hvl, hkn, hvn, _⟩ := hok
      simp only at hkl hvl hkn hvn
      have hj' : '\n' ∉ k ++ CONF_NULL_PH :: "= ".toList ++ v := by
        simp only [List.mem_append, List.mem_cons, not_or]
        exact ⟨⟨hkl, by decide, by decide⟩, hvl⟩
      have hjn' : NUL ∉ k ++ CONF_NULL_PH :: "= ".toList ++ v := by
        simp only [List.mem_append, List.mem_cons, not_or]
        exact ⟨⟨hkn, by decide, by decide⟩, hvn⟩
      have hcap' : (if pairs.length < CONF_MAX then
            pairs ++ [{ key := (pre ++ junk ++ [CONF_NULL_PH]).length,
                        val := (pre ++ junk ++ [CONF_NULL_PH]).length + k.length
                                + CONF_KV_DELIM_LEN }]
           else pairs).length ≤ CONF_MAX := by
        split
        · simp only [List.length_append, List.length_singleton]; omega
        · exact hcap
      rw [ih f (pre ++ junk ++ [CONF_NULL_PH]) (k ++ CONF_NULL_PH :: "= ".toList ++ v) E _
        hls' hE hR hj' hjn' hcap' hf]
      have hlen : (pre ++ junk ++ [CONF_NULL_PH] ++ (k ++ CONF_NULL_PH :: "= ".toList ++ v)
          ++ [CONF_NULL_PH]).length
            = (pre ++ junk ++ [CONF_NULL_PH]).length + (k ++ CONF_KV_DELIM ++ v).length + 1 := by
        have h3 : CONF_KV_DELIM.length = 3 := rfl
        have h2 : "= ".toList.length = 2 := rfl
        simp only [List.length_append, List.length_cons, List.length_singleton,
          List.length_nil, h3, h2]
      rw [hlen]
      congr 1
      congr 1
      · simp [List.append_assoc]
      · by_cases hlt : pairs.length < CONF_MAX
        · rw [if_pos hlt]
          simp [List.append_assoc]
        · rw [if_neg hlt]
          have hfull : pairs.length = CONF_MAX := by omega
          rw [take_append_full _ _ _ hfull, take_append_full _ _ _ hfull]
    | none =>
      cases hr : strstr (fm_join ls E) CONF_KV_DELIM with
      | none =>
        have hX : NUL ∉ l ++ '\n' :: fm_join ls E := by
          simpa [fm_join] using hn
        have hkv : strstr (l ++ '\n' :: fm_join ls E) CONF_KV_DELIM = none := by
          rw [strstr_skip_line CONF_KV_DELIM (by decide) '\n' (by decide) _ l
            (strstr_eq_none _ _ hs), hr]
          rfl
        simp only [scan_buf, scan_pairs, scan_content, hs, hr, fm_join, List.append_nil]
        rw [conf_read_lines_break f pre junk _ pairs hj hjn hX
          (fm_not_prefix_line l _ hl) hkv, List.take_of_length_le hcap]
      | some j =>
        simp only [scan_buf, scan_pairs, scan_content, hs, hr, fm_join]
        rw [conf_read_lines_skip f pre junk l (fm_join ls E) pairs hj hjn hl hln hR hs j hr]
        rw [ih f (pre ++ junk ++ [CONF_NULL_PH]) l E pairs hls' hE hR hl.1 hln hcap hf]
        have hlen : (pre ++ junk ++ [CONF_NULL_PH] ++ l ++ [CONF_NULL_PH]).length
            = (pre ++ junk ++ [CONF_NULL_PH]).length + l.length + 1 := by
          simp only [List.length_append, List.length_singleton]
        rw [hlen]
        congr 1
        congr 1
        simp [List.append_assoc]

theorem fm_join_nul_cons (l : List Char) (ls : List (List Char)) (E : List Char)
    (hn : NUL ∉ fm_join (l :: ls) E) : NUL ∉ l ∧ NUL ∉ fm_join ls E :=
  ⟨fun h => hn (by simp [fm_join, h]), fun h => hn (by simp [fm_join, h])⟩

/-- A text without key/value delimiter has no line that stands for an
entry. -/
theorem filterMap_none_of_join (E : List Char) :
    ∀ ls : List (List Char), strstr (fm_join ls E) CONF_KV_DELIM = none →
      ls.filterMap line_entry = [] := by
  intro ls
  induction ls with
  | nil => intro _; rfl
  | cons l ls ih =>
    intro h
    have hno := strstr_eq_none _ _ h
    have h1 : ¬ CONF_KV_DELIM <:+: l := fun hi =>
      hno (hi.trans (List.prefix_append l ('\n' :: fm_join ls E)).isInfix)
    have hsuf : fm_join ls E <:+ fm_join (l :: ls) E := ⟨l ++ ['\n'], by simp [fm_join]⟩
    have h2 : ¬ CONF_KV_DELIM <:+: fm_join ls E := fun hi => hno (hi.trans hsuf.isInfix)
    have e1 : line_entry l = none := by
      simp only [line_entry, strstr_none_of_absent _ _ h1, Option.map_none']
    rw [List.filterMap_cons_none e1]
    exact ih (strstr_none_of_absent _ _ h2)

theorem scan_buf_length (E : List Char) :
    ∀ ls : List (List Char), (scan_buf ls E).length = (fm_join ls E).length := by
  intro ls
  induction ls with
  | nil => rfl
  | cons l ls ih =>
    cases hs : strstr l CONF_KV_DELIM with
    | some i =>
      have hlen := strstr_some_length CONF_KV_DELIM l i hs
      have hle := strstr_some_le CONF_KV_DELIM l i hs
      have h3 : CONF_KV_DELIM.length = 3 := rfl
      have h3' : CONF_KV_DELIM_LEN = 3 := rfl
      have h2 : "= ".toList.length = 2 := rfl
      rw [h3] at hlen
      simp only [scan_buf, hs, fm_join, List.length_append, List.length_cons, ih,
        List.length_take, h2, h3', Nat.min_eq_left hle]
      omega
    | none =>
      cases hr : strstr (fm_join ls E) CONF_KV_DELIM with
      | none => simp only [scan_buf, hs, hr, fm_join]
      | some j =>
        simp only [scan_buf, hs, hr, fm_join, List.length_append, List.length_cons, ih]

theorem scan_buf_nul (E : List Char) :
    ∀ ls : List (List Char), NUL ∉ fm_join ls E → NUL ∉ scan_buf ls E := by
  intro ls
  induction ls with
  | nil => intro h; exact h
  | cons l ls ih =>
    intro hn
    obtain ⟨hl, hR⟩ := fm_join_nul_cons l ls E hn
    cases hs : strstr l CONF_KV_DELIM with
    | some i =>
      simp only [scan_buf, hs, List.mem_append, List.mem_cons, not_or]
      exact ⟨⟨⟨fun h => hl (List.mem_of_mem_take h), by decide, by decide⟩,
        fun h => hl (List.mem_of_mem_drop h)⟩, by decide, ih hR⟩
    | none =>
      cases hr : strstr (fm_join ls E) CONF_KV_DELIM with
      | none => simpa only [scan_buf, hs, hr, fm_join] using hn
      | some j =>
        simp only [scan_buf, hs, hr, List.mem_append, List.mem_cons, not_or]
        exact ⟨hl, by decide, ih hR⟩

theorem fm_join_length_ge (E : List Char) :
    ∀ ls : List (List Char), ls.length ≤ (fm_join ls E).length := by
  intro ls
  induction ls with
  | nil => simp
  | cons l ls ih =>
    simp only [fm_join, List.length_append, List.length_cons]
    omega

/-- Reading the pointers stored by the line loop from the finished buffer:
one entry for every line that holds the key/value delimiter, key and value
cut before the first placeholder byte. -/
theorem scan_pairs_read (E : List Char) :
    ∀ (ls : List (List Char)) (P : List Char), NUL ∉ fm_join ls E →
      (scan_pairs P.length ls E).map (fun p =>
          (cstr ((P ++ scan_buf ls E).map nul_ph) p.key,
           cstr ((P ++ scan_buf ls E).map nul_ph) p.val))
        = (ls.filterMap line_entry).map (fun kv => (cut_ph kv.1, cut_ph kv.2)) := by
  intro ls
  induction ls with
  | nil => intro P _; rfl
  | cons l ls ih =>
    intro P hn
    obtain ⟨hl, hR⟩ := fm_join_nul_cons l ls E hn
    cases hs : strstr l CONF_KV_DELIM with
    | some i =>
      have hle := strstr_some_le CONF_KV_DELIM l i hs
      have hlen := strstr_some_length CONF_KV_DELIM l i hs
      have hkn : NUL ∉ l.take i := fun h => hl (List.mem_of_mem_take h)
      have hvn : NUL ∉ l.drop (i + CONF_KV_DELIM_LEN) := fun h => hl (List.mem_of_mem_drop h)
      have he : line_entry l = some (l.take i, l.drop (i + CONF_KV_DELIM_LEN)) := by
        simp only [line_entry, hs, Option.map_some']
      have hkey : cstr ((P ++ scan_buf (l :: ls) E).map nul_ph) P.length
          = cut_ph (l.take i) := by
        have e : P ++ scan_buf (l :: ls) E
            = P ++ (l.take i ++ CONF_NULL_PH ::
                ("= ".toList ++ l.drop (i + CONF_KV_DELIM_LEN) ++
                  CONF_NULL_PH :: scan_buf ls E)) := by
          simp [scan_buf, hs, List.append_assoc]
        rw [e]; exact cstr_nul_ph P _ _ hkn
      have hval : cstr ((P ++ scan_buf (l :: ls) E).map nul_ph)
          (P.length + i + CONF_KV_DELIM_LEN) = cut_ph (l.drop (i + CONF_KV_DELIM_LEN)) := by
        have e : P ++ scan_buf (l :: ls) E
            = (P ++ l.take i ++ CONF_NULL_PH :: "= ".toList) ++
                (l.drop (i + CONF_KV_DELIM_LEN) ++ CONF_NULL_PH :: scan_buf ls E) := by
          simp [scan_buf, hs, List.append_assoc]
        have hl2 : P.length + i + CONF_KV_DELIM_LEN
            = (P ++ l.take i ++ CONF_NULL_PH :: "= ".toList).length := by
          have h2 : "= ".toList.length = 2 := rfl
          have h3 : CONF_KV_DELIM_LEN = 3 := rfl
          simp only [List.length_append, List.length_cons, List.length_take, h2, h3,
            Nat.min_eq_left hle]
        rw [e, hl2]; exact cstr_nul_ph _ _ _ hvn
      have hbuf : P ++ scan_buf (l :: ls) E
          = (P ++ (l.take i ++ CONF_NULL_PH :: "= ".toList ++ l.drop (i + CONF_KV_DELIM_LEN)
              ++ [CONF_NULL_PH])) ++ scan_buf ls E := by
        simp [scan_buf, hs, List.append_assoc]
      have hnext : P.length + l.length + 1
          = (P ++ (l.take i ++ CONF_NULL_PH :: "= ".toList ++ l.drop (i + CONF_KV_DELIM_LEN)
              ++ [CONF_NULL_PH])).length := by
        have h2 : "= ".toList.length = 2 := rfl
        have h3 : CONF_KV_DELIM.length = 3 := rfl
        have h3' : CONF_KV_DELIM_LEN = 3 := rfl
        rw [h3] at hlen
        simp only [List.length_append, List.length_cons, List.length_take, h2, h3',
          Nat.min_eq_left hle, List.length_singleton, List.length_nil]
        omega
      have htail := ih (P ++ (l.take i ++ CONF_NULL_PH :: "= ".toList ++
        l.drop (i + CONF_KV_DELIM_LEN) ++ [CONF_NULL_PH])) hR
      rw [← hnext, ← hbuf] at htail
      rw [List.filterMap_cons_some he]
      generalize (P ++ scan_buf (l :: ls) E).map nul_ph = B at hkey hval htail ⊢
      simp only [scan_pairs, hs, List.map_cons, hkey, hval, htail]
    | none =>
      have he : line_entry l = none := by
        simp only [line_entry, hs, Option.map_none']
      rw [List.filterMap_cons_none he]
      cases hr : strstr (fm_join ls E) CONF_KV_DELIM with
      | none =>
        rw [filterMap_none_of_join E ls hr]
        simp only [scan_pairs, hs, hr, List.map_nil]
      | some j =>
        have hbuf : P ++ scan_buf (l :: ls) E = (P ++ (l ++ [CONF_NULL_PH])) ++ scan_buf ls E := by
          simp [scan_buf, hs, hr, List.append_assoc]
        have hnext : P.length + l.length + 1 = (P ++ (l ++ [CONF_NULL_PH])).length := by
          simp only [List.length_append, List.length_singleton]
          omega
        have htail := ih (P ++ (l ++ [CONF_NULL_PH])) hR
        rw [← hnext, ← hbuf] at htail
        simp only [scan_pairs, hs, hr]
        exact htail

/-- Reading the content pointer stored by the line loop from the finished
buffer. -/
theorem scan_content_read (E : List Char) :
    ∀ (ls : List (List Char)) (P : List Char), NUL ∉ fm_join ls E →
      (scan_content P.length ls E).map (cstr ((P ++ scan_buf ls E).map nul_ph))
        = (fm_content ls E).map cut_ph := by
  intro ls
  induction ls with
  | nil =>
    intro P hn
    simp only [fm_join] at hn
    by_cases hfm : CONF_FM_DELIM.isPrefixOf E = true
    · obtain ⟨T, rfl⟩ := (isPrefixOf_true_iff _ _).1 hfm
      have hT : NUL ∉ T := fun h => hn (by simp [h])
      have hread := cstr_nul_ph_end (P ++ CONF_FM_DELIM) T hT
      have hoff : (P ++ CONF_FM_DELIM).length = P.length + CONF_FM_DELIM_LEN := by
        rw [List.length_append]; rfl
      have hd : (CONF_FM_DELIM ++ T).drop CONF_FM_DELIM_LEN = T := by
        have : CONF_FM_DELIM_LEN = CONF_FM_DELIM.length := rfl
        rw [this, List.drop_left]
      rw [hoff, List.append_assoc] at hread
      simp only [scan_content, fm_content, scan_buf, hfm, if_true, Option.map_some', hread, hd]
    · simp only [scan_content, fm_content]
      rw [if_neg hfm, if_neg hfm]
      rfl
  | cons l ls ih =>
    intro P hn
    obtain ⟨hl, hR⟩ := fm_join_nul_cons l ls E hn
    cases hs : strstr l CONF_KV_DELIM with
    | some i =>
      have hle := strstr_some_le CONF_KV_DELIM l i hs
      have hlen := strstr_some_length CONF_KV_DELIM l i hs
      have hbuf : P ++ scan_buf (l :: ls) E
          = (P ++ (l.take i ++ CONF_NULL_PH :: "= ".toList ++ l.drop (i + CONF_KV_DELIM_LEN)
              ++ [CONF_NULL_PH])) ++ scan_buf ls E := by
        simp [scan_buf, hs, List.append_assoc]
      have hnext : P.length + l.length + 1
          = (P ++ (l.take i ++ CONF_NULL_PH :: "= ".toList ++ l.drop (i + CONF_KV_DELIM_LEN)
              ++ [CONF_NULL_PH])).length := by
        have h2 : "= ".toList.length = 2 := rfl
        have h3 : CONF_KV_DELIM.length = 3 := rfl
        have h3' : CONF_KV_DELIM_LEN = 3 := rfl
        rw [h3] at hlen
        simp only [List.length_append, List.length_cons, List.length_take, h2, h3',
          Nat.min_eq_left hle, List.length_singleton, List.length_nil]
        omega
      have htail := ih (P ++ (l.take i ++ CONF_NULL_PH :: "= ".toList ++
        l.drop (i + CONF_KV_DELIM_LEN) ++ [CONF_NULL_PH])) hR
      rw [← hnext, ← hbuf] at htail
      simp only [scan_content, fm_content, hs]
      exact htail
    | none =>
      cases hr : strstr (fm_join ls E) CONF_KV_DELIM with
      | none => simp only [scan_content, fm_content, hs, hr, Option.map_none']
      | some j =>
        have hbuf : P ++ scan_buf (l :: ls) E = (P ++ (l ++ [CONF_NULL_PH])) ++ scan_buf ls E := by
          simp [scan_buf, hs, hr, List.append_assoc]
        have hnext : P.length + l.length + 1 = (P ++ (l ++ [CONF_NULL_PH])).length := by
          simp only [List.length_append, List.length_singleton]
          omega
        have htail := ih (P ++ (l ++ [CONF_NULL_PH])) hR
        rw [← hnext, ← hbuf] at htail
        simp only [scan_content, fm_content, hs, hr]
        exact htail

/-- The document `conf_read` returns for a text that begins with the
delimiter line: one entry for every line of the block that holds the
key/value delimiter, up to the ceiling, and the content the line loop
reaches; keys, values and content are cut before the first placeholder
byte. -/
theorem conf_read_fm (ls : List (List Char)) (E : List Char)
    (hls : ∀ l ∈ ls, block_line l) (hE : block_end E) (hn : NUL ∉ fm_text ls E)
    (fuel : Nat) (hfuel : (fm_text ls E).length < fuel) :
    ∃ c, conf_read fuel (fm_text ls E) = some c ∧
      conf_entries c
        = ((ls.filterMap line_entry).take CONF_MAX).map (fun kv => (cut_ph kv.1, cut_ph kv.2)) ∧
      conf_content c = (fm_content ls E).map cut_ph := by
  have hjn : NUL ∉ fm_join ls E := fun h => hn (by simp [fm_text, h])
  have h4 : CONF_FM_DELIM.length = 4 := rfl
  have hlen : (fm_text ls E).length = 4 + (fm_join ls E).length := by
    simp only [fm_text, List.length_append, h4]
  have hge := fm_join_length_ge E ls
  have htext : fm_text ls E = [] ++ "---".toList ++ '\n' :: fm_join ls E := rfl
  have hstart : strncmp_eq (cstr (fm_text ls E) 0) CONF_FM_DELIM CONF_FM_DELIM_LEN = true := by
    have := cstr_append [] (fm_text ls E) hn
    simp only [List.nil_append, List.length_nil] at this
    rw [this]
    exact strncmp_delim _
  have hlines := conf_read_lines_scan ls fuel [] "---".toList E [] hls hE hjn (by decide)
    (by decide) (by simp) (by omega)
  rw [← htext] at hlines
  simp only [List.length_nil, List.nil_append] at hlines
  have hbufn : NUL ∉ ("---".toList ++ [CONF_NULL_PH]) ++ scan_buf ls E := by
    simp only [List.mem_append, not_or]
    exact ⟨⟨by decide, by decide⟩, scan_buf_nul E ls hjn⟩
  have hnul := conf_read_nul_eq fuel [] (("---".toList ++ [CONF_NULL_PH]) ++ scan_buf ls E)
    hbufn (by
      have h3 : ("---".toList ++ [CONF_NULL_PH]).length = 4 := rfl
      rw [List.length_append, h3, scan_buf_length]
      omega)
  simp only [List.nil_append, List.length_nil] at hnul
  have hentries := scan_pairs_read E ls ("---".toList ++ [CONF_NULL_PH]) hjn
  have hcontent := scan_content_read E ls ("---".toList ++ [CONF_NULL_PH]) hjn
  have hres : conf_read fuel (fm_text ls E) = some
      { pairs := (scan_pairs ("---".toList ++ [CONF_NULL_PH]).length ls E).take CONF_MAX,
        content := scan_content ("---".toList ++ [CONF_NULL_PH]).length ls E,
        buf := some ((("---".toList ++ [CONF_NULL_PH]) ++ scan_buf ls E).map nul_ph) } := by
    simp only [conf_read, hstart, Bool.not_true, Bool.false_eq_true, if_false, hlines]
    rw [hnul]
  refine ⟨_, hres, ?_, ?_⟩
  · simp only [conf_entries]
    rw [List.map_take, hentries, List.map_take]
  · cases hc : scan_content ("---".toList ++ [CONF_NULL_PH]).length ls E with
    | none =>
      rw [hc] at hcontent
      simp only [conf_content]
      exact hcontent
    | some p =>
      rw [hc] at hcontent
      simp only [conf_content]
      exact hcontent

/-- Every text is made of lines of a block and a rest that begins with the
delimiter line or that no newline closes. -/
theorem fm_join_exists :
    ∀ (n : Nat) (R : List Char), R.length ≤ n →
      ∃ ls E, R = fm_join ls E ∧ (∀ l ∈ ls, block_line l) ∧ block_end E := by
  intro n
  induction n with
  | zero =>
    intro R hR
    have : R = [] := List.length_eq_zero.1 (by omega)
    subst this
    exact ⟨[], [], rfl, by simp, Or.inr (by simp)⟩
  | succ n ih =>
    intro R hR
    by_cases hfm : CONF_FM_DELIM <+: R
    · exact ⟨[], R, rfl, by simp, Or.inl hfm⟩
    · by_cases hnl : '\n' ∈ R
      · obtain ⟨a, t, hsplit, ha⟩ := first_split '\n' R hnl
        subst hsplit
        obtain ⟨ls, E, ht, hls, hE⟩ := ih t (by
          simp only [List.length_append, List.length_cons] at hR; omega)
        refine ⟨a :: ls, E, by rw [ht]; rfl, ?_, hE⟩
        intro l hl
        rcases List.mem_cons.1 hl with e | e
        · subst e
          refine ⟨ha, fun e => hfm ?_⟩
          subst e
          exact ⟨t, rfl⟩
        · exact hls l e
      · exact ⟨[], R, rfl, by simp, Or.inr hnl⟩

/-- Every text that begins with the delimiter line is a `fm_text`. -/
theorem fm_text_exists (t : List Char) (h : CONF_FM_DELIM <+: t) :
    ∃ ls E, t = fm_text ls E ∧ (∀ l ∈ ls, block_line l) ∧ block_end E := by
  obtain ⟨R, rfl⟩ := h
  obtain ⟨ls, E, hR, hls, hE⟩ := fm_join_exists R.length R (Nat.le_refl _)
  exact ⟨ls, E, by rw [hR]; rfl, hls, hE⟩

theorem fm_content_unclosed (E : List Char) (hE : '\n' ∉ E) :
    ∀ ls : List (List Char), fm_content ls E = none := by
  intro ls
  induction ls with
  | nil =>
    have : ¬ CONF_FM_DELIM.isPrefixOf E = true := fun h =>
      hE (fm_prefix_newline E ((isPrefixOf_true_iff _ _).1 h))
    simp only [fm_content]
    rw [if_neg this]
  | cons l ls ih =>
    simp only [fm_content, ih]
    cases strstr l CONF_KV_DELIM with
    | some i => rfl
    | none =>
      cases strstr (fm_join ls E) CONF_KV_DELIM with
      | none => rfl
      | some j => rfl

theorem mem_fm_join (E : List Char) (x : Char) :
    ∀ (ls : List (List Char)) (l : List Char), l ∈ ls → x ∈ l → x ∈ fm_join ls E := by
  intro ls
  induction ls with
  | nil => intro l hl; simp at hl
  | cons a ls ih =>
    intro l hl hx
    rcases List.mem_cons.1 hl with e | e
    · subst e
      simp [fm_join, hx]
    · simp [fm_join, ih l e hx]

theorem line_entry_some (l k v : List Char) (h : line_entry l = some (k, v)) :
    l = k ++ CONF_KV_DELIM ++ v ∧ ¬ CONF_KV_DELIM <:+: k ++ " =".toList ∧
      (∀ x, x ∈ k → x ∈ l) ∧ (∀ x, x ∈ v → x ∈ l) := by
  simp only [line_entry] at h
  cases hs : strstr l CONF_KV_DELIM with
  | none => simp [hs] at h
  | some i =>
    simp only [hs, Option.map_some', Option.some.injEq, Prod.mk.injEq] at h
    obtain ⟨hk, hv⟩ := h
    have hsplit := strstr_some_split CONF_KV_DELIM l i hs
    have hfirst := strstr_some_first CONF_KV_DELIM (by decide) l i hs
    have h3 : CONF_KV_DELIM.length = CONF_KV_DELIM_LEN := rfl
    rw [h3, hk, hv] at hsplit
    rw [hk] at hfirst
    refine ⟨hsplit, hfirst, ?_, ?_⟩
    · intro x hx; rw [← hk] at hx; exact List.mem_of_mem_take hx
    · intro x hx; rw [← hv] at hx; exact List.mem_of_mem_drop hx

theorem line_entry_none_iff (l : List Char) :
    line_entry l = none ↔ ¬ CONF_KV_DELIM <:+: l := by
  simp only [line_entry, Option.map_eq_none']
  exact ⟨strstr_eq_none _ _, strstr_none_of_absent _ _⟩

theorem cut_ph_subset (s : List Char) (x : Char) (h : x ∈ cut_ph s) : x ∈ s :=
  (List.takeWhile_sublist _).subset h

/-- C13 fails on the code: a line without `" = "` is passed over only while
a `" = "` stands somewhere behind it.  In `"---\nfoo\n---\ncontent"` none
does, the loop is left at `foo` before the closing delimiter is seen, and
the content is absent; without the line `foo` the content is `"content"`.
The same happens at an empty line behind the last entry. -/
theorem conf_read_skip_line_loses_content :
    (fm_text ["foo".toList] "---\ncontent".toList = "---\nfoo\n---\ncontent".toList ∧
      fm_text [] "---\ncontent".toList = "---\n---\ncontent".toList ∧
      block_line "foo".toList ∧ ¬ CONF_KV_DELIM <:+: "foo".toList ∧
      (conf_read 32 "---\nfoo\n---\ncontent".toList).map
          (fun c => (conf_entries c, conf_content c)) = some ([], none) ∧
      (conf_read 32 "---\n---\ncontent".toList).map
          (fun c => (conf_entries c, conf_content c)) = some ([], some "content".toList)) ∧
    (fm_text ["title = x".toList, []] "---\nbody".toList
        = "---\ntitle = x\n\n---\nbody".toList ∧
      fm_text ["title = x".toList] "---\nbody".toList = "---\ntitle = x\n---\nbody".toList ∧
      block_line [] ∧ ¬ CONF_KV_DELIM <:+: [] ∧
      (conf_read 32 "---\ntitle = x\n\n---\nbody".toList).map
          (fun c => (conf_entries c, conf_content c))
        = some ([("title".toList, "x".toList)], none) ∧
      (conf_read 32 "---\ntitle = x\n---\nbody".toList).map
          (fun c => (conf_entries c, conf_content c))
        = some ([("title".toList, "x".toList)], some "body".toList)) := by
  refine ⟨⟨?_, ?_, ?_, ?_, ?_, ?_⟩, ?_, ?_, ?_, ?_, ?_, ?_⟩ <;> decide

/-- C14: for a text made of the opening delimiter, lines none of which is
the delimiter line, and a last line that no newline closes (a last line
`---` included), `conf_read` returns a document with absent content, so
`page_content` on a page with that document returns the default of the
caller; the entries of the complete lines that hold `" = "` are returned, up
to the ceiling, key and value cut before the first placeholder byte. -/
theorem conf_read_unclosed (ls : List (List Char)) (E : List Char)
    (hls : ∀ l ∈ ls, block_line l) (hE : '\n' ∉ E) (hn : NUL ∉ fm_text ls E)
    (fuel : Nat) (hfuel : (fm_text ls E).length < fuel) :
    ∃ c, conf_read fuel (fm_text ls E) = some c ∧ conf_content c = none ∧
      conf_entries c
        = ((ls.filterMap line_entry).take CONF_MAX).map (fun kv => (cut_ph kv.1, cut_ph kv.2)) ∧
      ∀ (h : heap) (n : Nat) (t : page) (d : Option (List Char)),
        h[n]? = some t → t.conf = c → page_content h n d = some d := by
  obtain ⟨c, hc, he, hcont⟩ := conf_read_fm ls E hls (Or.inr hE) hn fuel hfuel
  rw [fm_content_unclosed E hE ls] at hcont
  refine ⟨c, hc, hcont, he, ?_⟩
  intro h n t d ht htc
  subst htc
  simp only [page_content, ht]
  rw [show conf_content t.conf = none from hcont]

/-- C14 on the documents of `test_conf_read` and `test_page_content`: the
text that ends in a line `---` without newline keeps its two entries and has
no content. -/
theorem conf_read_unclosed_witness :
    ∃ c, conf_read 64 "---\nkey 1 = value 1\nkey 2 = value 2\n---".toList = some c ∧
      conf_content c = none ∧
      conf_entries c
        = [("key 1".toList, "value 1".toList), ("key 2".toList, "value 2".toList)] := by
  obtain ⟨c, h1, h2, h3, _⟩ := conf_read_unclosed
    ["key 1 = value 1".toList, "key 2 = value 2".toList] "---".toList
    (by decide) (by decide) (by decide) 64 (by decide)
  exact ⟨c, h1, h2, h3⟩

/-- C15, as the code has it: for a text made of the opening delimiter, the
lines `ls` of the block that a newline closes and the rest `E`, every entry
`conf_read` returns stems from one line of `ls`, in line order: the key is
the line before its first `" = "` and the value the rest of the line behind
it, each cut before its first placeholder byte `0x7F`; for a text without
that byte they are exactly key and value.  Neither holds a newline, and a
line without `" = "` stands for no entry, whatever follows it.  The entries
are those of the first 256 such lines; the rest `E`, a last line that no
newline closes included, adds none. -/
theorem conf_read_entries_by_line (ls : List (List Char)) (E : List Char)
    (hls : ∀ l ∈ ls, block_line l) (hE : block_end E) (hn : NUL ∉ fm_text ls E)
    (fuel : Nat) (hfuel : (fm_text ls E).length < fuel) :
    ∃ c, conf_read fuel (fm_text ls E) = some c ∧
      conf_entries c
        = ((ls.filterMap line_entry).take CONF_MAX).map (fun kv => (cut_ph kv.1, cut_ph kv.2)) ∧
      (CONF_NULL_PH ∉ fm_text ls E →
        conf_entries c = (ls.filterMap line_entry).take CONF_MAX) ∧
      (∀ kv ∈ conf_entries c, '\n' ∉ kv.1 ∧ '\n' ∉ kv.2) ∧
      (∀ l ∈ ls, ∀ k v, line_entry l = some (k, v) →
        l = k ++ CONF_KV_DELIM ++ v ∧ ¬ CONF_KV_DELIM <:+: k ++ " =".toList) ∧
      (∀ l ∈ ls, ¬ CONF_KV_DELIM <:+: l → line_entry l = none) ∧
      (conf_entries c).Sublist
        ((ls.filterMap line_entry).map (fun kv => (cut_ph kv.1, cut_ph kv.2))) := by
  obtain ⟨c, hc, he, _⟩ := conf_read_fm ls E hls hE hn fuel hfuel
  have hmem : ∀ kv ∈ (ls.filterMap line_entry).take CONF_MAX,
      ∃ l ∈ ls, line_entry l = some kv := by
    intro kv hkv
    have := List.mem_of_mem_take hkv
    rw [List.mem_filterMap] at this
    exact this
  have hsub : (conf_entries c).Sublist
      ((ls.filterMap line_entry).map (fun kv => (cut_ph kv.1, cut_ph kv.2))) := by
    rw [he]
    exact (List.take_sublist _ _).map _
  refine ⟨c, hc, he, ?_, ?_, ?_, ?_, hsub⟩
  · intro hph
    rw [he]
    have hall : ∀ kv ∈ (ls.filterMap line_entry).take CONF_MAX,
        (cut_ph kv.1, cut_ph kv.2) = kv := by
      intro kv hkv
      obtain ⟨l, hl, hle⟩ := hmem kv hkv
      obtain ⟨_, _, hk, hv⟩ := line_entry_some l kv.1 kv.2 hle
      have h1 : CONF_NULL_PH ∉ kv.1 := fun e => hph (by
        simp only [fm_text, List.mem_append]
        exact Or.inr (mem_fm_join E _ ls l hl (hk _ e)))
      have h2 : CONF_NULL_PH ∉ kv.2 := fun e => hph (by
        simp only [fm_text, List.mem_append]
        exact Or.inr (mem_fm_join E _ ls l hl (hv _ e)))
      rw [cut_ph_of_not_mem _ h1, cut_ph_of_not_mem _ h2]
    calc ((ls.filterMap line_entry).take CONF_MAX).map (fun kv => (cut_ph kv.1, cut_ph kv.2))
        = ((ls.filterMap line_entry).take CONF_MAX).map id := List.map_congr_left hall
      _ = (ls.filterMap line_entry).take CONF_MAX := List.map_id _
  · intro kv hkv
    rw [he, List.mem_map] at hkv
    obtain ⟨kv0, hkv0, rfl⟩ := hkv
    obtain ⟨l, hl, hle⟩ := hmem kv0 hkv0
    obtain ⟨_, _, hk, hv⟩ := line_entry_some l kv0.1 kv0.2 hle
    exact ⟨fun h => (hls l hl).1 (hk _ (cut_ph_subset _ _ h)),
      fun h => (hls l hl).1 (hv _ (cut_ph_subset _ _ h))⟩
  · intro l _ k v hle
    obtain ⟨h1, h2, _, _⟩ := line_entry_some l k v hle
    exact ⟨h1, h2⟩
  · intro l _ hno
    exact (line_entry_none_iff l).2 hno

/-- C15 on a block in the manner of `test_conf_find`: the line without `" = "`
and the empty line stand for no entry although `" = "` follows them, and the
line `a = b = c` is split at its first `" = "`.  A last line `a = b` that no
newline closes gives no entry. -/
theorem conf_read_entries_by_line_witness :
    (∃ c, conf_read 64 "---\nkey 1 = value 1\ninvalid line\n\na = b = c\n---\nx = y".toList
        = some c ∧
      conf_entries c
        = [("key 1".toList, "value 1".toList), ("a".toList, "b = c".toList)]) ∧
    (∃ c, conf_read 64 "---\nk = v\na = b".toList = some c ∧
      conf_entries c = [("k".toList, "v".toList)]) := by
  obtain ⟨c, h1, _, h3, _⟩ := conf_read_entries_by_line
    ["key 1 = value 1".toList, "invalid line".toList, [], "a = b = c".toList]
    "---\nx = y".toList (by decide) (by decide) (by decide) 64 (by decide)
  obtain ⟨c2, k1, _, k3, _⟩ := conf_read_entries_by_line
    ["k = v".toList] "a = b".toList (by decide) (by decide) (by decide) 64 (by decide)
  exact ⟨⟨c, h1, h3 (by decide)⟩, ⟨c2, k1, k3 (by decide)⟩⟩

/-- C15 as stated fails on a text with the placeholder byte `0x7F`: the
line `a = b\x7fc` holds one `" = "`, the rest of the line behind it is
`b\x7fc`, and the value returned is `b`. -/
theorem conf_read_entries_by_line_counterexample :
    fm_text ["a = b\x7fc".toList] "---\n".toList = "---\na = b\x7fc\n---\n".toList ∧
      line_entry "a = b\x7fc".toList = some ("a".toList, "b\x7fc".toList) ∧
      (conf_read 32 "---\na = b\x7fc\n---\n".toList).map conf_entries
        = some [("a".toList, "b".toList)] ∧
      (conf_read 32 "---\na = b\x7fc\n---\n".toList).map conf_entries
        ≠ some [("a".toList, "b\x7fc".toList)] := by
  decide

/-! ### The ceiling on entries -/

/-- The line loop never stores more than `CONF_MAX` entries. -/
theorem conf_read_lines_cap :
    ∀ (fuel : Nat) (b : List Char) (m : Nat) (pairs : List conf_pair) (r : conf_lines),
      pairs.length ≤ CONF_MAX → conf_read_lines fuel b m pairs = some r →
      r.pairs.length ≤ CONF_MAX := by
  intro fuel
  induction fuel with
  | zero => intro b m pairs r _ h; simp [conf_read_lines] at h
  | succ f ih =>
    intro b m pairs r hcap h
    rw [conf_read_lines] at h
    cases h1 : strchr b m '\n' with
    | none =>
      simp only [h1, Option.some.injEq] at h
      subst h
      exact hcap
    | some nl =>
      simp only [h1] at h
      split at h
      · simp only [Option.some.injEq] at h
        subst h
        exact hcap
      · split at h
        · simp only [Option.some.injEq] at h
          subst h
          exact hcap
        · split at h
          · exact ih _ _ _ _ hcap h
          · split at h
            · rename_i hlt
              exact ih _ _ _ _ (by
                simp only [List.length_append, List.length_singleton]; omega) h
            · exact ih _ _ _ _ hcap h

theorem conf_read_cap (fuel : Nat) (t : List Char) (c : conf)
    (h : conf_read fuel t = some c) : (conf_entries c).length ≤ CONF_MAX := by
  simp only [conf_read] at h
  split at h
  · simp only [Option.some.injEq] at h
    subst h
    simp [conf_entries]
  · cases hl : conf_read_lines fuel t 0 [] with
    | none => simp [hl] at h
    | some r =>
      simp only [hl] at h
      cases hb : conf_read_nul fuel r.buf 0 with
      | none => simp [hb] at h
      | some b =>
        simp only [hb, Option.some.injEq] at h
        subst h
        simp only [conf_entries, List.length_map]
        exact conf_read_lines_cap fuel t 0 [] r (by simp) hl

/-- The text of the line of an entry. -/
theorem fm_join_entries (E : List Char) :
    ∀ kvs : List (List Char × List Char),
      fm_join (kvs.map (fun kv => kv.1 ++ CONF_KV_DELIM ++ kv.2)) E
        = (kvs.map conf_line).flatten ++ E := by
  intro kvs
  induction kvs with
  | nil => rfl
  | cons kv kvs ih =>
    rw [List.map_cons, fm_join, ih, List.map_cons, List.flatten_cons, conf_line]
    simp only [List.append_assoc, List.cons_append, List.nil_append]

theorem conf_doc_fm_text (kvs : List (List Char × List Char)) (T : List Char) :
    conf_doc kvs T
      = fm_text (kvs.map (fun kv => kv.1 ++ CONF_KV_DELIM ++ kv.2)) (CONF_FM_DELIM ++ T) := by
  rw [fm_text, fm_join_entries]
  simp only [conf_doc, List.append_assoc]

theorem entry_block_line (kv : List Char × List Char) (h : entry_ok kv) :
    block_line (kv.1 ++ CONF_KV_DELIM ++ kv.2) := by
  obtain ⟨hk, hv, _, _, _⟩ := h
  refine ⟨?_, ?_⟩
  · simp only [List.mem_append, not_or]
    exact ⟨⟨hk, by decide⟩, hv⟩
  · intro e
    have : ' ' ∈ kv.1 ++ CONF_KV_DELIM ++ kv.2 := by
      simp [CONF_KV_DELIM]
    rw [e] at this
    exact absurd this (by decide)

theorem strstr_entry (kv : List Char × List Char) (h : entry_ok kv) :
    strstr (kv.1 ++ CONF_KV_DELIM ++ kv.2) CONF_KV_DELIM = some kv.1.length :=
  strstr_append CONF_KV_DELIM (by decide) kv.1 kv.2 h.2.2.2.2

theorem line_entry_entry (kv : List Char × List Char) (h : entry_ok kv) :
    line_entry (kv.1 ++ CONF_KV_DELIM ++ kv.2) = some kv := by
  have h3 : CONF_KV_DELIM_LEN = CONF_KV_DELIM.length := rfl
  have e1 : (kv.1 ++ CONF_KV_DELIM ++ kv.2).take kv.1.length = kv.1 := by
    rw [List.append_assoc, List.take_left]
  have e2 : (kv.1 ++ CONF_KV_DELIM ++ kv.2).drop (kv.1.length + CONF_KV_DELIM_LEN) = kv.2 := by
    have : kv.1.length + CONF_KV_DELIM_LEN = (kv.1 ++ CONF_KV_DELIM).length := by
      rw [List.length_append, h3]
    rw [this, List.drop_left]
  simp only [line_entry, strstr_entry kv h, Option.map_some', e1, e2]

theorem filterMap_entries :
    ∀ kvs : List (List Char × List Char), (∀ kv ∈ kvs, entry_ok kv) →
      (kvs.map (fun kv => kv.1 ++ CONF_KV_DELIM ++ kv.2)).filterMap line_entry = kvs := by
  intro kvs
  induction kvs with
  | nil => intro _; rfl
  | cons kv kvs ih =>
    intro hok
    rw [List.map_cons, List.filterMap_cons_some (line_entry_entry kv
      (hok kv (List.mem_cons_self _ _))), ih (fun x hx => hok x (List.mem_cons_of_mem _ hx))]

theorem fm_content_entries (T : List Char) :
    ∀ kvs : List (List Char × List Char), (∀ kv ∈ kvs, entry_ok kv) →
      fm_content (kvs.map (fun kv => kv.1 ++ CONF_KV_DELIM ++ kv.2)) (CONF_FM_DELIM ++ T)
        = some T := by
  intro kvs
  induction kvs with
  | nil =>
    intro _
    have hp : CONF_FM_DELIM.isPrefixOf (CONF_FM_DELIM ++ T) = true := by simp
    have hd : (CONF_FM_DELIM ++ T).drop CONF_FM_DELIM_LEN = T := by
      have : CONF_FM_DELIM_LEN = CONF_FM_DELIM.length := rfl
      rw [this, List.drop_left]
    simp only [List.map_nil, fm_content, hp, if_true, hd]
  | cons kv kvs ih =>
    intro hok
    simp only [List.map_cons, fm_content, strstr_entry kv (hok kv (List.mem_cons_self _ _))]
    exact ih (fun x hx => hok x (List.mem_cons_of_mem _ hx))

/-- The document read from a text made of the opening delimiter, any number
of lines `k = v`, the closing delimiter and a text `T`. -/
theorem conf_read_doc (kvs : List (List Char × List Char)) (T : List Char)
    (hok : ∀ kv ∈ kvs, entry_ok kv) (hT : NUL ∉ T)
    (fuel : Nat) (hfuel : (conf_doc kvs T).length < fuel) :
    ∃ c, conf_read fuel (conf_doc kvs T) = some c ∧
      conf_entries c = (kvs.take CONF_MAX).map (fun kv => (cut_ph kv.1, cut_ph kv.2)) ∧
      conf_content c = some (cut_ph T) := by
  have hdocn : NUL ∉ conf_doc kvs T := by
    simp only [conf_doc, List.mem_append, not_or]
    exact ⟨⟨⟨fm_delim_nul, flatten_lines_nul conf_line entry_line_nul kvs hok⟩,
      fm_delim_nul⟩, hT⟩
  have hls : ∀ l ∈ kvs.map (fun kv => kv.1 ++ CONF_KV_DELIM ++ kv.2), block_line l := by
    intro l hl
    rw [List.mem_map] at hl
    obtain ⟨kv, hkv, rfl⟩ := hl
    exact entry_block_line kv (hok kv hkv)
  obtain ⟨c, hc, he, hcont⟩ := conf_read_fm _ _ hls (Or.inl ⟨T, rfl⟩)
    (by rw [← conf_doc_fm_text]; exact hdocn) fuel (by rw [← conf_doc_fm_text]; exact hfuel)
  rw [← conf_doc_fm_text] at hc
  rw [filterMap_entries kvs hok] at he
  rw [fm_content_entries T kvs hok] at hcont
  exact ⟨c, hc, he, hcont⟩

theorem conf_doc_take_length (kvs : List (List Char × List Char)) (T : List Char) (n : Nat) :
    (conf_doc (kvs.take n) T).length ≤ (conf_doc kvs T).length := by
  have hle : ∀ (l : List (List Char × List Char)) (m : Nat),
      ((l.take m).map conf_line).flatten.length ≤ (l.map conf_line).flatten.length := by
    intro l
    induction l with
    | nil => intro m; simp
    | cons kv l ih =>
      intro m
      cases m with
      | zero => simp
      | succ m =>
        have := ih m
        simp only [List.take_succ_cons, List.map_cons, List.flatten_cons, List.length_append]
        omega
  have := hle kvs n
  simp only [conf_doc, List.length_append]
  omega

/-- C17: `conf_read` never returns more than 256 entries, whatever the
text.  For a text made of the opening delimiter, any number of lines `k = v`,
the closing delimiter and a text `T`, the entries returned are those of the
first 256 lines in source order, the further lines are dropped, and the
content is `T`; entries and content are the ones returned for the document
that holds only the first 256 lines (keys, values and content cut before the
first placeholder byte, if there is one). -/
theorem conf_read_ceiling (kvs : List (List Char × List Char)) (T : List Char)
    (hok : ∀ kv ∈ kvs, entry_ok kv) (hT : NUL ∉ T)
    (fuel : Nat) (hfuel : (conf_doc kvs T).length < fuel) :
    (∀ (f : Nat) (t : List Char) (c : conf), conf_read f t = some c →
      (conf_entries c).length ≤ CONF_MAX) ∧
    ∃ c, conf_read fuel (conf_doc kvs T) = some c ∧
      conf_entries c = (kvs.take CONF_MAX).map (fun kv => (cut_ph kv.1, cut_ph kv.2)) ∧
      (conf_entries c).length = min CONF_MAX kvs.length ∧
      conf_content c = some (cut_ph T) ∧
      (CONF_NULL_PH ∉ conf_doc kvs T →
        conf_entries c = kvs.take CONF_MAX ∧ conf_content c = some T) ∧
      ∃ c0, conf_read fuel (conf_doc (kvs.take CONF_MAX) T) = some c0 ∧
        conf_entries c0 = conf_entries c ∧ conf_content c0 = conf_content c := by
  refine ⟨conf_read_cap, ?_⟩
  obtain ⟨c, hc, he, hcont⟩ := conf_read_doc kvs T hok hT fuel hfuel
  obtain ⟨c0, hc0, he0, hcont0⟩ := conf_read_doc (kvs.take CONF_MAX) T
    (fun kv hkv => hok kv (List.mem_of_mem_take hkv)) hT fuel
    (Nat.lt_of_le_of_lt (conf_doc_take_length kvs T CONF_MAX) hfuel)
  rw [List.take_take, Nat.min_self] at he0
  refine ⟨c, hc, he, ?_, hcont, ?_, c0, hc0, by rw [he0, he], by rw [hcont0, hcont]⟩
  · rw [he, List.length_map, List.length_take]
  · intro hph
    have hTph : CONF_NULL_PH ∉ T := fun e => hph (by simp [conf_doc, e])
    rw [he, hcont]
    refine ⟨?_, by rw [cut_ph_of_not_mem T hTph]⟩
    have hall : ∀ kv ∈ kvs.take CONF_MAX, (cut_ph kv.1, cut_ph kv.2) = kv := by
      intro kv hkv0
      have hkv := List.mem_of_mem_take hkv0
      have h1 : CONF_NULL_PH ∉ kv.1 := fun e => hph (by
        simp only [conf_doc, List.mem_append]
        exact Or.inl (Or.inl (Or.inr (mem_flatten_lines _ conf_line kv kv.1
          (fun y hy => by simp [conf_line, hy]) kvs hkv e))))
      have h2 : CONF_NULL_PH ∉ kv.2 := fun e => hph (by
        simp only [conf_doc, List.mem_append]
        exact Or.inl (Or.inl (Or.inr (mem_flatten_lines _ conf_line kv kv.2
          (fun y hy => by simp [conf_line, hy]) kvs hkv e))))
      rw [cut_ph_of_not_mem _ h1, cut_ph_of_not_mem _ h2]
    calc (kvs.take CONF_MAX).map (fun kv => (cut_ph kv.1, cut_ph kv.2))
        = (kvs.take CONF_MAX).map id := List.map_congr_left hall
      _ = kvs.take CONF_MAX := List.map_id _

/-- C17 on a document of 257 lines `k = v` and the content `c`: 256 entries
are returned and the content is `c`. -/
theorem conf_read_ceiling_witness :
    ∃ c, conf_read ((conf_doc (List.replicate 257 ("k".toList, "v".toList)) "c".toList).length + 1)
        (conf_doc (List.replicate 257 ("k".toList, "v".toList)) "c".toList) = some c ∧
      conf_entries c = List.replicate 256 ("k".toList, "v".toList) ∧
      conf_content c = some "c".toList := by
  obtain ⟨_, c, hc, he, _, hcont, _, _⟩ := conf_read_ceiling
    (List.replicate 257 ("k".toList, "v".toList)) "c".toList
    (fun kv h => by rw [List.eq_of_mem_replicate h]; decide) (by decide) _ (Nat.lt_add_one _)
  refine ⟨c, hc, ?_, ?_⟩
  · have hm : min CONF_MAX 257 = 256 := by decide
    have hcut : (cut_ph "k".toList, cut_ph "v".toList) = ("k".toList, "v".toList) := by
      decide
    rw [he, List.take_replicate, List.map_replicate, hm]
    exact congrArg (List.replicate 256) hcut
  · rw [hcont]
    rfl

/-! ### Unloaded documents: `conf_alloc`, `conf_find`, `page_conf` -/

/-- C11 fails on the code: the root page of a directory without an index
file keeps the zero-initialised document that `conf_alloc` returns for an
unreadable file, the assertion `conf.buf != NULL` of `conf_find` fails on
it, and `page_conf` returns nothing however much fuel it gets. -/
theorem page_conf_unloaded_aborts :
    conf_alloc 0 none = some conf_zero ∧
      unloaded_heap = [ { page_zero with is_parent := true, conf := conf_zero } ] ∧
      conf_find conf_zero 0 "footer".toList none = none ∧
      ∀ fuel, page_conf fuel unloaded_heap 0 "footer".toList none = none := by
  refine ⟨rfl, rfl, rfl, ?_⟩
  intro fuel
  cases fuel with
  | zero => rfl
  | succ f => rfl

/-! ### Content lookup: `page_content` -/

/-- C12: `page_content(n, d)` returns the content of the document of `n`
when it is present, the empty string included, and `d` when it is absent;
nothing but the page `n` itself enters the result, so the content of a
parent or any other page is never returned. -/
theorem page_content_own (h : heap) (n : Nat) (t : page) (ht : h[n]? = some t)
    (d : Option (List Char)) :
    (∀ c, conf_content t.conf = some c → page_content h n d = some (some c)) ∧
    (conf_content t.conf = none → page_content h n d = some d) ∧
    (∀ h1 : heap, h1[n]? = some t → page_content h1 n d = page_content h n d) := by
  refine ⟨?_, ?_, ?_⟩
  · intro c hc
    simp only [page_content, ht, hc]
  · intro hc
    simp only [page_content, ht, hc]
  · intro h1 ht1
    simp only [page_content, ht, ht1]

/-- C12 on the tree of `test_page_content`: `child1` holds the empty text
and returns it; `child2` holds `"---\n"`, has no content and returns the
default, although the root has content. -/
theorem page_content_own_witness :
    page_content content_heap 1 none = some (some []) ∧
      page_content content_heap 2 (some "default".toList) = some (some "default".toList) :=
  ⟨(page_content_own content_heap 1 _ rfl none).1 [] (by decide),
   (page_content_own content_heap 2 _ rfl (some "default".toList)).2.1 (by decide)⟩

/-! ### Lookup from an offset: `conf_find` -/

theorem find_first {α : Type} (p : α → Bool) :
    ∀ (l : List α) (i : Nat) (a : α), l[i]? = some a → p a = true →
      (∀ j, j < i → ∀ b ∈ l[j]?, p b = false) → l.find? p = some a := by
  intro l
  induction l with
  | nil => intro i a hi; simp at hi
  | cons x xs ih =>
    intro i a hi hpa hmin
    cases i with
    | zero =>
      simp only [List.getElem?_cons_zero, Option.some.injEq] at hi
      subst hi
      exact List.find?_cons_of_pos _ hpa
    | succ i =>
      have hx : p x = false := hmin 0 (by omega) x (by simp)
      rw [List.find?_cons_of_neg _ (by simp [hx])]
      simp only [List.getElem?_cons_succ] at hi
      exact ih i a hi hpa (fun j hj b hb => hmin (j + 1) (by omega) b (by simpa using hb))

theorem find_none {α : Type} (p : α → Bool) (l : List α)
    (hall : ∀ j : Nat, ∀ b ∈ l[j]?, p b = false) : l.find? p = none := by
  rw [List.find?_eq_none]
  intro x hx
  obtain ⟨j, hj⟩ := List.getElem?_of_mem hx
  simpa using hall j x hj

theorem conf_find_eq (c : conf) (b : List Char) (hb : c.buf = some b) (offset : Nat)
    (key : List Char) (d : Option (List Char)) :
    conf_find c offset key d =
      some (match ((conf_entries c).drop offset).find? (fun kv => kv.1 == key) with
        | some kv => some kv.2
        | none => d) := by
  simp only [conf_find, hb, conf_find_loop_eq, conf_entries, List.map_drop]
  cases (List.drop offset (c.pairs.map (fun p => (cstr b p.key, cstr b p.val)))).find?
      (fun kv => kv.1 == key) with
  | none => rfl
  | some kv => rfl

/-- C16: on a parsed document `conf_find` returns the value of the first
entry at an index not below `offset` whose key is the given key, and the
default `d` when there is no such entry, in particular when `offset` is not
below the number of entries. -/
theorem conf_find_offset (c : conf) (hbuf : c.buf ≠ none) (offset : Nat)
    (key : List Char) (d : Option (List Char)) :
    (∀ (i : Nat) (v : List Char), offset ≤ i → (conf_entries c)[i]? = some (key, v) →
      (∀ j, offset ≤ j → j < i → ∀ kv ∈ (conf_entries c)[j]?, kv.1 ≠ key) →
      conf_find c offset key d = some (some v)) ∧
    ((∀ j, offset ≤ j → ∀ kv ∈ (conf_entries c)[j]?, kv.1 ≠ key) →
      conf_find c offset key d = some d) ∧
    ((conf_entries c).length ≤ offset → conf_find c offset key d = some d) := by
  cases hb : c.buf with
  | none => exact absurd hb hbuf
  | some b =>
    have hnone : (∀ j, offset ≤ j → ∀ kv ∈ (conf_entries c)[j]?, kv.1 ≠ key) →
        conf_find c offset key d = some d := by
      intro hall
      rw [conf_find_eq c b hb]
      rw [find_none _ _ (by
        intro j kv hkv
        rw [Option.mem_def, List.getElem?_drop] at hkv
        have := hall (offset + j) (by omega) kv hkv
        simpa using this)]
    refine ⟨?_, hnone, ?_⟩
    · intro i v hle hi hmin
      rw [conf_find_eq c b hb]
      rw [find_first _ _ (i - offset) (key, v) (by
          rw [List.getElem?_drop]
          have e : offset + (i - offset) = i := by omega
          rw [e]; exact hi) (by simp) (by
          intro j hj kv hkv
          rw [Option.mem_def, List.getElem?_drop] at hkv
          have := hmin (offset + j) (by omega) (by omega) kv hkv
          simpa using this)]
    · intro hlen
      apply hnone
      intro j hj kv hkv
      rw [Option.mem_def, List.getElem?_eq_none (by omega)] at hkv
      cases hkv

/-- C16 on the document of `test_conf_find`, which holds `key 1` twice: from
offset 0 the first value is returned, from offset 2 the later one. -/
theorem conf_find_offset_witness :
    conf_find find_doc 0 "key 1".toList none = some (some "value 1".toList) ∧
      conf_find find_doc 2 "key 1".toList none = some (some "value 3".toList) :=
  ⟨(conf_find_offset find_doc (by decide) 0 "key 1".toList none).1 0 "value 1".toList
      (by decide) (by decide) (by decide),
   (conf_find_offset find_doc (by decide) 2 "key 1".toList none).1 2 "value 3".toList
      (by decide) (by decide) (by decide)⟩

/-! ### Attaching pages: `page_add` -/

theorem getElem?_set_self_of_some {h : heap} {i : Nat} {p q : page} (hp : h[i]? = some p) :
    (h.set i q)[i]? = some q := by
  obtain ⟨hlt, _⟩ := List.getElem?_eq_some.1 hp
  simp [List.getElem?_set, hlt]

theorem getElem?_set_other {h : heap} {i j : Nat} (q : page) (hne : i ≠ j) :
    (h.set i q)[j]? = h[j]? := by
  simp [List.getElem?_set, hne]

/-- C18: where the list that the name of the child selects is not full,
`page_add` returns true, sets the parent link of the child to the parent,
sets `is_parent` of the parent, and appends the child as the last element of
the special list when its name begins with a dot, otherwise of the ordinary
children; the other list, the earlier elements, the names and every other
page are unchanged. -/
theorem page_add_attach (h : heap) (pg child : Nat) (p c : page) (hp : h[pg]? = some p)
    (hc : h[child]? = some c)
    (hroom : (c.name.head? = some PAGE_SPECIAL_PREFIX ∧ p.special.length < PAGE_SPECIAL_MAX) ∨
      (c.name.head? ≠ some PAGE_SPECIAL_PREFIX ∧ p.children.length < PAGE_CHILDREN_MAX)) :
    ∃ h1 p1 c1, page_add h pg (some child) = some (h1, true) ∧
      h1[pg]? = some p1 ∧ h1[child]? = some c1 ∧
      c1.parent = some pg ∧ p1.is_parent = true ∧
      (c.name.head? = some PAGE_SPECIAL_PREFIX →
        p1.special = p.special ++ [child] ∧ p1.children = p.children) ∧
      (c.name.head? ≠ some PAGE_SPECIAL_PREFIX →
        p1.children = p.children ++ [child] ∧ p1.special = p.special) ∧
      p1.name = p.name ∧ c1.name = c.name ∧ h1.length = h.length ∧
      ∀ m, m ≠ pg → m ≠ child → h1[m]? = h[m]? := by
  have hset1 : (h.set child { c with parent := some pg })[child]?
      = some { c with parent := some pg } := getElem?_set_self_of_some hc
  by_cases hpc : pg = child
  · -- the page is attached to itself
    subst hpc
    rw [hp] at hc
    have e := Option.some.inj hc
    subst e
    have hset2 : ∀ q : page, ((h.set pg { p with parent := some pg }).set pg q)[pg]?
        = some q := fun q => getElem?_set_self_of_some hset1
    have hoth : ∀ (q : page) (m : Nat), m ≠ pg → m ≠ pg →
        ((h.set pg { p with parent := some pg }).set pg q)[m]? = h[m]? := by
      intro q m hm _
      rw [getElem?_set_other _ (Ne.symm hm), getElem?_set_other _ (Ne.symm hm)]
    rcases hroom with ⟨hsp, hlt⟩ | ⟨hsp, hlt⟩
    · refine ⟨_, { p with parent := some pg, is_parent := true,
                          special := p.special ++ [pg] },
        { p with parent := some pg, is_parent := true, special := p.special ++ [pg] },
        ?_, hset2 _, hset2 _, rfl, rfl, fun _ => ⟨rfl, rfl⟩,
        fun hn => absurd hsp hn, rfl, rfl, by simp, hoth _⟩
      simp only [page_add, hp, hsp, if_true, page_add_special,
        Nat.not_le.2 hlt, if_false, hset1, ge_iff_le]
    · refine ⟨_, { p with parent := some pg, is_parent := true,
                          children := p.children ++ [pg] },
        { p with parent := some pg, is_parent := true, children := p.children ++ [pg] },
        ?_, hset2 _, hset2 _, rfl, rfl, fun hn => absurd hn hsp,
        fun _ => ⟨rfl, rfl⟩, rfl, rfl, by simp, hoth _⟩
      simp only [page_add, hp, hsp, if_false, Nat.not_le.2 hlt, hset1, ge_iff_le]
  · have hpg1 : (h.set child { c with parent := some pg })[pg]? = some p := by
      rw [getElem?_set_other _ (Ne.symm hpc)]; exact hp
    have hfin_pg : ∀ q : page, ((h.set child { c with parent := some pg }).set pg q)[pg]?
        = some q := fun q => getElem?_set_self_of_some hpg1
    have hfin_c : ∀ q : page, ((h.set child { c with parent := some pg }).set pg q)[child]?
        = some { c with parent := some pg } := by
      intro q
      rw [getElem?_set_other _ hpc]; exact hset1
    have hoth : ∀ (q : page) (m : Nat), m ≠ pg → m ≠ child →
        ((h.set child { c with parent := some pg }).set pg q)[m]? = h[m]? := by
      intro q m hm hm2
      rw [getElem?_set_other _ (Ne.symm hm), getElem?_set_other _ (Ne.symm hm2)]
    rcases hroom with ⟨hsp, hlt⟩ | ⟨hsp, hlt⟩
    · refine ⟨_, { p with is_parent := true, special := p.special ++ [child] },
        { c with parent := some pg },
        ?_, hfin_pg _, hfin_c _, rfl, rfl, fun _ => ⟨rfl, rfl⟩,
        fun hn => absurd hsp hn, rfl, rfl, by simp, hoth _⟩
      simp only [page_add, hp, hc, hsp, if_true, page_add_special,
        Nat.not_le.2 hlt, if_false, hpg1, ge_iff_le]
    · refine ⟨_, { p with is_parent := true, children := p.children ++ [child] },
        { c with parent := some pg },
        ?_, hfin_pg _, hfin_c _, rfl, rfl, fun hn => absurd hn hsp,
        fun _ => ⟨rfl, rfl⟩, rfl, rfl, by simp, hoth _⟩
      simp only [page_add, hp, hc, hsp, if_false, Nat.not_le.2 hlt, hpg1, ge_iff_le]

/-- C18 on the pages of `test_page_add`: attaching `.child3` to the root
succeeds. -/
theorem page_add_attach_witness :
    (page_add add_heap 0 (some 3)).map (·.2) = some true := by
  obtain ⟨h1, _, _, e, _⟩ :=
    page_add_attach add_heap 0 3 _ _ (by rfl) (by rfl) (Or.inl ⟨by decide, by decide⟩)
  rw [e]
  rfl

/-- C19: when the list that the name of the child selects is full (64
special pages for a name that begins with a dot, otherwise 4096 children),
`page_add` returns false and leaves the whole heap as it was: both lists, the
`is_parent` flag of the parent and the parent link of the child. -/
theorem page_add_full (h : heap) (pg child : Nat) (p c : page) (hp : h[pg]? = some p)
    (hc : h[child]? = some c)
    (hfull : (c.name.head? = some PAGE_SPECIAL_PREFIX ∧ PAGE_SPECIAL_MAX ≤ p.special.length) ∨
      (c.name.head? ≠ some PAGE_SPECIAL_PREFIX ∧ PAGE_CHILDREN_MAX ≤ p.children.length)) :
    page_add h pg (some child) = some (h, false) := by
  rcases hfull with ⟨hsp, hge⟩ | ⟨hsp, hge⟩
  · simp only [page_add, hp, hc, hsp, if_true, page_add_special, ge_iff_le, hge]
  · simp only [page_add, hp, hc, hsp, if_false, ge_iff_le, hge, if_true]

/-- C19 on a page that holds 64 special pages: a further page named `.x` is
refused and the heap is unchanged. -/
theorem page_add_full_witness :
    page_add full_heap 0 (some 1) = some (full_heap, false) :=
  page_add_full full_heap 0 1 _ _ (by rfl) (by rfl) (Or.inl ⟨by decide, by decide⟩)

/-! ### Rendering paths: `page_path_append` -/

theorem page_path_append_mono_succ (h : heap) (path : List Char) (size : Nat) :
    ∀ (fuel n : Nat) (p : List Char), page_path_append fuel h n path size = some p →
      page_path_append (fuel + 1) h n path size = some p := by
  intro fuel
  induction fuel with
  | zero => intro n p hp; simp [page_path_append] at hp
  | succ fuel ih =>
    intro n p hp
    rw [page_path_append] at hp
    rw [page_path_append]
    cases ht : h[n]? with
    | none => simp [ht] at hp
    | some t =>
      simp only [ht] at hp ⊢
      cases hpar : t.parent with
      | none => simpa only [hpar] using hp
      | some par =>
        simp only [hpar] at hp ⊢
        cases hq : page_path_append fuel h par path size with
        | none => simp [hq] at hp
        | some q =>
          rw [ih par q hq]
          simpa only [hq] using hp

theorem page_path_append_mono (h : heap) (path : List Char) (size : Nat) (n : Nat)
    (p : List Char) {f1 f2 : Nat} (hle : f1 ≤ f2)
    (hp : page_path_append f1 h n path size = some p) :
    page_path_append f2 h n path size = some p := by
  induction hle with
  | refl => exact hp
  | step _ ih => exact page_path_append_mono_succ h path size _ n p ih

theorem page_path_append_total {h : heap} {rank : Nat → Nat} (hwf : heap_wf h rank)
    (path : List Char) (size : Nat) :
    ∀ (fuel n : Nat) (t : page), h[n]? = some t → rank n < fuel →
      ∃ p, page_path_append fuel h n path size = some p := by
  intro fuel
  induction fuel with
  | zero => intro n t _ hr; omega
  | succ fuel ih =>
    intro n t ht hr
    rw [page_path_append]
    simp only [ht]
    cases hpar : t.parent with
    | none => exact ⟨_, rfl⟩
    | some par =>
      obtain ⟨hrk, pp, hpp, _⟩ := wf_parent hwf ht hpar
      obtain ⟨q, hq⟩ := ih par pp hpp (by omega)
      simp only [hq]
      exact ⟨_, rfl⟩

/-- C20: on a well-formed heap `page_path_append` into an empty buffer
returns a path for every page, the same for every sufficient amount of fuel.
For a page without parent the path is `"/"` if the page is a container and
empty otherwise, so the name of the root does not appear.  For a page with a
parent whose path is `q`, the path is `q`, then the name of the page, then
`"/"` if the page is a container, provided that this text fits the buffer. -/
theorem page_path_append_render (h : heap) (rank : Nat → Nat) (hwf : heap_wf h rank)
    (n : Nat) (t : page) (ht : h[n]? = some t) (size : Nat) :
    (∃ p, ∀ fuel, rank n < fuel → page_path_append fuel h n [] size = some p) ∧
    (t.parent = none → 1 < size → ∀ fuel, 0 < fuel →
      page_path_append fuel h n [] size = some (if t.is_parent then ['/'] else [])) ∧
    (∀ par q f0, t.parent = some par → page_path_append f0 h par [] size = some q →
      (q ++ t.name ++ (if t.is_parent then ['/'] else [])).length < size →
      ∀ fuel, rank n < fuel →
        page_path_append fuel h n [] size
          = some (q ++ t.name ++ (if t.is_parent then ['/'] else []))) := by
  refine ⟨?_, ?_, ?_⟩
  · obtain ⟨p, hp⟩ := page_path_append_total hwf [] size (rank n + 1) n t ht (by omega)
    exact ⟨p, fun fuel hf => page_path_append_mono h [] size n p (by omega) hp⟩
  · intro hpar hsize fuel hf
    obtain ⟨f, rfl⟩ : ∃ f, fuel = f + 1 := ⟨fuel - 1, by omega⟩
    rw [page_path_append]
    simp only [ht, hpar]
    by_cases hip : t.is_parent = true
    · simp only [hip, if_true]
      rw [strcat_safe_fit _ _ _ (by simpa using hsize)]
      rfl
    · simp [hip]
  · intro par q f0 hpar hq hfit fuel hf
    obtain ⟨f, rfl⟩ : ∃ f, fuel = f + 1 := ⟨fuel - 1, by omega⟩
    obtain ⟨hrk, pp, hpp, _⟩ := wf_parent hwf ht hpar
    obtain ⟨q1, hq1⟩ := page_path_append_total hwf [] size f par pp hpp (by omega)
    have e1 := page_path_append_mono h [] size par q1 (Nat.le_max_left f f0) hq1
    have e2 := page_path_append_mono h [] size par q (Nat.le_max_right f f0) hq
    rw [e1] at e2
    have e := Option.some.inj e2
    subst e
    rw [page_path_append]
    simp only [ht, hpar, hq1]
    have hcat : strcat_safe q1 t.name size = q1 ++ t.name :=
      strcat_safe_fit _ _ _ (by simp only [List.length_append] at hfit; omega)
    rw [hcat]
    by_cases hip : t.is_parent = true
    · simp only [hip, if_true] at hfit ⊢
      rw [strcat_safe_fit _ _ _ (by simpa using hfit)]
    · simp [hip]

/-- C20 on the tree of `test_page_path_append` with its buffer of 32 bytes:
the path of the root is `"/"`, so the container `child2` below it is rendered
as `"/child2/"`. -/
theorem page_path_append_render_witness :
    page_path_append 1 test_heap 0 [] 32 = some "/".toList ∧
      page_path_append 3 test_heap 2 [] 32 = some "/child2/".toList :=
  ⟨(page_path_append_render test_heap id (by decide) 0
      { page_zero with name := "root".toList, is_parent := true, children := [1, 2] }
      (by rfl) 32).2.1 (by rfl) (by decide) 1 (by decide),
   (page_path_append_render test_heap id (by decide) 2
      { page_zero with
        name := "child2".toList, is_parent := true, parent := some 0, special := [3] }
      (by rfl) 32).2.2 0 "/".toList 1 (by rfl) (by rfl) (by decide) 3 (by decide)⟩

/-! ### Serial substitution, deletion, lengths and termination -/

/-- With enough fuel and strings shorter than `2^64`, `strsub_alloc` computes
the serial substitution. -/
theorem strsub_alloc_spec (s : List Char) (pairs : List strsub_pair)
    (hfind : ∀ p ∈ pairs, p.find ≠ []) (hfit : substitute_peak s pairs < SIZE_MOD)
    (fuel : Nat) (hfuel : substitute_peak s pairs < fuel) :
    strsub_alloc fuel s pairs = some (substitute_spec s pairs) := by
  obtain ⟨st1, hst1, hstr⟩ := strsub_alloc_loop_eq pairs fuel
    { b := buf_realloc { len := 0, cap := 0 } (size_add (strlen s) 1), str := s,
      src_len := strlen s } hfind rfl
    (by
      intro k _
      have := substitute_peak_spec pairs s k
      constructor <;> simp only [] <;> omega)
  simp only [strsub_alloc, hst1, Option.map_some', hstr]

theorem replace_scan_delete_length (find : List Char) :
    ∀ (cs : List Char) (k : Nat), (replace_scan find [] k cs).length ≤ cs.length := by
  intro cs
  induction cs with
  | nil => intro k; cases k <;> simp [replace_scan]
  | cons c cs ih =>
    intro k
    cases k with
    | succ k =>
      have := ih k
      simp only [replace_scan, List.length_cons]
      omega
    | zero =>
      simp only [replace_scan]
      split
      · have := ih (find.length - 1)
        simp only [List.nil_append, List.length_cons]
        omega
      · have := ih 0
        simp only [List.length_cons]
        omega

theorem replace_scan_delete_char (c : Char) :
    ∀ (cs : List Char) (k : Nat), c ∉ replace_scan [c] [] k cs := by
  intro cs
  induction cs with
  | nil => intro k; cases k <;> simp [replace_scan]
  | cons d cs ih =>
    intro k
    cases k with
    | succ k =>
      simp only [replace_scan]
      exact ih k
    | zero =>
      simp only [replace_scan]
      split
      · simp only [List.nil_append]
        exact ih _
      · rename_i hp
        have hne : d ≠ c := by
          intro e
          apply hp
          subst e
          simp
        simp only [List.mem_cons, not_or]
        exact ⟨fun e => hne e.symm, ih 0⟩

/-- C23, as the code has it: `strsub_alloc(s, [(f, absent)])` returns `s`
with every match of one left-to-right scan for `f` removed.  The result is
not longer than `s`; it is `s` itself when `f` does not occur in `s`; and
when `f` is a single character the result holds no occurrence of it. -/
theorem strsub_alloc_delete (s f : List Char) (hf : f ≠ []) (hs : s.length < SIZE_MOD)
    (fuel : Nat) (hfuel : s.length < fuel) :
    strsub_alloc fuel s [⟨f, none⟩] = some (replace_all f [] s) ∧
    (replace_all f [] s).length ≤ s.length ∧
    (¬ f <:+: s → replace_all f [] s = s) ∧
    (∀ c, f = [c] → c ∉ replace_all f [] s ∧ ¬ f <:+: replace_all f [] s) := by
  have hlen : (replace_all f [] s).length ≤ s.length := replace_scan_delete_length f s 0
  have hpeak : substitute_peak s [⟨f, none⟩] = s.length := by
    simp only [substitute_peak, Option.getD_none]
    omega
  refine ⟨?_, hlen, ?_, ?_⟩
  · have := strsub_alloc_spec s [⟨f, none⟩] (by simpa using hf) (by rw [hpeak]; exact hs)
      fuel (by rw [hpeak]; exact hfuel)
    simpa [substitute_spec] using this
  · intro hno
    exact replace_all_of_strstr_none f [] s (strstr_none_of_absent f s hno)
  · intro c hc
    subst hc
    have hnot : c ∉ replace_all [c] [] s := replace_scan_delete_char c s 0
    refine ⟨hnot, fun hi => hnot (hi.subset (List.mem_singleton_self c))⟩

/-- C23 at the example of the specification: `"a-b-c"` without `"-"` is
`"abc"`. -/
theorem strsub_alloc_delete_witness :
    strsub_alloc 8 "a-b-c".toList [⟨"-".toList, none⟩] = some "abc".toList ∧
      '-' ∉ "abc".toList := by
  obtain ⟨h1, _, _, h4⟩ := strsub_alloc_delete "a-b-c".toList "-".toList (by decide)
    (by decide) 8 (by decide)
  have e : replace_all "-".toList [] "a-b-c".toList = "abc".toList := by decide
  rw [e] at h1 h4
  exact ⟨h1, (h4 '-' rfl).1⟩

/-- C23 as stated fails: deleting the one match of `"ab"` in `"aabb"` joins
the characters around it, and the result `"ab"` holds the pattern again. -/
theorem strsub_alloc_delete_counterexample :
    strsub_alloc 8 "aabb".toList [⟨"ab".toList, none⟩] = some "ab".toList ∧
      "ab".toList <:+: "ab".toList := by
  decide

/-! ### The length computed before writing -/

/-- What holds of C25 on the code: for a current string `t` whose `src_len` is
its length, a non-empty pattern and a replacement, the counting loop, run in
arithmetic modulo `2^64`, returns exactly the length of the string that
`strsub` writes, also when the replacement is shorter than the pattern and
the difference per match wraps; `t` and the result are shorter than `2^64`.
The length requested from `buf_realloc` is `len(t) + new_len + 1`, and it is
strictly below the capacity that `buf_realloc` leaves whenever doubling it
does not wrap, that is `2 * (len(t) + new_len + 1) + 1 < 2^64`. -/
theorem strsub_alloc_step_length (st : strsub_state) (pair : strsub_pair)
    (hf : pair.find ≠ []) (hlen : st.src_len = st.str.length)
    (hsrc : st.str.length < SIZE_MOD)
    (hout : (replace_all pair.find (pair.rep.getD []) st.str).length < SIZE_MOD)
    (fuel : Nat) (hfuel : st.str.length < fuel) :
    strsub_count fuel st.src_len st.str pair.find (strlen pair.find)
        (strlen (pair.rep.getD []))
      = some (replace_all pair.find (pair.rep.getD []) st.str).length ∧
    strsub fuel [] st.str pair.find (pair.rep.getD [])
      = some (replace_all pair.find (pair.rep.getD []) st.str) ∧
    strsub_alloc_step fuel st pair
      = some { b := buf_realloc st.b (size_add (size_add st.src_len
                  (replace_all pair.find (pair.rep.getD []) st.str).length) 1),
               str := replace_all pair.find (pair.rep.getD []) st.str,
               src_len := (replace_all pair.find (pair.rep.getD []) st.str).length } ∧
    (2 * (st.str.length + (replace_all pair.find (pair.rep.getD []) st.str).length + 1) + 1
        < SIZE_MOD →
      (buf_realloc st.b (size_add (size_add st.src_len
          (replace_all pair.find (pair.rep.getD []) st.str).length) 1)).len
        = st.str.length + (replace_all pair.find (pair.rep.getD []) st.str).length + 1 ∧
      (buf_realloc st.b (size_add (size_add st.src_len
          (replace_all pair.find (pair.rep.getD []) st.str).length) 1)).len
        < (buf_realloc st.b (size_add (size_add st.src_len
          (replace_all pair.find (pair.rep.getD []) st.str).length) 1)).cap) := by
  obtain ⟨r, hr, hrlt, hrmod⟩ := strsub_count_eq pair.find (pair.rep.getD []) hf fuel
    st.src_len 0 st.str hfuel (by rw [hlen]; simp) (by rw [hlen]; exact hsrc)
  have hreq : r = (replace_all pair.find (pair.rep.getD []) st.str).length := by
    rw [Nat.mod_eq_of_lt hrlt, Nat.zero_add, Nat.mod_eq_of_lt hout] at hrmod
    exact hrmod
  have hsub := strsub_eq pair.find (pair.rep.getD []) hf fuel [] st.str hfuel
  rw [List.nil_append] at hsub
  rw [hreq] at hr
  refine ⟨hr, hsub, ?_, ?_⟩
  · simp only [strsub_alloc_step, hr, hsub, List.take_length]
  · intro hfit
    generalize (replace_all pair.find (pair.rep.getD []) st.str).length = n at hfit ⊢
    rw [hlen]
    generalize st.str.length = m at hfit ⊢
    have hR : size_add (size_add m n) 1 = m + n + 1 := by
      simp only [size_add, SIZE_MOD] at hfit ⊢
      omega
    rw [hR]
    simp only [buf_realloc]
    split
    · rename_i hlt
      exact ⟨rfl, hlt⟩
    · refine ⟨rfl, ?_⟩
      simp only [size_add, SIZE_MOD] at hfit ⊢
      omega

/-- The length computed at a replacement shorter than the pattern: for `"a-b-c"`, `"-"` and
the absent replacement every match adds `0 - 1`, which wraps to `2^64 - 1`,
and the loop still returns the length 3 of `"abc"`; the 9 bytes requested are
fewer than the capacity 13 of the buffer. -/
theorem strsub_alloc_step_length_witness :
    size_sub 0 1 = 18446744073709551615 ∧
    strsub_count 8 5 "a-b-c".toList "-".toList 1 0 = some 3 ∧
    strsub 8 [] "a-b-c".toList "-".toList [] = some "abc".toList ∧
    (buf_realloc { len := 6, cap := 13 } (size_add (size_add 5 3) 1)) = { len := 9, cap := 13 } := by
  obtain ⟨h1, h2, _, h4⟩ := strsub_alloc_step_length
    { b := { len := 6, cap := 13 }, str := "a-b-c".toList, src_len := 5 }
    ⟨"-".toList, none⟩ (by decide) rfl (by decide) (by decide) 8 (by decide)
  have e : replace_all "-".toList [] "a-b-c".toList = "abc".toList := by decide
  simp only [Option.getD_none, e] at h1 h2
  exact ⟨by decide, h1, h2, by decide⟩

/-- One step of the pair loop: the length the counting loop finds, the
string `strsub` writes, and the state left, with the length requested from
`buf_realloc`. -/
theorem strsub_alloc_step_res (st : strsub_state) (pair : strsub_pair)
    (hf : pair.find ≠ []) (hlen : st.src_len = st.str.length)
    (hsrc : st.str.length < SIZE_MOD)
    (hout : (replace_all pair.find (pair.rep.getD []) st.str).length < SIZE_MOD)
    (fuel : Nat) (hfuel : st.str.length < fuel) :
    strsub_count fuel st.src_len st.str pair.find (strlen pair.find)
        (strlen (pair.rep.getD []))
      = some (replace_all pair.find (pair.rep.getD []) st.str).length ∧
    strsub fuel [] st.str pair.find (pair.rep.getD [])
      = some (replace_all pair.find (pair.rep.getD []) st.str) ∧
    strsub_alloc_step fuel st pair
      = some { b := buf_realloc st.b (size_add (size_add st.src_len
                  (replace_all pair.find (pair.rep.getD []) st.str).length) 1),
               str := replace_all pair.find (pair.rep.getD []) st.str,
               src_len := (replace_all pair.find (pair.rep.getD []) st.str).length } := by
  obtain ⟨r, hr, hrlt, hrmod⟩ := strsub_count_eq pair.find (pair.rep.getD []) hf fuel
    st.src_len 0 st.str hfuel (by rw [hlen]; simp) (by rw [hlen]; exact hsrc)
  have hreq : r = (replace_all pair.find (pair.rep.getD []) st.str).length := by
    rw [Nat.mod_eq_of_lt hrlt, Nat.zero_add, Nat.mod_eq_of_lt hout] at hrmod
    exact hrmod
  have hsub := strsub_eq pair.find (pair.rep.getD []) hf fuel [] st.str hfuel
  rw [List.nil_append] at hsub
  rw [hreq] at hr
  refine ⟨hr, hsub, ?_⟩
  simp only [strsub_alloc_step, hr, hsub, List.take_length]

/-- Replacing every character of a run by `rep` gives as many copies of
`rep` as the run has characters. -/
theorem replace_all_run_length (c : Char) (rep : List Char) :
    ∀ n : Nat, (replace_all [c] rep (List.replicate n c)).length = n * rep.length := by
  intro n
  induction n with
  | zero => simp [replace_all, replace_scan]
  | succ n ih =>
    have hp : [c].isPrefixOf (c :: List.replicate n c) = true := by simp
    have e : replace_all [c] rep (List.replicate (n + 1) c)
        = rep ++ replace_all [c] rep (List.replicate n c) := by
      simp only [replace_all, List.replicate_succ, replace_scan, hp, if_true,
        List.length_singleton, Nat.sub_self]
    rw [e, List.length_append, ih]
    ring

/-- The step of the pair loop on a run of `n` characters `c`, each replaced
by a string of `m` characters: the length found is `n * m`, the length of
the string `strsub` writes, and the length requested from `buf_realloc` is
`n + n * m + 1`, as long as `n` and `n * m` are below `2^64`. -/
theorem strsub_alloc_step_run (c : Char) (rep : List Char) (n m L : Nat) (b : buf)
    (hm : rep.length = m) (hn : n < SIZE_MOD) (hL : n * m = L) (hLlt : L < SIZE_MOD) :
    ∃ out, strsub_count (n + 1) n (List.replicate n c) [c] 1 m = some L ∧
      strsub (n + 1) [] (List.replicate n c) [c] rep = some out ∧
      out.length = L ∧
      strsub_alloc_step (n + 1) { b := b, str := List.replicate n c, src_len := n }
          ⟨[c], some rep⟩
        = some { b := buf_realloc b (size_add (size_add n L) 1), str := out,
                 src_len := L } := by
  have hlen : (replace_all [c] rep (List.replicate n c)).length = L := by
    rw [replace_all_run_length, hm, hL]
  obtain ⟨h1, h2, h3⟩ := strsub_alloc_step_res
    { b := b, str := List.replicate n c, src_len := n } ⟨[c], some rep⟩
    (by simp) (by simp) (by simpa using hn) (by simpa [hlen] using hLlt) (n + 1) (by simp)
  simp only [Option.getD_some, hlen, strlen, List.length_singleton, hm] at h1 h2 h3
  exact ⟨_, h1, h2, hlen, h3⟩

/-- C25 fails on the code where the doubled capacity wraps: the second half
of the claim, that the requested length is below the capacity left, does not
hold, while the first half does (the length found is exact).  Take a string
of `2^31` characters `a` (2 GiB) and the pair that replaces `a` by `2^32`
characters (4 GiB).  The first call `buf_realloc(&buf, src_len + 1)` of
`strsub_alloc` leaves the capacity `2^32 + 3`.  The counting loop finds
`2^63`, the exact length of the string that `strsub` writes; the step
requests `2^31 + 2^63 + 1`, and `len * 2 + 1` wraps to `2^32 + 3`: the
capacity `buf_realloc` leaves is below the requested length, and `strsub` is
called on a buffer that is too small for what it writes. -/
theorem strsub_alloc_step_under_allocates :
    buf_realloc { len := 0, cap := 0 } (size_add 2147483648 1)
      = { len := 2147483649, cap := 4294967299 } ∧
    ∃ out,
      strsub_count (2147483648 + 1) 2147483648 (List.replicate 2147483648 'a') ['a']
          1 4294967296 = some 9223372036854775808 ∧
      strsub (2147483648 + 1) [] (List.replicate 2147483648 'a') ['a']
          (List.replicate 4294967296 'a') = some out ∧
      out.length = 9223372036854775808 ∧
      strsub_alloc_step (2147483648 + 1)
          { b := { len := 2147483649, cap := 4294967299 },
            str := List.replicate 2147483648 'a', src_len := 2147483648 }
          ⟨['a'], some (List.replicate 4294967296 'a')⟩
        = some { b := { len := 9223372039002259457, cap := 4294967299 }, str := out,
                 src_len := 9223372036854775808 } ∧
      size_add (size_add 2147483648 9223372036854775808) 1 = 9223372039002259457 ∧
      ¬ (9223372039002259457 < 4294967299) := by
  refine ⟨by decide, ?_⟩
  obtain ⟨out, h1, h2, hout, h⟩ := strsub_alloc_step_run 'a' (List.replicate 4294967296 'a')
    2147483648 4294967296 9223372036854775808 { len := 2147483649, cap := 4294967299 }
    (List.length_replicate _ _) (by decide) (by decide) (by decide)
  have hb : buf_realloc { len := 2147483649, cap := 4294967299 }
      (size_add (size_add 2147483648 9223372036854775808) 1)
        = { len := 9223372039002259457, cap := 4294967299 } := by decide
  rw [hb] at h
  exact ⟨out, h1, h2, hout, h, by decide, by decide⟩

/-! ### Termination of `strsub_alloc` -/

theorem page_path_mono_succ (h : heap) :
    ∀ (fuel n : Nat) (p : List Char), page_path fuel h n = some p →
      page_path (fuel + 1) h n = some p := by
  intro fuel
  induction fuel with
  | zero => intro n p hp; simp [page_path] at hp
  | succ fuel ih =>
    intro n p hp
    rw [page_path] at hp
    rw [page_path]
    cases ht : h[n]? with
    | none => simp [ht] at hp
    | some t =>
      simp only [ht] at hp ⊢
      cases hpar : t.parent with
      | none => simpa only [hpar] using hp
      | some par =>
        simp only [hpar] at hp ⊢
        cases hq : page_path fuel h par with
        | none => simp [hq] at hp
        | some q =>
          rw [ih par q hq]
          simpa only [hq] using hp

theorem page_path_mono (h : heap) (n : Nat) (p : List Char) {f1 f2 : Nat} (hle : f1 ≤ f2)
    (hp : page_path f1 h n = some p) : page_path f2 h n = some p := by
  induction hle with
  | refl => exact hp
  | step _ ih => exact page_path_mono_succ h _ n p ih

theorem page_path_total {h : heap} {rank : Nat → Nat} (hwf : heap_wf h rank) :
    ∀ (fuel n : Nat) (t : page), h[n]? = some t → rank n < fuel →
      ∃ p, page_path fuel h n = some p := by
  intro fuel
  induction fuel with
  | zero => intro n t _ hr; omega
  | succ fuel ih =>
    intro n t ht hr
    rw [page_path]
    simp only [ht]
    cases hpar : t.parent with
    | none => exact ⟨_, rfl⟩
    | some par =>
      obtain ⟨hrk, pp, hpp, _⟩ := wf_parent hwf ht hpar
      obtain ⟨q, hq⟩ := ih par pp hpp (by omega)
      simp only [hq]
      exact ⟨_, rfl⟩

/-- The path of a page, read off its definition. -/
theorem page_path_shape {h : heap} {fuel n : Nat} {t : page} {p : List Char}
    (ht : h[n]? = some t) (hp : page_path fuel h n = some p) :
    (t.is_parent = true → ['/'] <:+ p) ∧
    (t.is_parent = false → t.parent = none → p = []) ∧
    (t.is_parent = false → ∀ par, t.parent = some par →
      ∃ q, page_path fuel h par = some q ∧ p = q ++ t.name) := by
  cases fuel with
  | zero => simp [page_path] at hp
  | succ fuel =>
    rw [page_path] at hp
    simp only [ht] at hp
    cases hpar : t.parent with
    | none =>
      simp only [hpar, Option.some.injEq] at hp
      subst hp
      refine ⟨fun hip => by simp [hip], fun hip _ => by simp [hip], fun _ par hc => by cases hc⟩
    | some par =>
      simp only [hpar] at hp
      cases hq : page_path fuel h par with
      | none => simp [hq] at hp
      | some q =>
        simp only [hq, Option.some.injEq] at hp
        subst hp
        refine ⟨fun hip => ?_, fun _ hc => ?_, fun hip par' hc => ?_⟩
        · simp only [hip, if_true]
          exact ⟨q ++ t.name, rfl⟩
        · cases hc
        · have e : par = par' := Option.some.inj hc
          subst e
          exact ⟨q, page_path_mono_succ h fuel par q hq, by simp [hip]⟩

/-- C21, as the code has it: on a well-formed heap every page `n` has a
path `p`, the one `page_path_append` renders, and into an empty buffer that
is large enough `page_url_append` renders `p` followed by `index.html` when
`n` is a container, where `p` ends with the separator, so that the URL ends
with `/index.html`; and it renders exactly `p` when `n` is not a container.
For a page that is not a container and has a parent, `p` is the path of the
parent followed by the name of the page, with nothing behind it; for a page
that is neither a container nor has a parent, `p` is empty. -/
theorem page_url_append_render (h : heap) (rank : Nat → Nat) (hwf : heap_wf h rank)
    (n : Nat) (t : page) (ht : h[n]? = some t) :
    ∃ p, (∀ fuel, rank n < fuel → page_path fuel h n = some p) ∧
      (∀ size fuel, rank n < fuel → p.length < size →
        page_path_append fuel h n [] size = some p) ∧
      (t.is_parent = true → ∀ size fuel, rank n < fuel →
        p.length + PAGE_INDEX.length < size →
        page_url_append fuel h n [] size = some (p ++ PAGE_INDEX) ∧
        "/index.html".toList <:+ p ++ PAGE_INDEX) ∧
      (t.is_parent = false → ∀ size fuel, rank n < fuel → p.length < size →
        page_url_append fuel h n [] size = some p) ∧
      (t.is_parent = false → ∀ par, t.parent = some par →
        ∃ q, (∀ fuel, rank par < fuel → page_path fuel h par = some q) ∧
          p = q ++ t.name) ∧
      (t.is_parent = false → t.parent = none → p = []) := by
  obtain ⟨p, hp⟩ := page_path_total hwf (rank n + 1) n t ht (by omega)
  have hall : ∀ fuel, rank n < fuel → page_path fuel h n = some p :=
    fun fuel hf => page_path_mono h n p (by omega) hp
  have hrender : ∀ size fuel, rank n < fuel → p.length < size →
      page_path_append fuel h n [] size = some p :=
    fun size fuel hf hfit => page_path_append_fit h size fuel n p (hall fuel hf) hfit
  obtain ⟨hs1, hs2, hs3⟩ := page_path_shape ht hp
  refine ⟨p, hall, hrender, ?_, ?_, ?_, hs2⟩
  · intro hip size fuel hf hfit
    refine ⟨?_, ?_⟩
    · simp only [page_url_append, ht, hrender size fuel hf (by omega), hip, if_true]
      rw [strcat_safe_fit _ _ _ hfit]
    · obtain ⟨q, hq⟩ := hs1 hip
      refine ⟨q, ?_⟩
      rw [← hq]
      simp [PAGE_INDEX, List.append_assoc]
  · intro hip size fuel hf hfit
    simp only [page_url_append, ht, hrender size fuel hf hfit, hip, Bool.false_eq_true,
      if_false]
  · intro hip par hpar
    obtain ⟨q, hq, hpq⟩ := hs3 hip par hpar
    obtain ⟨hrk, pp, hpp, _⟩ := wf_parent hwf ht hpar
    obtain ⟨q', hq'⟩ := page_path_total hwf (rank par + 1) par pp hpp (by omega)
    have e1 := page_path_mono h par q (Nat.le_max_left (rank n + 1) (rank par + 1)) hq
    have e2 := page_path_mono h par q' (Nat.le_max_right (rank n + 1) (rank par + 1)) hq'
    rw [e1] at e2
    have e := Option.some.inj e2
    subst e
    exact ⟨q, fun fuel hf => page_path_mono h par q (by omega) hq', hpq⟩

/-- C21 on the tree of `test_page_url_append` with its buffer of 32 bytes:
the container `child2` gives `/child2/index.html`. -/
theorem page_url_append_render_witness :
    ∃ p, page_url_append 3 test_heap 2 [] 32 = some (p ++ "index.html".toList) ∧
      page_path 3 test_heap 2 = some p ∧ p = "/child2/".toList := by
  obtain ⟨p, h1, _, h3, _⟩ := page_url_append_render test_heap id (by decide) 2
    { page_zero with
      name := "child2".toList, is_parent := true, parent := some 0, special := [3] }
    (by rfl)
  have hp := h1 3 (by decide)
  have e : page_path 3 test_heap 2 = some "/child2/".toList := by decide
  rw [e] at hp
  have e2 := Option.some.inj hp
  subst e2
  exact ⟨_, (h3 rfl 32 3 (by decide) (by decide)).1, e, rfl⟩

/-- C21 as stated fails for a page that is neither a container nor has a
parent: the URL is empty and does not end with the name of the page. -/
theorem page_url_append_render_counterexample :
    page_url_append 2 [ { page_zero with name := "root".toList } ] 0 [] 32 = some [] ∧
      ¬ "root".toList <:+ [] := by
  decide

/-! ### Termination of `page_find` -/

/-- A page returned by `page_find` is a page of the heap. -/
theorem page_find_result_valid (h : heap) :
    ∀ (f n : Nat) (path : List Char) (c : Nat),
      page_find f h n path = some (some c) → c < h.length := by
  intro f
  induction f with
  | zero => intro n path c hyp; simp [page_find] at hyp
  | succ f ih =>
    intro n path c hyp
    obtain ⟨t, ht⟩ := page_find_valid _ _ _ _ _ hyp
    rw [page_find_succ f h n path t ht] at hyp
    have hn : n < h.length := (List.getElem?_eq_some.1 ht).1
    repeat' (split at hyp)
    all_goals first
      | exact ih _ _ _ hyp
      | (simp only [Option.some.injEq] at hyp; subst hyp; exact hn)
      | cases hyp

/-- C27: on a heap whose parent links form no cycle and whose links are
consistent, `page_find` returns for every start page and every path: every
run with enough fuel gives the same result, which is a page of the heap or
`NULL`. -/
theorem page_find_terminates (h : heap) (rank : Nat → Nat) (hwf : heap_wf h rank)
    (n : Nat) (t : page) (ht : h[n]? = some t) (path : List Char) :
    ∃ r, page_find_returns h n path r ∧
      (∀ r', page_find_returns h n path r' → r' = r) ∧
      (∀ f r', page_find f h n path = some r' → r' = r) ∧
      (∀ c, r = some c → c < h.length) := by
  obtain ⟨r, hr⟩ := page_find_total hwf ht path
  refine ⟨r, hr, fun r' hr' => page_find_returns_unique hr' hr,
    fun f r' hf => page_find_returns_unique (page_find_returns_of_run hf) hr, ?_⟩
  intro c hc
  subst hc
  obtain ⟨f, hf⟩ := page_find_returns_run hr
  exact page_find_result_valid h f n path c hf

/-- C27 on the tree of `test_page_find`, from `.child3` with a path that
climbs, restarts at the root and descends. -/
theorem page_find_terminates_witness :
    ∃ r, page_find_returns test_heap 3 "./../child1//child2/.child3".toList r ∧
      (∀ c, r = some c → c < test_heap.length) := by
  obtain ⟨r, h1, _, _, h4⟩ := page_find_terminates test_heap id (by decide) 3
    { page_zero with name := ".child3".toList, parent := some 2 } (by rfl)
    "./../child1//child2/.child3".toList
  exact ⟨r, h1, h4⟩

/-! ### Falling back to the parent -/

/-- A page without a child for the first segment of a path hands the whole
path to its parent. -/
theorem returns_fallback {h : heap} {rank : Nat → Nat} (hwf : heap_wf h rank)
    {a par : Nat} {ta : page} (hta : h[a]? = some ta) (hpar : ta.parent = some par)
    (s r : List Char) (hs : s ≠ []) (hslash : '/' ∉ s) (hdot : s ≠ ['.'])
    (hr : ∀ x ∈ r, isspace x = false) (hrlen : r.length ≤ PATH_MAX)
    (hno : page_child_named h ta s = none) {res : Option Nat}
    (hres : page_find_returns h par (s ++ '/' :: r) res) :
    page_find_returns h a (s ++ '/' :: r) res := by
  have c1 := head_seg_ne_slash s ('/' :: r) hs hslash
  by_cases hlen : s.length ≤ NAME_MAX
  · exact returns_up hwf hta (s ++ '/' :: r) s r c1
      (sscanf_path_seg s r hs hslash hlen hr hrlen) hs hdot hno hpar hres
  · have hlong : NAME_MAX < s.length := by omega
    have hsplit := sscanf_path_cut s ('/' :: r) hslash hlong (Or.inr ⟨r, rfl⟩)
    have hne : s.take NAME_MAX ≠ [] := by
      intro e
      have := congrArg List.length e
      simp only [List.length_take, List.length_nil, NAME_MAX] at this hlong
      omega
    have hnd : s.take NAME_MAX ≠ ['.'] := by
      intro e
      have := congrArg List.length e
      simp only [List.length_take, List.length_singleton, NAME_MAX] at this hlong
      omega
    have hno' : page_child_named h ta (s.take NAME_MAX) = none :=
      child_named_long hwf ta _ (by
        simp only [List.length_take]
        omega)
    exact returns_up hwf hta (s ++ '/' :: r) (s.take NAME_MAX) [] c1 hsplit hne hnd hno' hpar
      hres

/-- C26, as the code has it: let `a` be the child of `n` that the segment
`s1` selects, and let `a` have no child, ordinary or special, named `s2`.
Then `page_find(n, s1/s2/r)` is `page_find(n, s2/r)` and
`page_find(n, s1/s2)` is `page_find(n, s2)`, all four calls returning, for
segments that are non-empty, hold no separator and are not the dot, and
for `s2` and `r` free of white space with `s2/r` at most `PATH_MAX`
characters long, so that `child_path` takes it whole. -/
theorem page_find_fallback (h : heap) (rank : Nat → Nat) (hwf : heap_wf h rank)
    (n a : Nat) (t ta : page) (ht : h[n]? = some t) (hta : h[a]? = some ta)
    (s1 s2 r : List Char)
    (hs1 : s1 ≠ [] ∧ '/' ∉ s1 ∧ s1 ≠ ['.'])
    (hs2 : s2 ≠ [] ∧ '/' ∉ s2 ∧ s2 ≠ ['.'] ∧ ∀ x ∈ s2, isspace x = false)
    (hr : ∀ x ∈ r, isspace x = false)
    (hlen : (s2 ++ '/' :: r).length ≤ PATH_MAX)
    (hc : page_child_named h t s1 = some a) (hno : page_child_named h ta s2 = none) :
    (∃ res, page_find_returns h n (s1 ++ '/' :: (s2 ++ '/' :: r)) res ∧
      page_find_returns h n (s2 ++ '/' :: r) res) ∧
    (∃ res, page_find_returns h n (s1 ++ '/' :: s2) res ∧
      page_find_returns h n s2 res) := by
  obtain ⟨hs1e, hs1s, hs1d⟩ := hs1
  obtain ⟨hs2e, hs2s, hs2d, hs2w⟩ := hs2
  obtain ⟨hmem, _⟩ := page_child_named_spec hc
  obtain ⟨ta', hta', hpar⟩ := wf_child hwf ht hmem
  rw [hta] at hta'
  have e := Option.some.inj hta'
  subst e
  have hl := hlen
  simp only [List.length_append, List.length_cons] at hl
  have hw : ∀ x ∈ s2 ++ '/' :: r, isspace x = false := by
    intro x hx
    rcases List.mem_append.1 hx with h1 | h1
    · exact hs2w x h1
    · rcases List.mem_cons.1 h1 with h2 | h2
      · subst h2; decide
      · exact hr x h2
  refine ⟨?_, ?_⟩
  · obtain ⟨res, hres⟩ := page_find_total hwf ht (s2 ++ '/' :: r)
    refine ⟨res, ?_, hres⟩
    have hup := returns_fallback hwf hta hpar s2 r hs2e hs2s hs2d hr (by omega) hno hres
    exact returns_descent hwf ht s1 (s2 ++ '/' :: r) hs1e hs1s hs1d hc hw hlen hup
  · obtain ⟨res, hres⟩ := page_find_total hwf ht s2
    refine ⟨res, ?_, hres⟩
    have hup := returns_single_up hwf hta s2 hs2e hs2s hs2d hno hpar hres
    exact returns_descent hwf ht s1 s2 hs1e hs1s hs1d hc hs2w (by omega) hup

/-- C26 on the tree of `test_page_find`: `child2` has no child `child1`, so
`child2/child1/` and `child2/child1` resolve from the root like `child1/`
and `child1`, to a page that does not lie below `child2`. -/
theorem page_find_fallback_witness :
    (∃ res, page_find_returns test_heap 0
        ("child2".toList ++ '/' :: ("child1".toList ++ '/' :: [])) res ∧
      page_find_returns test_heap 0 ("child1".toList ++ '/' :: []) res) ∧
    (∃ res, page_find_returns test_heap 0 ("child2".toList ++ '/' :: "child1".toList) res ∧
      page_find_returns test_heap 0 "child1".toList res) :=
  page_find_fallback test_heap id (by decide) 0 2
    { page_zero with name := "root".toList, is_parent := true, children := [1, 2] }
    { page_zero with
      name := "child2".toList, is_parent := true, parent := some 0, special := [3] }
    (by rfl) (by rfl) "child2".toList "child1".toList [] (by decide) (by decide) (by decide)
    (by decide) (by decide) (by decide)

set_option maxRecDepth 100000 in
/-- C26 as stated fails when `s2/r` is longer than `PATH_MAX` characters.
In the tree of `test_page_find` the page `child2` has no child `child1`.
With `r` made of 1018 separators and `child1`, the path `child2/child1/r`
from the root hands `child2` only the first 1024 characters of `child1/r`,
which end in separators and resolve to the root, while `child1/r` itself
resolves from the root to `child1`. -/
theorem page_find_fallback_counterexample :
    page_child_named test_heap
        { page_zero with name := "root".toList, is_parent := true, children := [1, 2] }
        "child2".toList = some 2 ∧
      page_child_named test_heap
        { page_zero with
          name := "child2".toList, is_parent := true, parent := some 0, special := [3] }
        "child1".toList = none ∧
      page_find_returns test_heap 0
        ("child2".toList ++ '/' ::
          ("child1".toList ++ '/' :: (List.replicate 1018 '/' ++ "child1".toList))) (some 0) ∧
      page_find_returns test_heap 0
        ("child1".toList ++ '/' :: (List.replicate 1018 '/' ++ "child1".toList)) (some 1) ∧
      ¬ ∃ res,
        page_find_returns test_heap 0
          ("child2".toList ++ '/' ::
            ("child1".toList ++ '/' :: (List.replicate 1018 '/' ++ "child1".toList))) res ∧
        page_find_returns test_heap 0
          ("child1".toList ++ '/' :: (List.replicate 1018 '/' ++ "child1".toList)) res := by
  have h1 : page_find_returns test_heap 0
      ("child2".toList ++ '/' ::
        ("child1".toList ++ '/' :: (List.replicate 1018 '/' ++ "child1".toList))) (some 0) :=
    page_find_returns_of_run (f := 1100) (by decide)
  have h2 : page_find_returns test_heap 0
      ("child1".toList ++ '/' :: (List.replicate 1018 '/' ++ "child1".toList)) (some 1) :=
    page_find_returns_of_run (f := 1100) (by decide)
  refine ⟨by decide, by decide, h1, h2, ?_⟩
  rintro ⟨res, a, b⟩
  have e1 := page_find_returns_unique a h1
  have e2 := page_find_returns_unique b h2
  rw [e1] at e2
  cases e2

/-! ### The template cache: `tpl_cached` -/

theorem strcmp_eq_self (s : List Char) : strcmp_eq s s = true := by
  simp [strcmp_eq]

/-- A cached template stays the first match when further templates are
appended. -/
theorem tpl_find_append (path : List Char) (t : tpl) :
    ∀ (ts more : List tpl), tpl_find ts path = some t →
      tpl_find (ts ++ more) path = some t := by
  intro ts
  induction ts with
  | nil => intro more h; simp [tpl_find] at h
  | cons a ts ih =>
    intro more h
    simp only [List.cons_append, tpl_find] at h ⊢
    split
    · rename_i hc
      simpa only [hc, if_true] using h
    · rename_i hc
      rw [if_neg hc] at h
      exact ih more h

theorem tpl_find_new (path : List Char) (str : Option (List Char)) :
    ∀ ts : List tpl, tpl_find ts path = none →
      tpl_find (ts ++ [{ path := path, str := str }]) path
        = some { path := path, str := str } := by
  intro ts
  induction ts with
  | nil =>
    intro _
    simp only [List.nil_append, tpl_find, strcmp_eq_self, if_true]
  | cons a ts ih =>
    intro h
    simp only [List.cons_append, tpl_find] at h ⊢
    split
    · rename_i hc
      simp only [hc, if_true] at h
      cases h
    · rename_i hc
      rw [if_neg hc] at h
      exact ih h

/-- A call of `tpl_cached` only appends to the array. -/
theorem tpl_cached_appends (file_alloc : List Char → Option (List Char)) (ts : List tpl)
    (path : List Char) : ∃ more, (tpl_cached file_alloc ts path).2 = ts ++ more := by
  simp only [tpl_cached]
  cases tpl_find ts path with
  | some t => exact ⟨[], by simp⟩
  | none =>
    simp only
    split
    · exact ⟨[], by simp⟩
    · exact ⟨_, rfl⟩

theorem tpl_run_appends :
    ∀ (calls : List ((List Char → Option (List Char)) × List Char)) (ts : List tpl),
      ∃ more, tpl_run calls ts = ts ++ more := by
  intro calls
  induction calls with
  | nil => intro ts; exact ⟨[], by simp [tpl_run]⟩
  | cons c calls ih =>
    intro ts
    obtain ⟨file_alloc, path⟩ := c
    obtain ⟨m1, h1⟩ := tpl_cached_appends file_alloc ts path
    obtain ⟨m2, h2⟩ := ih (ts ++ m1)
    refine ⟨m1 ++ m2, ?_⟩
    simp only [tpl_run, h1, h2, List.append_assoc]

/-- A lookup of a cached path returns the cached text and leaves the array
as it is, whatever the file system holds. -/
theorem tpl_cached_hit (file_alloc : List Char → Option (List Char)) (ts : List tpl)
    (path : List Char) (t : tpl) (h : tpl_find ts path = some t) :
    tpl_cached file_alloc ts path = (t.str, ts) := by
  simp only [tpl_cached, h]

/-- C24, as the code has it, for a path shorter than `PATH_MAX`, which the
`path` field of a cached template holds whole.  Let no cached template have
the path.  While fewer than 128 templates are cached, `tpl_cached` returns
what `file_alloc` gives for the full path, `NULL` included, and appends it
to the array under the path; every later lookup of the path, after any run
of further calls and whatever the file system then holds, returns that
recorded answer and changes nothing.  Once 128 templates are cached, the
lookup of the new path returns `NULL` and leaves the array unchanged. -/
theorem tpl_cached_memo (file_alloc : List Char → Option (List Char)) (s_tpls : List tpl)
    (path : List Char) (hlen : path.length < PATH_MAX)
    (hnew : tpl_find s_tpls path = none) :
    (s_tpls.length < TPL_MAX →
      tpl_cached file_alloc s_tpls path
        = (file_alloc (tpl_full_path path),
           s_tpls ++ [{ path := path, str := file_alloc (tpl_full_path path) }]) ∧
      ∀ (calls : List ((List Char → Option (List Char)) × List Char))
        (later : List Char → Option (List Char)),
        tpl_cached later
            (tpl_run calls
              (s_tpls ++ [{ path := path, str := file_alloc (tpl_full_path path) }])) path
          = (file_alloc (tpl_full_path path),
             tpl_run calls
              (s_tpls ++ [{ path := path, str := file_alloc (tpl_full_path path) }]))) ∧
    (TPL_MAX ≤ s_tpls.length →
      ∀ later : List Char → Option (List Char),
        tpl_cached later s_tpls path = (none, s_tpls)) ∧
    (path.length + 6 < PATH_MAX → tpl_full_path path = "theme/".toList ++ path) := by
  have hkey : strcpy_safe path PATH_MAX = path := by
    simp only [strcpy_safe]
    exact List.take_of_length_le (by omega)
  refine ⟨?_, ?_, ?_⟩
  · intro hroom
    refine ⟨?_, ?_⟩
    · have : ¬ s_tpls.length ≥ TPL_MAX := by omega
      simp only [tpl_cached, hnew, hkey]
      rw [if_neg this]
    · intro calls later
      obtain ⟨more, hm⟩ := tpl_run_appends calls
        (s_tpls ++ [{ path := path, str := file_alloc (tpl_full_path path) }])
      have hfind := tpl_find_append path _ _ more
        (tpl_find_new path (file_alloc (tpl_full_path path)) s_tpls hnew)
      rw [← hm] at hfind
      exact tpl_cached_hit later _ path _ hfind
  · intro hfull later
    have : s_tpls.length ≥ TPL_MAX := hfull
    simp only [tpl_cached, hnew]
    rw [if_pos this]
  · intro hshort
    simp only [tpl_full_path, s_tpl_path]
    have e : "theme".toList ++ '/' :: path = "theme/".toList ++ path := by
      simp
    rw [e]
    apply List.take_of_length_le
    have h6 : "theme/".toList.length = 6 := rfl
    rw [List.length_append, h6]
    omega

/-- C24 on the template `base.html`: the first lookup reads the file, and a
later lookup, after a lookup of `page.html` and with the file gone, returns
the recorded text. -/
theorem tpl_cached_memo_witness :
    tpl_cached (fun _ => some "B".toList) [] "base.html".toList
      = (some "B".toList, [{ path := "base.html".toList, str := some "B".toList }]) ∧
    tpl_cached (fun _ => none)
        (tpl_run [(fun _ => none, "page.html".toList)]
          ([] ++ [{ path := "base.html".toList, str := some "B".toList }]))
        "base.html".toList
      = (some "B".toList,
         tpl_run [(fun _ => none, "page.html".toList)]
          ([] ++ [{ path := "base.html".toList, str := some "B".toList }])) :=
  ⟨((tpl_cached_memo (fun _ => some "B".toList) [] "base.html".toList (by decide)
      (by decide)).1 (by decide)).1,
   ((tpl_cached_memo (fun _ => some "B".toList) [] "base.html".toList (by decide)
      (by decide)).1 (by decide)).2 [(fun _ => none, "page.html".toList)] (fun _ => none)⟩

set_option maxRecDepth 100000 in
/-- C24 as stated fails for a path of `PATH_MAX` characters or more: the
`path` field keeps only its first `PATH_MAX - 1` characters, the comparison
with the path never succeeds, and the second lookup reads the file system
again, returns its new answer and caches a second template. -/
theorem tpl_cached_memo_counterexample :
    tpl_cached (fun _ => some "B".toList) [] (List.replicate 1024 'a')
      = (some "B".toList, [{ path := List.replicate 1023 'a', str := some "B".toList }]) ∧
    tpl_cached (fun _ => none)
        [{ path := List.replicate 1023 'a', str := some "B".toList }] (List.replicate 1024 'a')
      = (none, [{ path := List.replicate 1023 'a', str := some "B".toList },
                { path := List.replicate 1023 'a', str := none }]) := by
  decide

/-! ### The placeholder byte of `conf_read` -/

theorem forall2_ph_refl : ∀ l : List Char, List.Forall₂ ph_sub l l := by
  intro l
  induction l with
  | nil => exact List.Forall₂.nil
  | cons c l ih => exact List.Forall₂.cons (Or.inl rfl) ih

theorem forall2_ph_append {a b c d : List Char} (h1 : List.Forall₂ ph_sub a b)
    (h2 : List.Forall₂ ph_sub c d) : List.Forall₂ ph_sub (a ++ c) (b ++ d) := by
  induction h1 with
  | nil => exact h2
  | cons hxy _ ih => exact List.Forall₂.cons hxy ih

/-- The line loop changes the text only by writing placeholders. -/
theorem scan_buf_ph (E : List Char) :
    ∀ ls : List (List Char), List.Forall₂ ph_sub (fm_join ls E) (scan_buf ls E) := by
  intro ls
  induction ls with
  | nil => exact forall2_ph_refl E
  | cons l ls ih =>
    have hnl : List.Forall₂ ph_sub ('\n' :: fm_join ls E) (CONF_NULL_PH :: scan_buf ls E) :=
      List.Forall₂.cons (Or.inr rfl) ih
    cases hs : strstr l CONF_KV_DELIM with
    | some i =>
      have hsplit := strstr_some_split CONF_KV_DELIM l i hs
      have e1 : fm_join (l :: ls) E
          = l.take i ++ (' ' :: "= ".toList ++ l.drop (i + CONF_KV_DELIM_LEN))
              ++ '\n' :: fm_join ls E := by
        have : l.take i ++ (' ' :: "= ".toList ++ l.drop (i + CONF_KV_DELIM_LEN)) = l := by
          have h3 : CONF_KV_DELIM.length = CONF_KV_DELIM_LEN := rfl
          rw [h3] at hsplit
          calc l.take i ++ (' ' :: "= ".toList ++ l.drop (i + CONF_KV_DELIM_LEN))
              = l.take i ++ CONF_KV_DELIM ++ l.drop (i + CONF_KV_DELIM_LEN) := by
                simp [CONF_KV_DELIM, List.append_assoc]
            _ = l := hsplit.symm
        rw [this]
        rfl
      have e2 : scan_buf (l :: ls) E
          = l.take i ++ (CONF_NULL_PH :: "= ".toList ++ l.drop (i + CONF_KV_DELIM_LEN))
              ++ CONF_NULL_PH :: scan_buf ls E := by
        simp [scan_buf, hs, List.append_assoc]
      rw [e1, e2]
      refine forall2_ph_append (forall2_ph_append (forall2_ph_refl _) ?_) hnl
      exact List.Forall₂.cons (Or.inr rfl) (forall2_ph_refl _)
    | none =>
      cases hr : strstr (fm_join ls E) CONF_KV_DELIM with
      | none =>
        have e2 : scan_buf (l :: ls) E = fm_join (l :: ls) E := by
          simp only [scan_buf, hs, hr, fm_join]
        rw [e2]
        exact forall2_ph_refl _
      | some j =>
        have e2 : scan_buf (l :: ls) E = l ++ CONF_NULL_PH :: scan_buf ls E := by
          simp only [scan_buf, hs, hr]
        rw [e2]
        exact forall2_ph_append (forall2_ph_refl l) hnl

theorem nul_ph_ne (c : Char) : nul_ph c ≠ CONF_NULL_PH := by
  unfold nul_ph
  split
  · decide
  · rename_i h; exact h

theorem map_nul_ph_free (l : List Char) : CONF_NULL_PH ∉ l.map nul_ph := by
  intro h
  rw [List.mem_map] at h
  obtain ⟨c, _, hc⟩ := h
  exact nul_ph_ne c hc

theorem cut_ph_free (s : List Char) : CONF_NULL_PH ∉ cut_ph s := by
  intro h
  have := List.mem_takeWhile_imp h
  simp at this

theorem line_in_fm_join (E : List Char) :
    ∀ (ls : List (List Char)) (l : List Char), l ∈ ls → l <:+: fm_join ls E := by
  intro ls
  induction ls with
  | nil => intro l hl; simp at hl
  | cons a ls ih =>
    intro l hl
    rcases List.mem_cons.1 hl with e | e
    · subst e
      exact (List.prefix_append l ('\n' :: fm_join ls E)).isInfix
    · have hsuf : fm_join ls E <:+ fm_join (a :: ls) E := ⟨a ++ ['\n'], by simp [fm_join]⟩
      exact (ih l e).trans hsuf.isInfix

theorem fm_content_suffix (E : List Char) :
    ∀ (ls : List (List Char)) (T : List Char), fm_content ls E = some T →
      T <:+ fm_join ls E := by
  intro ls
  induction ls with
  | nil =>
    intro T h
    simp only [fm_content] at h
    split at h
    · simp only [Option.some.injEq] at h
      subst h
      exact List.drop_suffix _ _
    · cases h
  | cons l ls ih =>
    intro T h
    have hsuf : fm_join ls E <:+ fm_join (l :: ls) E := ⟨l ++ ['\n'], by simp [fm_join]⟩
    simp only [fm_content] at h
    cases hs : strstr l CONF_KV_DELIM with
    | some i =>
      simp only [hs] at h
      exact (ih T h).trans hsuf
    | none =>
      simp only [hs] at h
      cases hr : strstr (fm_join ls E) CONF_KV_DELIM with
      | none => simp [hr] at h
      | some j =>
        simp only [hr] at h
        exact (ih T h).trans hsuf

/-- The document `conf_read` returns for a text that begins with the
delimiter line, with its buffer. -/
theorem conf_read_fm_res (ls : List (List Char)) (E : List Char)
    (hls : ∀ l ∈ ls, block_line l) (hE : block_end E) (hn : NUL ∉ fm_text ls E)
    (fuel : Nat) (hfuel : (fm_text ls E).length < fuel) :
    conf_read fuel (fm_text ls E) = some
      { pairs := (scan_pairs ("---".toList ++ [CONF_NULL_PH]).length ls E).take CONF_MAX,
        content := scan_content ("---".toList ++ [CONF_NULL_PH]).length ls E,
        buf := some ((("---".toList ++ [CONF_NULL_PH]) ++ scan_buf ls E).map nul_ph) } := by
  have hjn : NUL ∉ fm_join ls E := fun h => hn (by simp [fm_text, h])
  have h4 : CONF_FM_DELIM.length = 4 := rfl
  have hlen : (fm_text ls E).length = 4 + (fm_join ls E).length := by
    simp only [fm_text, List.length_append, h4]
  have hge := fm_join_length_ge E ls
  have htext : fm_text ls E = [] ++ "---".toList ++ '\n' :: fm_join ls E := rfl
  have hstart : strncmp_eq (cstr (fm_text ls E) 0) CONF_FM_DELIM CONF_FM_DELIM_LEN = true := by
    have := cstr_append [] (fm_text ls E) hn
    simp only [List.nil_append, List.length_nil] at this
    rw [this]
    exact strncmp_delim _
  have hlines := conf_read_lines_scan ls fuel [] "---".toList E [] hls hE hjn (by decide)
    (by decide) (by simp) (by omega)
  rw [← htext] at hlines
  simp only [List.length_nil, List.nil_append] at hlines
  have hbufn : NUL ∉ ("---".toList ++ [CONF_NULL_PH]) ++ scan_buf ls E := by
    simp only [List.mem_append, not_or]
    exact ⟨⟨by decide, by decide⟩, scan_buf_nul E ls hjn⟩
  have hnul := conf_read_nul_eq fuel [] (("---".toList ++ [CONF_NULL_PH]) ++ scan_buf ls E)
    hbufn (by
      have h3 : ("---".toList ++ [CONF_NULL_PH]).length = 4 := rfl
      rw [List.length_append, h3, scan_buf_length]
      omega)
  simp only [List.nil_append, List.length_nil] at hnul
  simp only [conf_read, hstart, Bool.not_true, Bool.false_eq_true, if_false, hlines]
  rw [hnul]

theorem forall2_ph_index {a X : List Char} (h : List.Forall₂ ph_sub a X) :
    ∀ i : Nat, a[i]? = some CONF_NULL_PH → (X.map nul_ph)[i]? = some NUL := by
  induction h with
  | nil => intro i hi; simp at hi
  | cons hxy _ ih =>
    intro i hi
    cases i with
    | zero =>
      simp only [List.getElem?_cons_zero, Option.some.injEq] at hi
      subst hi
      have : nul_ph CONF_NULL_PH = NUL := by decide
      rcases hxy with e | e <;> simp [e, this]
    | succ i =>
      simp only [List.getElem?_cons_succ] at hi
      simpa only [List.map_cons, List.getElem?_cons_succ] using ih i hi

/-- C29: for a text that begins with the delimiter line, the buffer
`conf_read` leaves is the text with placeholders written in places and then
every byte `0x7F` turned into a terminator, so every `0x7F` of the text is a
terminator in it and no `0x7F` is left.  No key, value or content returned
holds `0x7F`; each is its source text cut before the first `0x7F`; and for a
text without `0x7F` each is a contiguous piece of the text: key and value
the parts of their line, the content the end of the text.  A text without
front matter is returned whole as content, its bytes `0x7F` included. -/
theorem conf_read_sentinel (ls : List (List Char)) (E : List Char)
    (hls : ∀ l ∈ ls, block_line l) (hE : block_end E) (hn : NUL ∉ fm_text ls E)
    (fuel : Nat) (hfuel : (fm_text ls E).length < fuel) :
    (∃ c X, conf_read fuel (fm_text ls E) = some c ∧
      List.Forall₂ ph_sub (fm_text ls E) X ∧ c.buf = some (X.map nul_ph) ∧
      (∀ i : Nat, (fm_text ls E)[i]? = some CONF_NULL_PH → (X.map nul_ph)[i]? = some NUL) ∧
      CONF_NULL_PH ∉ X.map nul_ph ∧
      (∀ kv ∈ conf_entries c, CONF_NULL_PH ∉ kv.1 ∧ CONF_NULL_PH ∉ kv.2) ∧
      (∀ T ∈ conf_content c, CONF_NULL_PH ∉ T) ∧
      conf_entries c
        = ((ls.filterMap line_entry).take CONF_MAX).map (fun kv => (cut_ph kv.1, cut_ph kv.2)) ∧
      conf_content c = (fm_content ls E).map cut_ph ∧
      (CONF_NULL_PH ∉ fm_text ls E →
        conf_entries c = (ls.filterMap line_entry).take CONF_MAX ∧
        conf_content c = fm_content ls E ∧
        (∀ kv ∈ conf_entries c, kv.1 <:+: fm_text ls E ∧ kv.2 <:+: fm_text ls E) ∧
        (∀ T ∈ conf_content c, T <:+ fm_text ls E))) ∧
    (∀ (t : List Char) (f : Nat), NUL ∉ t → ¬ CONF_FM_DELIM <+: t →
      ∃ c, conf_read f t = some c ∧ conf_entries c = [] ∧ conf_content c = some t ∧
        c.buf = some t) := by
  refine ⟨?_, ?_⟩
  · have hres := conf_read_fm_res ls E hls hE hn fuel hfuel
    obtain ⟨c, hc, he, hcont⟩ := conf_read_fm ls E hls hE hn fuel hfuel
    have hX : List.Forall₂ ph_sub (fm_text ls E)
        (("---".toList ++ [CONF_NULL_PH]) ++ scan_buf ls E) := by
      have e : fm_text ls E = ("---".toList ++ ['\n']) ++ fm_join ls E := rfl
      rw [e]
      refine forall2_ph_append (forall2_ph_append (forall2_ph_refl _) ?_) (scan_buf_ph E ls)
      exact List.Forall₂.cons (Or.inr rfl) List.Forall₂.nil
    have hbuf : c.buf = some ((("---".toList ++ [CONF_NULL_PH]) ++ scan_buf ls E).map nul_ph) := by
      rw [hres] at hc
      have := Option.some.inj hc
      rw [← this]
    have hmem : ∀ kv ∈ (ls.filterMap line_entry).take CONF_MAX,
        ∃ l ∈ ls, line_entry l = some kv := by
      intro kv hkv
      have := List.mem_of_mem_take hkv
      rw [List.mem_filterMap] at this
      exact this
    have hjoin : fm_join ls E <:+ fm_text ls E := ⟨CONF_FM_DELIM, rfl⟩
    refine ⟨c, _, hc, hX, hbuf, forall2_ph_index hX, map_nul_ph_free _, ?_, ?_, he, hcont, ?_⟩
    · intro kv hkv
      rw [he, List.mem_map] at hkv
      obtain ⟨kv0, _, rfl⟩ := hkv
      exact ⟨cut_ph_free _, cut_ph_free _⟩
    · intro T hT
      rw [hcont] at hT
      cases hfc : fm_content ls E with
      | none => rw [hfc] at hT; cases hT
      | some T0 =>
        rw [hfc] at hT
        simp only [Option.map_some', Option.mem_def, Option.some.injEq] at hT
        subst hT
        exact cut_ph_free _
    · intro hph
      have hall : ∀ kv ∈ (ls.filterMap line_entry).take CONF_MAX,
          (cut_ph kv.1, cut_ph kv.2) = kv := by
        intro kv hkv
        obtain ⟨l, hl, hle⟩ := hmem kv hkv
        obtain ⟨_, _, hk, hv⟩ := line_entry_some l kv.1 kv.2 hle
        have h1 : CONF_NULL_PH ∉ kv.1 := fun e => hph (by
          simp only [fm_text, List.mem_append]
          exact Or.inr (mem_fm_join E _ ls l hl (hk _ e)))
        have h2 : CONF_NULL_PH ∉ kv.2 := fun e => hph (by
          simp only [fm_text, List.mem_append]
          exact Or.inr (mem_fm_join E _ ls l hl (hv _ e)))
        rw [cut_ph_of_not_mem _ h1, cut_ph_of_not_mem _ h2]
      have he' : conf_entries c = (ls.filterMap line_entry).take CONF_MAX := by
        rw [he]
        calc ((ls.filterMap line_entry).take CONF_MAX).map
              (fun kv => (cut_ph kv.1, cut_ph kv.2))
            = ((ls.filterMap line_entry).take CONF_MAX).map id := List.map_congr_left hall
          _ = (ls.filterMap line_entry).take CONF_MAX := List.map_id _
      have hc' : conf_content c = fm_content ls E := by
        rw [hcont]
        cases hfc : fm_content ls E with
        | none => rfl
        | some T0 =>
          have hsuf := (fm_content_suffix E ls T0 hfc).trans hjoin
          have hT0 : CONF_NULL_PH ∉ T0 := fun e => hph (hsuf.subset e)
          rw [Option.map_some', cut_ph_of_not_mem _ hT0]
      refine ⟨he', hc', ?_, ?_⟩
      · intro kv hkv
        rw [he'] at hkv
        obtain ⟨l, hl, hle⟩ := hmem kv hkv
        obtain ⟨hsplit, _, _, _⟩ := line_entry_some l kv.1 kv.2 hle
        have hlin : l <:+: fm_text ls E := (line_in_fm_join E ls l hl).trans hjoin.isInfix
        have hk : kv.1 <:+: l := ⟨[], CONF_KV_DELIM ++ kv.2, by
          rw [hsplit]; simp [List.append_assoc]⟩
        have hv : kv.2 <:+: l := ⟨kv.1 ++ CONF_KV_DELIM, [], by
          rw [hsplit]; simp [List.append_assoc]⟩
        exact ⟨hk.trans hlin, hv.trans hlin⟩
      · intro T hT
        rw [hc'] at hT
        exact (fm_content_suffix E ls T hT).trans hjoin
  · intro t f hnt hfm
    have hc : cstr t 0 = t := by
      have := cstr_append [] t hnt
      simpa using this
    have hs : ¬ strncmp_eq (cstr t 0) CONF_FM_DELIM CONF_FM_DELIM_LEN = true := by
      rw [hc]
      exact fun h => hfm ((strncmp_fm_iff t).1 h)
    refine ⟨{ pairs := [], content := some 0, buf := some t }, ?_, ?_, ?_, rfl⟩
    · simp only [conf_read]
      rw [if_pos (by simpa using hs)]
    · simp [conf_entries]
    · simp only [conf_content, hc]

/-- C29 on a document with the byte `0x7F` in a key, a value and the
content: each is returned cut before it. -/
theorem conf_read_sentinel_witness :
    ∃ c, conf_read 64 "---\nk\x7fx = v\x7fy\n---\nT\x7fU".toList = some c ∧
      conf_entries c = [("k".toList, "v".toList)] ∧
      conf_content c = some "T".toList := by
  obtain ⟨⟨c, _, h1, _, _, _, _, _, _, h8, h9, _⟩, _⟩ := conf_read_sentinel
    ["k\x7fx = v\x7fy".toList] "---\nT\x7fU".toList (by decide) (by decide) (by decide)
    64 (by decide)
  exact ⟨c, h1, h8, h9⟩

end HC
